import Mathlib

/-!
# hoa-news: a verification development

A shallow embedding of the report pipeline of `HITSZ-OpenAuto/hoa-news`
(bot classifier, time conversion, commit aggregation, Markdown rendering and the
daily-report update), followed by theorems about it.

Conventions of the embedding.

* Go strings are Lean strings (sequences of Unicode code points); the files and API
  fields the program handles are UTF-8 text.
* A `time.Time` is an instant (nanoseconds since the Unix epoch, unbounded) together
  with the offset of its zone in seconds east of UTC.  Zones are fixed offsets: the
  times the program builds come from `time.Parse` with the RFC 3339 layout, which
  yields UTC or a fixed numeric offset.
* Standard-library functions (`strings`, `sort`, `time`, `fmt`) are modelled by
  definitions in the first sections below; the functions of the repository follow.
* Effects are made explicit: the results of the network calls are inputs, the file
  that is read is an input and the file that is written is the output.
-/

namespace Hoa

/-! ## Strings (package `strings`) -/

/-- The code points `unicode.IsSpace` accepts. -/
def isSpace (c : Char) : Bool :=
  let n := c.toNat
  n = 0x20 || (0x09 ≤ n && n ≤ 0x0D) || n = 0x85 || n = 0xA0 || n = 0x1680 ||
    (0x2000 ≤ n && n ≤ 0x200A) || n = 0x2028 || n = 0x2029 || n = 0x202F ||
    n = 0x205F || n = 0x3000

/-- The function `strings.TrimSpace`: leading and trailing white space removed. -/
def TrimSpace (s : String) : String :=
  String.mk ((s.data.dropWhile isSpace).reverse.dropWhile isSpace).reverse

/-- The function `unicode.ToLower` on one code point. ASCII letters are mapped by
the library directly; beyond ASCII the library consults the Unicode case tables,
which are the parameter `caseTable`. -/
def toLowerRune (caseTable : Char → Char) (c : Char) : Char :=
  if c.toNat < 128 then
    (if 'A'.toNat ≤ c.toNat ∧ c.toNat ≤ 'Z'.toNat then Char.ofNat (c.toNat + 32) else c)
  else caseTable c

/-- The function `strings.ToLower`. -/
def ToLower (caseTable : Char → Char) (s : String) : String :=
  String.mk (s.data.map (toLowerRune caseTable))

/-- The function `strings.HasSuffix`. -/
def HasSuffix (s suffix : String) : Bool :=
  suffix.data.reverse.isPrefixOf s.data.reverse

/-- The function `strings.Index` on code-point lists: the position of the first
occurrence of `pat`, `none` where Go returns `-1`. -/
def strIndex (pat : List Char) : List Char → Option Nat
  | [] => if pat.isPrefixOf [] then some 0 else none
  | c :: cs =>
    if pat.isPrefixOf (c :: cs) then some 0
    else (strIndex pat cs).map (fun i => i + 1)

/-- The slice `s[:idx]` at the first occurrence `idx` of `pat`, and all of `s` when
`pat` does not occur, on code-point lists. -/
def cutAtFirst (pat s : List Char) : List Char :=
  match strIndex pat s with
  | some idx => s.take idx
  | none => s

/-- The function `strings.Index`. -/
def Index (s substr : String) : Option Nat := strIndex substr.data s.data

/-- The part of `s` up to the first `'\n'` on code-point lists. -/
def firstLineChars : List Char → List Char
  | [] => []
  | c :: cs => if c = '\n' then [] else c :: firstLineChars cs

/-- The expression `strings.Split(s, "\n")[0]`: the text before the first newline,
all of `s` when it has none. -/
def firstLine (s : String) : String := String.mk (firstLineChars s.data)

/-- The function `strings.Cut`: the text before and after the first occurrence of
`sep`, and whether it occurs. -/
def Cut (s sep : String) : String × String × Bool :=
  match Index s sep with
  | some i => (String.mk (s.data.take i), String.mk (s.data.drop (i + sep.length)), true)
  | none => (s, "", false)

/-- The function `strings.Join`. -/
def Join : List String → String → String
  | [], _ => ""
  | [a], _ => a
  | a :: b :: rest, sep => a ++ sep ++ Join (b :: rest) sep

/-- The number of positions of `s` at which `pat` occurs. -/
def countOcc (pat : List Char) : List Char → Nat
  | [] => if pat.isPrefixOf [] then 1 else 0
  | c :: cs => (if pat.isPrefixOf (c :: cs) then 1 else 0) + countOcc pat cs

/-- The number of occurrences of `substr` in `s`. -/
def Count (s substr : String) : Nat := countOcc substr.data s.data

/-! ## Maps with string keys -/

/-- A Go `map[string]string`, as an association list read from the front. -/
abbrev StringMap := List (String × String)

/-- The map read `m[k]`: the zero value `""` when the key is absent. -/
def StringMap.get (m : StringMap) (k : String) : String := (m.lookup k).getD ""

/-- The map write `m[k] = v`. -/
def StringMap.set (m : StringMap) (k v : String) : StringMap := (k, v) :: m

/-- Whether `k` is a key of `m`. -/
def StringMap.hasKey (m : StringMap) (k : String) : Bool := (m.lookup k).isSome

/-! ## Calendar (package `time`) -/

/-- Leap years of the proleptic Gregorian calendar. -/
def isLeap (year : Int) : Bool := year % 4 = 0 ∧ (year % 100 ≠ 0 ∨ year % 400 = 0)

/-- The number of days of a month. -/
def daysIn (month year : Int) : Int :=
  if month = 2 then (if isLeap year then 29 else 28)
  else if month = 4 ∨ month = 6 ∨ month = 9 ∨ month = 11 then 30 else 31

/-- Days from 1970-01-01 to the given civil date (years are counted from 1 March, so
that the leap day is the last day of a year). -/
def daysFromCivil (year month day : Int) : Int :=
  let y := if month ≤ 2 then year - 1 else year
  let mp := if month ≤ 2 then month + 9 else month - 3
  365 * y + y / 4 - y / 100 + y / 400 + (153 * mp + 2) / 5 + (day - 1) - 719468

/-- A day number split into 400-, 100-, 4- and 1-year cycles counted from
0000-03-01, and the day within the March-based year. -/
structure DayCycle where
  n400 : Int
  n100 : Int
  n4 : Int
  n1 : Int
  doy : Int
deriving DecidableEq, Repr

/-- The cycle decomposition of a day number (days since 1970-01-01). -/
def cycleOfDays (z : Int) : DayCycle :=
  let d := z + 719468
  let n400 := d / 146097
  let r := d % 146097
  let n100 := min (r / 36524) 3
  let r := r - 36524 * n100
  let n4 := r / 1461
  let r := r % 1461
  let n1 := min (r / 365) 3
  ⟨n400, n100, n4, n1, r - 365 * n1⟩

/-- Year, month and day of a cycle decomposition. -/
def civilOfCycle (c : DayCycle) : Int × Int × Int :=
  let y := 400 * c.n400 + 100 * c.n100 + 4 * c.n4 + c.n1
  let mp := (5 * c.doy + 2) / 153
  let day := c.doy - (153 * mp + 2) / 5 + 1
  let month := if mp < 10 then mp + 3 else mp - 9
  (if month ≤ 2 then y + 1 else y, month, day)

/-- Year, month and day of a day number (days since 1970-01-01). -/
def civilFromDays (z : Int) : Int × Int × Int := civilOfCycle (cycleOfDays z)

/-- A date of the proleptic Gregorian calendar. -/
def validDate (year month day : Int) : Prop :=
  1 ≤ month ∧ month ≤ 12 ∧ 1 ≤ day ∧ day ≤ daysIn month year

/-- A `time.Time`: an instant and the zone it is displayed in. -/
structure Time where
  /-- Nanoseconds since 1970-01-01T00:00:00Z. -/
  unixNano : Int
  /-- Offset of the zone, seconds east of UTC. -/
  offset : Int
deriving DecidableEq, Repr

/-- The duration `time.Hour`, in nanoseconds. -/
def Hour : Int := 3600 * 1000000000

/-- The method `Time.Add`. -/
def Time.Add (t : Time) (d : Int) : Time := { t with unixNano := t.unixNano + d }

/-- The method `Time.After`: `t` is a later instant than `u`. -/
def Time.After (t u : Time) : Bool := decide (u.unixNano < t.unixNano)

/-- Seconds since the epoch of the wall clock shown in the zone of `t`. -/
def Time.localSec (t : Time) : Int := t.unixNano / 1000000000 + t.offset

/-- The day number of the calendar day shown in the zone of `t`. -/
def Time.localDay (t : Time) : Int := t.localSec / 86400

/-- The method `Time.Year`. -/
def Time.Year (t : Time) : Int := (civilFromDays t.localDay).1

/-- The method `Time.Month`, January being 1. -/
def Time.Month (t : Time) : Int := (civilFromDays t.localDay).2.1

/-- The method `Time.Day`. -/
def Time.Day (t : Time) : Int := (civilFromDays t.localDay).2.2

/-- The method `Time.Weekday`, Sunday being 0 (1970-01-01 was a Thursday). -/
def Time.Weekday (t : Time) : Int := (t.localDay + 4) % 7

/-- The function `time.Date` for the zone UTC. -/
def DateUTC (year month day hour min sec nsec : Int) : Time :=
  { unixNano := (daysFromCivil year month day * 86400 + hour * 3600 + min * 60 + sec)
      * 1000000000 + nsec,
    offset := 0 }

/-! ## Decimal numbers (packages `fmt` and `time`) -/

/-- The decimal digit of `n % 10`. -/
def digitChar (n : Nat) : Char := Char.ofNat (48 + n % 10)

/-- The decimal digits of `n`, least significant first, at least one digit. -/
def digitsRev : Nat → Nat → List Char
  | 0, _ => []
  | fuel + 1, n => digitChar n :: (if n / 10 = 0 then [] else digitsRev fuel (n / 10))

/-- The decimal digits of `n`. -/
def natDigits (n : Nat) : List Char := (digitsRev (n + 1) n).reverse

/-- The helper `appendInt` of package `time`: `x` in decimal, zero-padded to at
least `width` digits, with a leading minus sign when negative. -/
def appendInt (x : Int) (width : Nat) : List Char :=
  let ds := natDigits x.natAbs
  (if x < 0 then ['-'] else []) ++ List.replicate (width - ds.length) '0' ++ ds

/-- The verb `%d` of package `fmt`. -/
def fmtInt (x : Int) : String := String.mk (appendInt x 0)

/-- The method `Time.Format` with the layout `2006-01-02`. -/
def Time.formatDate (t : Time) : String :=
  String.mk (appendInt t.Year 4 ++ '-' :: appendInt t.Month 2 ++ '-' :: appendInt t.Day 2)

/-- The method `Time.Format` with the layout `2006-01-02 15:04:05`. -/
def Time.formatDateTime (t : Time) : String :=
  let s := t.localSec % 86400
  String.mk (appendInt t.Year 4 ++ '-' :: appendInt t.Month 2 ++ '-' :: appendInt t.Day 2
    ++ ' ' :: appendInt (s / 3600) 2 ++ ':' :: appendInt (s % 3600 / 60) 2
    ++ ':' :: appendInt (s % 60) 2)

/-! ## Parsing RFC 3339 (package `time`) -/

/-- Whether `c` is an ASCII decimal digit. -/
def isDigit (c : Char) : Bool := 48 ≤ c.toNat && c.toNat ≤ 57

/-- The value of a string of decimal digits, most significant first; `none` when a
character is not a digit. -/
def digitsValue : List Char → Nat → Option Nat
  | [], acc => some acc
  | c :: cs, acc => if isDigit c then digitsValue cs (acc * 10 + (c.toNat - 48)) else none

/-- The local helper `parseUint` of the library's `parseRFC3339`: a decimal number
that must lie between `lo` and `hi`. -/
def parseUint (cs : List Char) (lo hi : Int) : Option Int :=
  match digitsValue cs 0 with
  | some x => if lo ≤ (x : Int) ∧ (x : Int) ≤ hi then some (x : Int) else none
  | none => none

/-- The helper `parseNanoseconds`: the fraction digits, cut to nine places, as
nanoseconds. -/
def parseNanoseconds (digits : List Char) : Int :=
  let ds := digits.take 9
  ((digitsValue ds 0).getD 0 : Nat) * 10 ^ (9 - ds.length)

/-- The zone designator that ends an RFC 3339 timestamp: `Z`, or a numeric offset
`+hh:mm` / `-hh:mm`; the result is the offset in seconds. -/
def parseZone : List Char → Option Int
  | ['Z'] => some 0
  | [sg, h1, h2, c, m1, m2] =>
    match parseUint [h1, h2] 0 23, parseUint [m1, m2] 0 59 with
    | some hr, some mm =>
      if (sg = '-' ∨ sg = '+') ∧ c = ':' then
        some (if sg = '-' then -((hr * 60 + mm) * 60) else (hr * 60 + mm) * 60)
      else none
    | _, _ => none
  | _ => none

/-- The optional fraction of a second and what follows it. -/
def parseFraction : List Char → Int × List Char
  | '.' :: d :: rest =>
    if isDigit d then
      (parseNanoseconds (d :: rest.takeWhile isDigit), rest.dropWhile isDigit)
    else (0, '.' :: d :: rest)
  | rest => (0, rest)

/-- The parser `parseRFC3339` of package `time`, which `time.Parse` tries first for
this layout; `none` when it does not accept the string. The accepted strings are
`YYYY-MM-DDTHH:MM:SS`, an optional fraction after a period, and a zone designator,
with every field in range (seconds at most 59, zone hour at most 23 and zone minute
at most 59). A numeric zone gives a time in the zone of that fixed offset. -/
def parseRFC3339 (s : String) : Option Time :=
  match s.data with
  | y1 :: y2 :: y3 :: y4 :: c4 :: m1 :: m2 :: c7 :: d1 :: d2 :: c10 :: h1 :: h2 :: c13 ::
      n1 :: n2 :: c16 :: s1 :: s2 :: rest =>
    match parseUint [y1, y2, y3, y4] 0 9999, parseUint [m1, m2] 1 12 with
    | some year, some month =>
      match parseUint [d1, d2] 1 (daysIn month year), parseUint [h1, h2] 0 23,
          parseUint [n1, n2] 0 59, parseUint [s1, s2] 0 59 with
      | some day, some hour, some min, some sec =>
        if c4 = '-' ∧ c7 = '-' ∧ c10 = 'T' ∧ c13 = ':' ∧ c16 = ':' then
          let frac := parseFraction rest
          match parseZone frac.2 with
          | some zone =>
            some { unixNano := (DateUTC year month day hour min sec frac.1).unixNano
                      - zone * 1000000000,
                   offset := zone }
          | none => none
        else none
      | _, _, _, _ => none
    | _, _ => none
  | _ => none

/-- The helper `getnum` of package `time`: a number of one or two decimal digits at
the head of `s`, of two digits when `fixed`, and what follows it. -/
def getnum (s : List Char) (fixed : Bool) : Option (Int × List Char) :=
  match s with
  | [] => none
  | a :: rest =>
    if isDigit a then
      match rest with
      | b :: rest2 =>
        if isDigit b then
          some ((((a.toNat - 48) * 10 + (b.toNat - 48) : Nat) : Int), rest2)
        else if fixed then none
        else some (((a.toNat - 48 : Nat) : Int), rest)
      | [] => if fixed then none else some (((a.toNat - 48 : Nat) : Int), rest)
    else none

/-- The helper `skip` of package `time`, for a prefix of one character that is not a
space: the value after that character. -/
def skip (value : List Char) (c : Char) : Option (List Char) :=
  match value with
  | v :: rest => if v = c then some rest else none
  | [] => none

/-- The fraction of a second that the general parser reads after the seconds when
the layout has none: a period or a comma and at least one digit. -/
def parseCommaOrPeriodFraction : List Char → Int × List Char
  | sep :: d :: rest =>
    if (sep = '.' ∨ sep = ',') ∧ isDigit d = true then
      (parseNanoseconds (d :: rest.takeWhile isDigit), rest.dropWhile isDigit)
    else (0, sep :: d :: rest)
  | rest => (0, rest)

/-- The zone element `Z07:00` of the layout in the general parser: `Z`, or a sign and
`hh:mm` with the hour at most 24 and the minute at most 60; the result is the offset
in seconds and what follows the zone. -/
def parseColonZone : List Char → Option (Int × List Char)
  | 'Z' :: rest => some (0, rest)
  | sign :: h1 :: h2 :: c :: m1 :: m2 :: rest =>
    if c = ':' then
      match getnum [h1, h2] true, getnum [m1, m2] true with
      | some hr, some mm =>
        if hr.1 > 24 ∨ mm.1 > 60 then none
        else if sign = '+' then some ((hr.1 * 60 + mm.1) * 60, rest)
        else if sign = '-' then some (-((hr.1 * 60 + mm.1) * 60), rest)
        else none
      | _, _ => none
    else none
  | _ => none

/-- The general parser `parse` of package `time` for the layout `time.RFC3339`
(`2006-01-02T15:04:05Z07:00`): a year of four digits, month and day of two digits,
an hour of one or two digits, minute and second of two digits, an optional fraction
after a period or a comma, and the zone; every element is checked for its range, the
day against the month at the end, and nothing may follow the zone. -/
def parse (s : String) : Option Time :=
  match s.data with
  | y1 :: y2 :: y3 :: y4 :: value =>
    (parseUint [y1, y2, y3, y4] 0 9999).bind fun year =>
    (skip value '-').bind fun value =>
    (getnum value true).bind fun month =>
    if month.1 ≤ 0 ∨ 12 < month.1 then none else
    (skip month.2 '-').bind fun value =>
    (getnum value true).bind fun day =>
    (skip day.2 'T').bind fun value =>
    (getnum value false).bind fun hour =>
    if hour.1 < 0 ∨ 24 ≤ hour.1 then none else
    (skip hour.2 ':').bind fun value =>
    (getnum value true).bind fun min =>
    if min.1 < 0 ∨ 60 ≤ min.1 then none else
    (skip min.2 ':').bind fun value =>
    (getnum value true).bind fun sec =>
    if sec.1 < 0 ∨ 60 ≤ sec.1 then none else
    let frac := parseCommaOrPeriodFraction sec.2
    (parseColonZone frac.2).bind fun zone =>
    if zone.2 ≠ [] then none
    else if day.1 < 1 ∨ day.1 > daysIn month.1 year then none
    else some { unixNano := (DateUTC year month.1 day.1 hour.1 min.1 sec.1 frac.1).unixNano
                  - zone.1 * 1000000000,
                offset := zone.1 }
  | _ => none

/-- The call `time.Parse(time.RFC3339, s)`: `none` when the library reports an error.
The library first tries its parser for this layout, `parseRFC3339`, and when that
does not accept the string it runs the general parser. A numeric zone gives a time in
the zone of that fixed offset. -/
def Parse (s : String) : Option Time :=
  match parseRFC3339 s with
  | some t => some t
  | none => parse s

/-! ## Package `utils` -/

/-- The table `knownBots` of `internal/utils/common.go`. -/
def knownBots : List String :=
  ["GitHub Actions", "github-actions", "actions-user", "github-actions[bot]",
   "dependabot", "dependabot[bot]", "renovate", "renovate[bot]"]

/-- The function `utils.IsBot`. -/
def IsBot (caseTable : Char → Char) (authorName authorLogin : String) : Bool :=
  let name := ToLower caseTable (TrimSpace authorName)
  let login := ToLower caseTable (TrimSpace authorLogin)
  if name ≠ "" ∧ knownBots.contains name then true
  else if name ≠ "" ∧ HasSuffix name "[bot]" then true
  else if login ≠ "" ∧ knownBots.contains login then true
  else if login ≠ "" ∧ HasSuffix login "[bot]" then true
  else false

/-- The function `utils.UTCToBJT`. -/
def UTCToBJT (utcTimeStr : String) : String :=
  match Parse utcTimeStr with
  | none => utcTimeStr
  | some utcTime => (utcTime.Add (8 * Hour)).formatDateTime

/-- The table `weekdays`. -/
def weekdays : List String := ["周一", "周二", "周三", "周四", "周五", "周六", "周日"]

/-- The function `ChineseWeekday` (`chineseWeekday` in the packages `summary` and
`news`): `weekdays[int(t.Weekday()+6)%7]`; `none` stands for an index out of range. -/
def ChineseWeekday (t : Time) : Option String :=
  weekdays.get? ((t.Weekday + 6) % 7).toNat

/-! ## Sorting (package `sort`) -/

/-- The inner loop of the library's insertion sort: the element `x` moves left past
every neighbour it is `less` than. The sorted part of the slice is given with its
last element first, and so is the result. -/
def sinkLeft {α : Type} (less : α → α → Bool) (x : α) : List α → List α
  | [] => [x]
  | y :: rest => if less x y then y :: sinkLeft less x rest else x :: y :: rest

/-- The function `sort.Slice`, by the insertion sort the library runs on slices of
at most twelve elements. On longer slices the library switches to a quicksort; the
result is again a permutation ordered by `less`, and only the order among elements
that `less` does not separate can differ. -/
def sortSlice {α : Type} (less : α → α → Bool) (data : List α) : List α :=
  (data.foldl (fun sorted x => sinkLeft less x sorted) []).reverse

/-! ## Rendering the commit list (`BuildMarkdown`) -/

/-- The struct `CommitEntry` (packages `report`, `summary` and `news`). -/
structure CommitEntry where
  AuthorName : String
  AuthorLogin : String
  Date : Time
  Message : String
  RepoName : String
deriving DecidableEq, Repr

/-- One write to the string builder of `BuildMarkdown`. -/
inductive Chunk where
  /-- The section heading. -/
  | title : Chunk
  /-- The day heading printed for a commit date. -/
  | day (date : Time) : Chunk
  /-- The bullet of a commit. -/
  | bullet (commit : CommitEntry) : Chunk
deriving DecidableEq, Repr

/-- The text of the bullet of one commit. -/
def bulletText (repoTitles : StringMap) (orgName : String) (commit : CommitEntry) : String :=
  let title := repoTitles.get commit.RepoName
  let title := if title = "" then commit.RepoName else title
  let message := firstLine commit.Message
  "- " ++ commit.AuthorName ++ " 在 [" ++ title ++ "](https://github.com/" ++ orgName ++ "/"
    ++ commit.RepoName ++ ") 中提交了信息：" ++ message ++ "\n\n"

/-- The text of a day heading; the weekday lookup is `ChineseWeekday`. -/
def dayHeadingText (date : Time) : String :=
  "### " ++ (ChineseWeekday date).getD "" ++ " (" ++ fmtInt date.Month ++ "."
    ++ fmtInt date.Day ++ ")\n\n"

/-- The text a write appends to the builder. -/
def Chunk.text (repoTitles : StringMap) (orgName : String) : Chunk → String
  | .title => "## 更新内容\n\n"
  | .day date => dayHeadingText date
  | .bullet commit => bulletText repoTitles orgName commit

/-- The loop of `BuildMarkdown` over the sorted commits; `prevDate` is the loop
variable of that name. -/
def markdownLoop : List CommitEntry → String → List Chunk
  | [], _ => []
  | commit :: rest, prevDate =>
    let dateStr := commit.Date.formatDate
    if dateStr ≠ prevDate then
      Chunk.day commit.Date :: Chunk.bullet commit :: markdownLoop rest dateStr
    else Chunk.bullet commit :: markdownLoop rest prevDate

/-- The comparison `BuildMarkdown` sorts with. -/
def newerFirst (a b : CommitEntry) : Bool := a.Date.After b.Date

/-- The writes `BuildMarkdown` makes, in order. -/
def markdownChunks (commits : List CommitEntry) : List Chunk :=
  if commits.length = 0 then []
  else Chunk.title :: markdownLoop (sortSlice newerFirst commits) ""

/-- The function `BuildMarkdown` (the same in `report`, `summary` and `news`). -/
def BuildMarkdown (commits : List CommitEntry) (repoTitles : StringMap) (orgName : String) :
    String :=
  String.join ((markdownChunks commits).map (Chunk.text repoTitles orgName))

/-- The commits whose bullets occur in a sequence of writes, in order. -/
def bulletsOf : List Chunk → List CommitEntry
  | [] => []
  | Chunk.bullet c :: rest => c :: bulletsOf rest
  | _ :: rest => bulletsOf rest

/-- The dates of the day headings in a sequence of writes, in order. -/
def dayHeadingsOf : List Chunk → List Time
  | [] => []
  | Chunk.day d :: rest => d :: dayHeadingsOf rest
  | _ :: rest => dayHeadingsOf rest

/-- Every bullet of a sequence of writes stands under a day heading of its own
calendar day: `current` is the calendar day of the last heading seen, if any. -/
def underOwnDay : Option String → List Chunk → Prop
  | _, [] => True
  | _, Chunk.day d :: rest => underOwnDay (some d.formatDate) rest
  | current, Chunk.bullet c :: rest =>
    current = some c.Date.formatDate ∧ underOwnDay current rest
  | current, Chunk.title :: rest => underOwnDay current rest

/-! ## The days of the rendered list -/

/-- The entries of a list in runs of equal calendar day `YYYY-MM-DD`, in order: each
run with the date of its first entry. -/
def dayGroups : List CommitEntry → List (Time × List CommitEntry)
  | [] => []
  | c :: rest =>
    match dayGroups rest with
    | g :: gs =>
      if c.Date.formatDate = g.1.formatDate then (c.Date, c :: g.2) :: gs
      else (c.Date, [c]) :: g :: gs
    | [] => [(c.Date, [c])]

/-! ## The daily report (`internal/report/daily.go`) -/

/-- The struct `github.Item`, with its nested structs flattened. -/
structure Item where
  Title : String
  URL : String
  RepositoryName : String
  CreatedAt : String
  AuthorLogin : String
  Labels : List String
deriving DecidableEq, Repr

/-- The function `utcToBJT` of `daily.go`. -/
def utcToBJT (utcTimeStr : String) : String :=
  match Parse utcTimeStr with
  | none => utcTimeStr
  | some utcTime => (utcTime.Add (8 * Hour)).formatDateTime

/-- The sentinel heading of the daily report. -/
def sentinelHeading : String := "## 待解决的 Issues"

/-- The block written for one issue or pull request. -/
def renderItem (item : Item) : String :=
  "### [" ++ item.Title ++ "](" ++ item.URL ++ ")\n\n"
    ++ "- **仓库**: " ++ item.RepositoryName ++ "\n"
    ++ "- **创建于**: " ++ utcToBJT item.CreatedAt ++ "\n"
    ++ "- **作者**: " ++ item.AuthorLogin ++ "\n"
    ++ (if item.Labels.length > 0 then "- **标签**: " ++ Join item.Labels ", " ++ "\n" else "")
    ++ "\n"

/-- The body of a section: the line `noneFound` for an empty list, else the blocks
of the items. -/
def renderItems (items : List Item) (noneFound : String) : String :=
  if items.length = 0 then noneFound else String.join (items.map renderItem)

/-- What `UpdateDailyReport` writes after the sentinel heading. -/
def dailySections (issues prs : List Item) : String :=
  "\n\n" ++ renderItems issues "暂无待解决的 Issues\n\n"
    ++ "## 待合并的 Pull Requests\n\n" ++ renderItems prs "暂无待合并的 Pull Requests\n\n"

/-- The existing content cut at the sentinel heading. -/
def truncateAtSentinel (content : String) : String :=
  match Index content sentinelHeading with
  | some idx => String.mk (content.data.take idx)
  | none => content

/-- The function `report.UpdateDailyReport`, as the content it writes to the file
for the content it read from it (when the file cannot be read it returns the error
and writes nothing). -/
def UpdateDailyReport (content : String) (issues prs : List Item) : String :=
  truncateAtSentinel content ++ sentinelHeading ++ dailySections issues prs

/-! ## Commit aggregation (`runner.Summary`, `report.collectWeeklyData`) -/

/-- The struct `github.Commit`: author name, author date and message of the commit,
and the login of the GitHub account when the `author` object is present. -/
structure Commit where
  Name : String
  Date : String
  Message : String
  Login : Option String
deriving DecidableEq, Repr

/-- The answers of GitHub during one run, per repository: `none` is a failed call. -/
structure GitHub where
  /-- The call `github.ListCommitsSince(orgName, repo, since)`. -/
  ListCommitsSince : String → Option (List Commit)
  /-- The call `github.GetRawTag(orgName, repo)`. -/
  GetRawTag : String → Option String

/-- The entry built for a commit whose author date parsed as `date`. -/
def mkEntry (repo : String) (commit : Commit) (date : Time) : CommitEntry :=
  { AuthorName := commit.Name,
    AuthorLogin := commit.Login.getD "",
    Date := date.Add (8 * Hour),
    Message := commit.Message,
    RepoName := repo }

/-- The title extraction of `fetchCourseName` in package `runner`
(`strings.Index` and a slice). -/
def runner.fetchCourseName (gh : GitHub) (repoName : String) : Option String :=
  match gh.GetRawTag repoName with
  | none => none
  | some text =>
    match Index text "name:" with
    | none => none
    | some idx => some (TrimSpace (String.mk (text.data.drop (idx + "name:".length))))

/-- The loop over the commits of one repository in `runner.Summary`; the state is
the slice `commits` and the flag `containsManual`. -/
def runner.commitLoop (caseTable : Char → Char) (repo : String) :
    List Commit → List CommitEntry × Bool → List CommitEntry × Bool
  | [], st => st
  | commit :: rest, (commits, containsManual) =>
    let authorName := commit.Name
    let authorLogin := commit.Login.getD ""
    let containsManual :=
      if !IsBot caseTable authorName authorLogin then true else containsManual
    match Parse commit.Date with
    | none => runner.commitLoop caseTable repo rest (commits, containsManual)
    | some date =>
      runner.commitLoop caseTable repo rest
        (commits ++ [mkEntry repo commit date], containsManual)

/-- One iteration of the loop over the repositories in `runner.Summary`. -/
def runner.repoStep (caseTable : Char → Char) (gh : GitHub)
    (st : List CommitEntry × StringMap) (repo : String) : List CommitEntry × StringMap :=
  match gh.ListCommitsSince repo with
  | none => st
  | some repoCommits =>
    let r := runner.commitLoop caseTable repo repoCommits (st.1, false)
    if r.2 then
      match runner.fetchCourseName gh repo with
      | some name => if name ≠ "" then (r.1, st.2.set repo name) else (r.1, st.2)
      | none => (r.1, st.2)
    else (r.1, st.2)

/-- The aggregation loop of `runner.Summary`: the commit list and the title map it
builds, for the repositories in the order the map iteration visits them. -/
def runner.Summary (caseTable : Char → Char) (gh : GitHub) (repos : List String) :
    List CommitEntry × StringMap :=
  repos.foldl (runner.repoStep caseTable gh) ([], [])

/-- The title extraction of `fetchCourseName` in package `report` (`strings.Cut`). -/
def report.fetchCourseName (gh : GitHub) (repoName : String) : Option String :=
  match gh.GetRawTag repoName with
  | none => none
  | some text =>
    let r := Cut text "name:"
    if !r.2.2 then none else some (TrimSpace r.2.1)

/-- The loop over the commits of one repository in `report.collectWeeklyData`. -/
def report.commitLoop (caseTable : Char → Char) (repo : String) :
    List Commit → List CommitEntry × Bool → List CommitEntry × Bool
  | [], st => st
  | commit :: rest, (commits, containsManual) =>
    let authorName := commit.Name
    let authorLogin := commit.Login.getD ""
    if IsBot caseTable authorName authorLogin then
      report.commitLoop caseTable repo rest (commits, containsManual)
    else
      match Parse commit.Date with
      | none => report.commitLoop caseTable repo rest (commits, true)
      | some date =>
        report.commitLoop caseTable repo rest (commits ++ [mkEntry repo commit date], true)

/-- One iteration of the loop over the repositories in `report.collectWeeklyData`. -/
def report.repoStep (caseTable : Char → Char) (gh : GitHub)
    (st : List CommitEntry × StringMap) (repo : String) : List CommitEntry × StringMap :=
  match gh.ListCommitsSince repo with
  | none => st
  | some repoCommits =>
    let r := report.commitLoop caseTable repo repoCommits (st.1, false)
    if r.2 then
      match report.fetchCourseName gh repo with
      | some name => if name ≠ "" then (r.1, st.2.set repo name) else (r.1, st.2)
      | none => (r.1, st.2)
    else (r.1, st.2)

/-- The function `report.collectWeeklyData`: commits and titles, for the repositories
in the order the map iteration visits them. -/
def report.collectWeeklyData (caseTable : Char → Char) (gh : GitHub) (repos : List String) :
    List CommitEntry × StringMap :=
  repos.foldl (report.repoStep caseTable gh) ([], [])

/-! ## The summary command (`cmd/summary/main.go`) -/

/-- The table `knownBots` of `internal/news/bot.go`. -/
def news.knownBots : List String :=
  ["github-actions", "actions-user", "github-actions[bot]", "dependabot", "dependabot[bot]",
   "renovate", "renovate[bot]"]

/-- The function `news.IsBot`. -/
def news.IsBot (caseTable : Char → Char) (authorName authorLogin : String) : Bool :=
  let name := ToLower caseTable (TrimSpace authorName)
  let login := ToLower caseTable (TrimSpace authorLogin)
  if name ≠ "" ∧ news.knownBots.contains name then true
  else if name ≠ "" ∧ HasSuffix name "[bot]" then true
  else if login ≠ "" ∧ news.knownBots.contains login then true
  else if login ≠ "" ∧ HasSuffix login "[bot]" then true
  else false

/-- The loop over the commits of one repository in `main` of `cmd/summary`. -/
def cmdSummary.commitLoop (caseTable : Char → Char) (repo : String) :
    List Commit → List CommitEntry × Bool → List CommitEntry × Bool
  | [], st => st
  | commit :: rest, (commits, containsManual) =>
    let authorName := commit.Name
    let authorLogin := commit.Login.getD ""
    let containsManual :=
      if !news.IsBot caseTable authorName authorLogin then true else containsManual
    match Parse commit.Date with
    | none => cmdSummary.commitLoop caseTable repo rest (commits, containsManual)
    | some date =>
      cmdSummary.commitLoop caseTable repo rest
        (commits ++ [mkEntry repo commit date], containsManual)

/-- One iteration of the loop over the repositories in `main` of `cmd/summary`; the
answers of the REST client are those of `gh` (`listCommitsSince`, and the tag file
read by `fetchCourseName`, which extracts the title as in package `runner`). -/
def cmdSummary.repoStep (caseTable : Char → Char) (gh : GitHub)
    (st : List CommitEntry × StringMap) (repo : String) : List CommitEntry × StringMap :=
  if repo = "hoa-moe" ∨ repo = ".github" then st
  else
    match gh.ListCommitsSince repo with
    | none => st
    | some repoCommits =>
      let r := cmdSummary.commitLoop caseTable repo repoCommits (st.1, false)
      if r.2 then
        match runner.fetchCourseName gh repo with
        | some name => if name ≠ "" then (r.1, st.2.set repo name) else (r.1, st.2)
        | none => (r.1, st.2)
      else (r.1, st.2)

/-- The aggregation loop of `main` of `cmd/summary`. -/
def cmdSummary.main (caseTable : Char → Char) (gh : GitHub) (repos : List String) :
    List CommitEntry × StringMap :=
  repos.foldl (cmdSummary.repoStep caseTable gh) ([], [])

/-! ## Wall-clock readings, in the words of the specification -/

/-- The text of a zone designator: `Z` for `none`, else a sign and `hh:mm`. -/
def zoneText : Option (Char × Int × Int) → List Char
  | none => ['Z']
  | some (sign, hh, mm) => sign :: appendInt hh 2 ++ ':' :: appendInt mm 2

/-- The offset a zone designator stands for, in seconds east of UTC. -/
def zoneSeconds : Option (Char × Int × Int) → Int
  | none => 0
  | some (sign, hh, mm) => if sign = '-' then -((hh * 60 + mm) * 60) else (hh * 60 + mm) * 60

/-- The text of an RFC 3339 timestamp: `YYYY-MM-DDTHH:MM:SS`, an optional fraction of
a second (`.` and its digits, when `fraction` is not empty), and a zone designator. -/
def timestampText (year month day hour min sec : Int) (fraction : List Char)
    (zone : Option (Char × Int × Int)) : String :=
  String.mk (appendInt year 4 ++ '-' :: appendInt month 2 ++ '-' :: appendInt day 2
    ++ 'T' :: appendInt hour 2 ++ ':' :: appendInt min 2 ++ ':' :: appendInt sec 2
    ++ (if fraction = [] then [] else '.' :: fraction) ++ zoneText zone)

/-- A well-formed RFC 3339 timestamp, in the form the parser `parseRFC3339` of the
library takes: a calendar date of the years 0000 to 9999, a time of day with hour
00-23, minute 00-59 and second 00-59, optionally a fraction of a second, and the zone
`Z` or a numeric offset with hour 00-23 and minute 00-59. -/
def WellFormedRFC3339 (s : String) : Prop :=
  ∃ (year month day hour min sec : Int) (fraction : List Char)
    (zone : Option (Char × Int × Int)),
    (0 ≤ year ∧ year ≤ 9999) ∧ validDate year month day ∧ (0 ≤ hour ∧ hour ≤ 23) ∧
    (0 ≤ min ∧ min ≤ 59) ∧ (0 ≤ sec ∧ sec ≤ 59) ∧ (∀ c ∈ fraction, isDigit c = true) ∧
    (∀ sign hh mm, zone = some (sign, hh, mm) →
      (sign = '+' ∨ sign = '-') ∧ (0 ≤ hh ∧ hh ≤ 23) ∧ (0 ≤ mm ∧ mm ≤ 59)) ∧
    s = timestampText year month day hour min sec fraction zone

/-- The text of a timestamp in the wider forms: as `timestampText`, with the hour
written with at least `hourWidth` digits and the fraction introduced by `sep`. -/
def widerTimestampText (year month day hour : Int) (hourWidth : Nat) (min sec : Int)
    (sep : Char) (fraction : List Char) (zone : Option (Char × Int × Int)) : String :=
  String.mk (appendInt year 4 ++ '-' :: appendInt month 2 ++ '-' :: appendInt day 2
    ++ 'T' :: appendInt hour hourWidth ++ ':' :: appendInt min 2 ++ ':' :: appendInt sec 2
    ++ (if fraction = [] then [] else sep :: fraction) ++ zoneText zone)

/-- A timestamp in one of the forms `time.Parse` accepts for the layout RFC 3339:
the well-formed timestamps, and those with the hour written with one digit, with a
comma in place of the period before the fraction, or with a zone offset of hour 24 or
minute 60. -/
def AcceptedByParse (s : String) : Prop :=
  ∃ (year month day hour min sec : Int) (hourWidth : Nat) (sep : Char)
    (fraction : List Char) (zone : Option (Char × Int × Int)),
    (0 ≤ year ∧ year ≤ 9999) ∧ validDate year month day ∧ (0 ≤ hour ∧ hour ≤ 23) ∧
    (hourWidth = 1 ∨ hourWidth = 2) ∧
    (0 ≤ min ∧ min ≤ 59) ∧ (0 ≤ sec ∧ sec ≤ 59) ∧ (sep = '.' ∨ sep = ',') ∧
    (∀ c ∈ fraction, isDigit c = true) ∧
    (∀ sign hh mm, zone = some (sign, hh, mm) →
      (sign = '+' ∨ sign = '-') ∧ (0 ≤ hh ∧ hh ≤ 24) ∧ (0 ≤ mm ∧ mm ≤ 60)) ∧
    s = widerTimestampText year month day hour hourWidth min sec sep fraction zone

/-- The function `strings.Split` for a separator of one character, on code-point
lists: the pieces between the separators, one more than there are separators. -/
def splitChars (sep : Char) : List Char → List (List Char)
  | [] => [[]]
  | c :: cs =>
    if c = sep then [] :: splitChars sep cs
    else
      match splitChars sep cs with
      | part :: parts => (c :: part) :: parts
      | [] => [[c]]

/-- The function `strings.Split` for a separator of one character. -/
def Split (s : String) (sep : Char) : List String := (splitChars sep s.data).map String.mk

/-- The function `strings.Trim`: the leading and trailing code points that occur in
`cutset` removed. -/
def Trim (s cutset : String) : String :=
  String.mk (((s.data.dropWhile (fun c => cutset.data.contains c)).reverse.dropWhile
    (fun c => cutset.data.contains c)).reverse)

/-! ## Pagination (`internal/githubapi/client.go`, `cmd/summary/main.go`) -/

/-- The loop of `ParseNextLink` over the comma-separated parts of the header. -/
def nextLinkLoop : List String → String
  | [] => ""
  | part :: rest =>
    match Split (TrimSpace part) ';' with
    | urlSection :: relSection :: _ =>
      let urlPart := TrimSpace urlSection
      let relPart := TrimSpace relSection
      if relPart = "rel=\"next\"" then Trim urlPart "<>" else nextLinkLoop rest
    | _ => nextLinkLoop rest

/-- The function `githubapi.ParseNextLink`. -/
def ParseNextLink (linkHeader : String) : String :=
  if linkHeader = "" then "" else nextLinkLoop (Split linkHeader ',')

/-- How the pagination loop of `listCommitsSince` stands after a number of requests. -/
inductive Paging where
  /-- The loop has returned the commits. -/
  | done (commits : List Commit) : Paging
  /-- The loop has returned the error of a request. -/
  | failed : Paging
  /-- The loop is still running. -/
  | running : Paging
deriving DecidableEq, Repr

/-- The loop of `listCommitsSince` in `cmd/summary/main.go`, run for at most `fuel`
requests: `getJSON url` is the page and the `Link` header that `client.GetJSON`
returns for `url`, `none` when it returns an error. -/
def cmdSummary.listCommitsLoop (getJSON : String → Option (List Commit × String)) :
    Nat → String → List Commit → Paging
  | 0, nextURL, commits => if nextURL ≠ "" then Paging.running else Paging.done commits
  | fuel + 1, nextURL, commits =>
    if nextURL ≠ "" then
      match getJSON nextURL with
      | none => Paging.failed
      | some (page, link) =>
        cmdSummary.listCommitsLoop getJSON fuel (ParseNextLink link) (commits ++ page)
    else Paging.done commits

/-! ## The allow-list of repositories (`filterByPublicRepos`) -/

/-- The function `filterByPublicRepos` (the same in `runner/news.go`, `report/news.go`
and `fetch_opened_prs_and_issues.go`); the set `publicRepos` is given by its keys. -/
def filterByPublicRepos (items : List Item) (publicRepos : List String) : List Item :=
  if publicRepos.length = 0 then items
  else
    items.foldl
      (fun filtered item =>
        if publicRepos.contains item.RepositoryName then filtered ++ [item] else filtered)
      []

/-! ## Assembling the weekly report -/

/-- The function `report.generateSummarySection`; `summary` is the result of
`openai.GenerateWeeklySummary`, `none` when it returns an error. -/
def generateSummarySection (summary : Option String) : String :=
  match summary with
  | none => ""
  | some summaryText => if summaryText = "__NO_SUMMARY__" then "" else summaryText

/-- The function `report.assembleWeeklyReport`. -/
def assembleWeeklyReport (frontMatter summarySection markdownReport : String) : String :=
  "---\n" ++ frontMatter ++ "---\n\n"
    ++ (if summarySection ≠ "" then summarySection ++ "\n\n" else "")
    ++ markdownReport

/-- The weekly document that `runner.Summary` (and `main` of `cmd/summary`) builds
inline in the variable `finalReport`. -/
def runner.weeklyReport (frontMatter : String) (summary : Option String)
    (markdownReport : String) : String :=
  let finalReport := "---\n" ++ frontMatter ++ "---\n\n"
  let finalReport :=
    match summary with
    | some summaryText =>
      if summaryText ≠ "__NO_SUMMARY__" then finalReport ++ (summaryText ++ "\n\n")
      else finalReport
    | none => finalReport
  finalReport ++ markdownReport

/-! ## Front matter (`utils.GenerateFrontMatter`, package `yaml`) -/

/-- A YAML document as `yaml.Marshal` builds it before writing it out. -/
inductive YamlNode where
  | str (value : String) : YamlNode
  | bool (value : Bool) : YamlNode
  | seq (items : List YamlNode) : YamlNode
  | map (entries : List (String × YamlNode)) : YamlNode

/-- The keys of a mapping, in order; no keys for another node. -/
def YamlNode.keys : YamlNode → List String
  | YamlNode.map entries => entries.map Prod.fst
  | _ => []

/-- The value of a key of a mapping. -/
def YamlNode.field (key : String) : YamlNode → Option YamlNode
  | YamlNode.map entries => entries.lookup key
  | _ => none

/-- The struct `utils.Author`. -/
structure Author where
  Name : String
  Link : String
  Image : String
deriving DecidableEq, Repr

/-- The struct `utils.FrontMatter`. -/
structure FrontMatter where
  Title : String
  Date : String
  Authors : List Author
  Description : String
  ExcludeSearch : Bool
  Draft : Bool
deriving DecidableEq, Repr

/-- The mapping `yaml.Marshal` builds for an `Author`, by its field tags. -/
def Author.node (a : Author) : YamlNode :=
  YamlNode.map [("name", YamlNode.str a.Name), ("link", YamlNode.str a.Link),
    ("image", YamlNode.str a.Image)]

/-- The mapping `yaml.Marshal` builds for a `FrontMatter`: one entry per field in the
order of the struct, under the key of its tag; the tag `description,omitempty` leaves
the entry out when the string is empty. -/
def FrontMatter.node (fm : FrontMatter) : YamlNode :=
  YamlNode.map
    ([("title", YamlNode.str fm.Title), ("date", YamlNode.str fm.Date),
      ("authors", YamlNode.seq (fm.Authors.map Author.node))]
      ++ (if fm.Description = "" then [] else [("description", YamlNode.str fm.Description)])
      ++ [("excludeSearch", YamlNode.bool fm.ExcludeSearch),
          ("draft", YamlNode.bool fm.Draft)])

/-- The front matter `GenerateFrontMatter` marshals. -/
def frontMatterOf (title date description : String) (authors : List Author) : FrontMatter :=
  { Title := title, Date := date, Authors := authors, Description := description,
    ExcludeSearch := false, Draft := false }

/-- The entries of a mapping, in order; none for another node. -/
def YamlNode.entries : YamlNode → List (String × YamlNode)
  | YamlNode.map entries => entries
  | _ => []

/-- A block mapping as the encoder of package `yaml` writes it: for every entry its
key, a colon, and the value. What the encoder writes for a value after the colon (a
scalar in plain, quoted or block style up to the end of its line, a sequence with its
items on the lines that follow) is the parameter `value`. -/
def emitMapping (value : YamlNode → String) (entries : List (String × YamlNode)) : String :=
  String.join (entries.map (fun entry => entry.1 ++ ":" ++ value entry.2))

/-- The call `yaml.Marshal(&fm)` for a `FrontMatter`: the block mapping of the
struct. The field types are strings, booleans and a slice of structs of strings, for
none of which the encoder has an error. -/
def Marshal (value : YamlNode → String) (fm : FrontMatter) : Except String String :=
  Except.ok (emitMapping value fm.node.entries)

/-- The function `utils.GenerateFrontMatter`: the struct is filled in and marshalled,
and the error of `yaml.Marshal` is returned when there is one. -/
def GenerateFrontMatter (value : YamlNode → String) (title date description : String)
    (authors : List Author) : Except String String :=
  let fm := frontMatterOf title date description authors
  match Marshal value fm with
  | Except.error err => Except.error err
  | Except.ok out => Except.ok out

/-! ## The next link, in the words of the specification -/

/-- Whether a comma-separated part of the `Link` header has a second `;`-separated
section that is, after trimming, exactly `rel="next"`. -/
def hasNextRelation (part : String) : Bool :=
  match Split (TrimSpace part) ';' with
  | _ :: relSection :: _ => decide (TrimSpace relSection = "rel=\"next\"")
  | _ => false

/-- The URL of a part of the `Link` header: its first `;`-separated section, trimmed,
without the angle brackets around it. -/
def linkTarget (part : String) : String :=
  match Split (TrimSpace part) ';' with
  | urlSection :: _ => Trim (TrimSpace urlSection) "<>"
  | [] => ""

/-! ## The command line (`cmd/main.go`) -/

/-- How `main` ends: the process exits with a status, or one of the runners is
called with the values read from the environment. -/
inductive Outcome where
  | exit (status : Nat)
  | runNews (orgName : String) (publicRepos : List String)
  | runSummary (newsType orgName : String) (publicRepos : List String)
deriving DecidableEq, Repr

/-- The function `LoadPublicRepos` of `cmd/main.go`: the keys of the set it returns,
`none` for an error. The call `json.Unmarshal` into a `[]string` is the parameter
`unmarshal`. -/
def LoadPublicRepos (unmarshal : String → Option (List String))
    (getenv : String → String) : Option (List String) :=
  let reposJSON := getenv "repos_array"
  if reposJSON = "" then some []
  else
    match unmarshal reposJSON with
    | none => none
    | some repos => some repos.eraseDups

/-- The function `main` of `cmd/main.go`, as a function of `os.Args` and `os.Getenv`:
every `os.Exit` ends the run with its status. -/
def cmd.main (unmarshal : String → Option (List String)) (args : List String)
    (getenv : String → String) : Outcome :=
  if args.length < 2 then Outcome.exit 2
  else
    let orgName := getenv "ORG_NAME"
    if orgName = "" then Outcome.exit 1
    else
      match LoadPublicRepos unmarshal getenv with
      | none => Outcome.exit 1
      | some publicRepos =>
        let PAT := getenv "PERSONAL_ACCESS_TOKEN"
        if PAT = "" then Outcome.exit 1
        else
          let command := args.getD 1 ""
          if command = "news" then Outcome.runNews orgName publicRepos
          else if command = "summary" then
            let newsType := getenv "NEWS_TYPE"
            if newsType = "" then Outcome.exit 1
            else Outcome.runSummary newsType orgName publicRepos
          else Outcome.exit 2

/-! ## The daily digest (`news.UpdateDailyReport` and its copy in `report/news.go`) -/

/-- The method `Time.UTC`. -/
def Time.UTC (t : Time) : Time := { t with offset := 0 }

/-- The method `Time.Format` with the layout `15:04`. -/
def Time.formatClock (t : Time) : String :=
  let s := t.localSec % 86400
  String.mk (appendInt (s / 3600) 2 ++ ':' :: appendInt (s % 3600 / 60) 2)

/-- The loop over the commits of one repository in `UpdateDailyReport` of package
`news`; the bot test is `utils.IsBot`. -/
def news.commitLoop (caseTable : Char → Char) (repo : String) :
    List Commit → List CommitEntry → List CommitEntry
  | [], commits => commits
  | commit :: rest, commits =>
    let authorName := commit.Name
    let authorLogin := commit.Login.getD ""
    if Hoa.IsBot caseTable authorName authorLogin then
      news.commitLoop caseTable repo rest commits
    else
      match Parse commit.Date with
      | none => news.commitLoop caseTable repo rest commits
      | some date => news.commitLoop caseTable repo rest (commits ++ [mkEntry repo commit date])

/-- One iteration of the loop over the repositories in `UpdateDailyReport`. -/
def news.repoStep (caseTable : Char → Char) (gh : GitHub) (commits : List CommitEntry)
    (repo : String) : List CommitEntry :=
  match gh.ListCommitsSince repo with
  | none => commits
  | some repoCommits => news.commitLoop caseTable repo repoCommits commits

/-- The slice `commits` of `UpdateDailyReport` after the loop over the repositories,
visited in the order `repos` of the map iteration. -/
def news.collectCommits (caseTable : Char → Char) (gh : GitHub) (repos : List String) :
    List CommitEntry :=
  repos.foldl (news.repoStep caseTable gh) []

/-- The bullet written for one commit of the daily digest. -/
def news.commitBullet (orgName : String) (commit : CommitEntry) : String :=
  "- " ++ commit.AuthorName ++ " 在 [" ++ commit.RepoName ++ "](https://github.com/"
    ++ orgName ++ "/" ++ commit.RepoName ++ ") 中提交了信息：" ++ firstLine commit.Message
    ++ " (" ++ commit.Date.formatClock ++ ")\n\n"

/-- What `UpdateDailyReport` writes under the heading of the commits: the bullets of
the slice `commits` in the order of the slice. -/
def news.commitSection (orgName : String) (commits : List CommitEntry) : String :=
  if commits.length = 0 then "暂无更新\n\n"
  else String.join (commits.map (news.commitBullet orgName))

/-- The block written for one issue or pull request in the daily digest. -/
def news.renderItem (item : Item) : String :=
  "### [" ++ item.Title ++ "](" ++ item.URL ++ ")\n\n"
    ++ "- **仓库**: " ++ item.RepositoryName ++ "\n"
    ++ "- **创建于**: " ++ UTCToBJT item.CreatedAt ++ "\n"
    ++ "- **作者**: " ++ item.AuthorLogin ++ "\n"
    ++ (if item.Labels.length > 0 then "- **标签**: " ++ Join item.Labels ", " ++ "\n" else "")
    ++ "\n"

/-- The body of a section of the daily digest. -/
def news.renderItems (items : List Item) (noneFound : String) : String :=
  if items.length = 0 then noneFound else String.join (items.map news.renderItem)

/-- The function `UpdateDailyReport` of package `news` (the copy in `report/news.go`
differs in the type of the entries only), as the content it writes: `now` is the
reading of `time.Now()`, `repos` the order in which the map iteration visits the
repositories. -/
def news.UpdateDailyReport (emit : YamlNode → String) (caseTable : Char → Char) (gh : GitHub)
    (now : Time) (orgName : String) (repos : List String) (issues prs : List Item) :
    Except String String :=
  match GenerateFrontMatter emit "AUTO 更新速递" now.UTC.formatDate "每日更新"
      [{ Name := "github-actions[bot]", Link := "https://github.com/features/actions",
         Image := "https://avatars.githubusercontent.com/in/15368" }] with
  | Except.error err => Except.error ("failed to generate front matter: " ++ err)
  | Except.ok fm =>
    Except.ok ("---\n" ++ fm ++ "---\n\n" ++ "## 今日更新\n\n"
      ++ news.commitSection orgName (news.collectCommits caseTable gh repos)
      ++ "## 待解决的 Issues\n\n" ++ news.renderItems issues "暂无待解决的 Issues\n\n"
      ++ "## 待合并的 Pull Requests\n\n"
      ++ news.renderItems prs "暂无待合并的 Pull Requests\n\n")

/-! ## The window start (`calculateStartTimeAt`, `calculateStartTime`) -/

/-- The function `calculateStartTimeAt` of package `report`. -/
def report.calculateStartTimeAt (nowUTC : Time) : Time × Time :=
  let delta := 7 * 24 * Hour
  let start := nowUTC.Add (-delta)
  let startOfDay := DateUTC start.Year start.Month start.Day 0 0 0 0
  (startOfDay, startOfDay)

/-- The function `calculateStartTime` of package `runner`; `now` is the reading of
`time.Now()`. -/
def runner.calculateStartTime (newsType : String) (now : Time) : Time × Time :=
  let delta := if newsType = "weekly" then 7 * 24 * Hour else 24 * Hour
  let start := now.UTC.Add (-delta)
  let startOfDay := DateUTC start.Year start.Month start.Day 0 0 0 0
  (startOfDay, start)

/-! ## The window start, in the words of the specification -/

/-- The instant (nanoseconds since the epoch) of 00:00:00 at the display offset
UTC+8 of the UTC+8 calendar day that contains `t`. -/
def midnightAtDisplayOffset (t : Time) : Int :=
  ((t.unixNano / 1000000000 + 8 * 3600) / 86400 * 86400 - 8 * 3600) * 1000000000

/-! ## Data of the repository's tests -/

/-- The commits of `TestBuildMarkdown_Sorting`: 10, 13 and 11 February 2026. -/
def sortingTestCommits : List CommitEntry :=
  [⟨"User A", "", DateUTC 2026 2 10 10 0 0 0, "Old commit", "repo1"⟩,
   ⟨"User B", "", DateUTC 2026 2 13 10 0 0 0, "New commit", "repo2"⟩,
   ⟨"User C", "", DateUTC 2026 2 11 10 0 0 0, "Middle commit", "repo3"⟩]

/-- The commits of the case "Commits on different days" of `TestBuildMarkdown`. -/
def twoDayTestCommits : List CommitEntry :=
  [⟨"用户A", "usera", DateUTC 2026 2 13 10 0 0 0, "周四的更新", "MATH1002"⟩,
   ⟨"用户B", "userb", DateUTC 2026 2 12 15 0 0 0, "周三的更新", "CS1001"⟩]

/-- Answers of GitHub in which the commit fetch of the repository `bad` fails and
every other repository has one commit. -/
def failingFetchExample : GitHub :=
  { ListCommitsSince := fun repo =>
      if repo = "bad" then none
      else some [⟨"张三", "2026-02-13T10:30:00Z", "更新实验报告", some "zhangsan"⟩],
    GetRawTag := fun _ => some "name: 高等数学" }

/-- Two repositories with one human commit each, the earlier commit in the repository
visited first, and a commit of a bot. -/
def twoRepositoriesExample : GitHub :=
  { ListCommitsSince := fun repo =>
      if repo = "course-a" then
        some [⟨"张三", "2026-02-13T02:00:00Z", "更新实验报告", some "zhangsan"⟩]
      else if repo = "course-b" then
        some [⟨"李四", "2026-02-13T04:00:00Z", "添加课件", none⟩,
              ⟨"dependabot[bot]", "2026-02-13T05:00:00Z", "bump", none⟩]
      else none,
    GetRawTag := fun _ => some "name: 高等数学" }

/-- The issue of `TestUpdateDailyReport_WithData`. -/
def testIssue : Item :=
  { Title := "Test Issue", URL := "https://github.com/test-org/repo/issues/1",
    RepositoryName := "test-repo", CreatedAt := "2026-02-13T10:00:00Z",
    AuthorLogin := "testuser", Labels := ["bug", "enhancement"] }

/-! # Theorems -/

/-! ## The calendar -/

theorem cycleOfDays_spec (z : Int) :
    (0 ≤ (cycleOfDays z).n100 ∧ (cycleOfDays z).n100 ≤ 3) ∧
    (0 ≤ (cycleOfDays z).n4 ∧ (cycleOfDays z).n4 ≤ 24) ∧
    (0 ≤ (cycleOfDays z).n1 ∧ (cycleOfDays z).n1 ≤ 3) ∧
    (0 ≤ (cycleOfDays z).doy ∧ (cycleOfDays z).doy ≤ 365) ∧
    146097 * (cycleOfDays z).n400 + 36524 * (cycleOfDays z).n100 + 1461 * (cycleOfDays z).n4
      + 365 * (cycleOfDays z).n1 + (cycleOfDays z).doy = z + 719468 ∧
    ((cycleOfDays z).doy = 365 →
      (cycleOfDays z).n1 = 3 ∧ ((cycleOfDays z).n4 = 24 → (cycleOfDays z).n100 = 3)) := by
  have hq := Int.emod_add_ediv (z + 719468) 146097
  have hr0 := Int.emod_nonneg (z + 719468) (by decide : (146097 : Int) ≠ 0)
  have hr1 := Int.emod_lt_of_pos (z + 719468) (by decide : (0 : Int) < 146097)
  simp only [cycleOfDays]
  generalize (z + 719468) / 146097 = a at *
  generalize (z + 719468) % 146097 = r at *
  have hb : 0 ≤ min (r / 36524) 3 ∧ min (r / 36524) 3 ≤ 3 ∧
      0 ≤ r - 36524 * min (r / 36524) 3 ∧ r - 36524 * min (r / 36524) 3 ≤ 36524 ∧
      (min (r / 36524) 3 < 3 → r - 36524 * min (r / 36524) 3 < 36524) := by
    simp only [min_def]; split_ifs <;> omega
  generalize min (r / 36524) 3 = b at *
  have hc0 := Int.emod_add_ediv (r - 36524 * b) 1461
  have hc1 := Int.emod_nonneg (r - 36524 * b) (by decide : (1461 : Int) ≠ 0)
  have hc2 := Int.emod_lt_of_pos (r - 36524 * b) (by decide : (0 : Int) < 1461)
  generalize (r - 36524 * b) / 1461 = c at *
  generalize (r - 36524 * b) % 1461 = s at *
  have he : 0 ≤ min (s / 365) 3 ∧ min (s / 365) 3 ≤ 3 ∧
      0 ≤ s - 365 * min (s / 365) 3 ∧ s - 365 * min (s / 365) 3 ≤ 365 ∧
      (s - 365 * min (s / 365) 3 = 365 → min (s / 365) 3 = 3 ∧ s = 1460) := by
    simp only [min_def]; split_ifs <;> omega
  generalize min (s / 365) 3 = e at *
  refine ⟨?_, ?_, ?_, ?_, ?_, ?_⟩ <;> omega

theorem civilOfCycle_spec (c : DayCycle) (hb : 0 ≤ c.n100 ∧ c.n100 ≤ 3) (hc : 0 ≤ c.n4 ∧ c.n4 ≤ 24)
    (he : 0 ≤ c.n1 ∧ c.n1 ≤ 3) (hd : 0 ≤ c.doy ∧ c.doy ≤ 365)
    (hl : c.doy = 365 → c.n1 = 3 ∧ (c.n4 = 24 → c.n100 = 3)) :
    validDate (civilOfCycle c).1 (civilOfCycle c).2.1 (civilOfCycle c).2.2 ∧
    daysFromCivil (civilOfCycle c).1 (civilOfCycle c).2.1 (civilOfCycle c).2.2
      = 146097 * c.n400 + 36524 * c.n100 + 1461 * c.n4 + 365 * c.n1 + c.doy - 719468 := by
  obtain ⟨a, b, n4, e, doy⟩ := c
  simp only at hb hc he hd hl
  simp only [civilOfCycle, validDate, daysFromCivil, daysIn, isLeap]
  have hmp : 0 ≤ (5 * doy + 2) / 153 ∧ (5 * doy + 2) / 153 ≤ 11 := by omega
  have hmp2 := Int.emod_add_ediv (5 * doy + 2) 153
  have hmp3 := Int.emod_nonneg (5 * doy + 2) (by decide : (153 : Int) ≠ 0)
  have hmp4 := Int.emod_lt_of_pos (5 * doy + 2) (by decide : (0 : Int) < 153)
  generalize (5 * doy + 2) / 153 = mp at *
  generalize (5 * doy + 2) % 153 = mr at *
  obtain ⟨hmp0, hmp1⟩ := hmp
  interval_cases mp <;> simp <;> omega

theorem civilFromDays_valid (z : Int) :
    validDate (civilFromDays z).1 (civilFromDays z).2.1 (civilFromDays z).2.2 := by
  obtain ⟨hb, hc, he, hd, _, hl⟩ := cycleOfDays_spec z
  exact (civilOfCycle_spec _ hb hc he hd hl).1

theorem daysFromCivil_civilFromDays (z : Int) :
    daysFromCivil (civilFromDays z).1 (civilFromDays z).2.1 (civilFromDays z).2.2 = z := by
  obtain ⟨hb, hc, he, hd, hsum, hl⟩ := cycleOfDays_spec z
  have h := (civilOfCycle_spec _ hb hc he hd hl).2
  unfold civilFromDays
  omega

theorem civilFromDays_injective (z w : Int) (h : civilFromDays z = civilFromDays w) : z = w := by
  rw [← daysFromCivil_civilFromDays z, ← daysFromCivil_civilFromDays w, h]

theorem daysIn_pos (month year : Int) : 28 ≤ daysIn month year ∧ daysIn month year ≤ 31 := by
  unfold daysIn
  split_ifs <;> omega

theorem knownBots_no_empty : knownBots.contains "" = false := by decide

theorem hasSuffix_empty : HasSuffix "" "[bot]" = false := by decide

theorem trimSpace_of_all_space (s : String) (h : ∀ c ∈ s.data, isSpace c = true) :
    TrimSpace s = "" := by
  have h1 : s.data.dropWhile isSpace = [] := by
    rw [List.dropWhile_eq_nil_iff]; exact h
  simp [TrimSpace, h1]

theorem contains_iff_mem (l : List String) (s : String) : l.contains s = true ↔ s ∈ l := by
  simp

theorem toLower_empty (caseTable : Char → Char) : ToLower caseTable "" = "" := by
  rfl

/-- The branches of `IsBot`, as one disjunction. -/
theorem isBot_cases (caseTable : Char → Char) (authorName authorLogin : String) :
    (IsBot caseTable authorName authorLogin = true ↔
      (ToLower caseTable (TrimSpace authorName) ∈ knownBots
        ∨ HasSuffix (ToLower caseTable (TrimSpace authorName)) "[bot]" = true
        ∨ ToLower caseTable (TrimSpace authorLogin) ∈ knownBots
        ∨ HasSuffix (ToLower caseTable (TrimSpace authorLogin)) "[bot]" = true)) ∧
    ((∀ c ∈ authorName.data, isSpace c = true) → (∀ c ∈ authorLogin.data, isSpace c = true) →
      IsBot caseTable authorName authorLogin = false) := by
  have key : ∀ name login : String,
      ((if name ≠ "" ∧ knownBots.contains name then true
        else if name ≠ "" ∧ HasSuffix name "[bot]" then true
        else if login ≠ "" ∧ knownBots.contains login then true
        else if login ≠ "" ∧ HasSuffix login "[bot]" then true
        else false) = true ↔
      (name ∈ knownBots ∨ HasSuffix name "[bot]" = true
        ∨ login ∈ knownBots ∨ HasSuffix login "[bot]" = true)) := by
    intro name login
    have e1 : ∀ s : String, (s ≠ "" ∧ knownBots.contains s = true) ↔ s ∈ knownBots := by
      intro s
      constructor
      · intro h; exact (contains_iff_mem _ _).1 h.2
      · intro h
        refine ⟨?_, (contains_iff_mem _ _).2 h⟩
        intro hs; subst hs
        have := knownBots_no_empty
        rw [(contains_iff_mem _ _).2 h] at this
        exact Bool.noConfusion this
    have e2 : ∀ s : String, (s ≠ "" ∧ HasSuffix s "[bot]" = true) ↔ HasSuffix s "[bot]" = true := by
      intro s
      constructor
      · intro h; exact h.2
      · intro h
        refine ⟨?_, h⟩
        intro hs; subst hs
        rw [hasSuffix_empty] at h
        exact Bool.noConfusion h
    simp only [e1, e2]
    by_cases h1 : name ∈ knownBots
    · simp [h1]
    · by_cases h2 : HasSuffix name "[bot]" = true
      · simp [h1, h2]
      · by_cases h3 : login ∈ knownBots
        · simp [h1, h2, h3]
        · by_cases h4 : HasSuffix login "[bot]" = true
          · simp [h1, h2, h3, h4]
          · simp [h1, h2, h3, h4]
  refine ⟨key _ _, ?_⟩
  intro hn hl
  have hk := key (ToLower caseTable (TrimSpace authorName)) (ToLower caseTable (TrimSpace authorLogin))
  rw [trimSpace_of_all_space _ hn, trimSpace_of_all_space _ hl, toLower_empty] at hk
  have : ¬ (IsBot caseTable authorName authorLogin = true) := by
    unfold IsBot
    rw [trimSpace_of_all_space _ hn, trimSpace_of_all_space _ hl, toLower_empty]
    decide
  simpa using this

/-- The function `strings.HasSuffix` holds exactly of the strings that end with the
suffix. -/
theorem hasSuffix_iff (s suffix : String) :
    HasSuffix s suffix = true ↔ ∃ p : String, s = p ++ suffix := by
  unfold HasSuffix
  rw [List.isPrefixOf_iff_prefix]
  constructor
  · rintro ⟨t, ht⟩
    refine ⟨String.mk t.reverse, ?_⟩
    apply String.ext
    have := congrArg List.reverse ht
    simp only [List.reverse_append, List.reverse_reverse] at this
    simp [String.data_append, this]
  · rintro ⟨p, hp⟩
    refine ⟨p.data.reverse, ?_⟩
    rw [hp]
    simp [String.data_append]

/-- C3: `IsBot` is true exactly when one of the two fields, trimmed and lowercased,
is an entry of `knownBots` or ends with `[bot]` (is some text followed by `[bot]`);
in particular it is false when both fields are empty or consist of white space only.
It is a total function. The cases of `TestIsBot` come out as the test expects. -/
theorem isBot_iff (caseTable : Char → Char) (authorName authorLogin : String) :
    (IsBot caseTable authorName authorLogin = true ↔
      (ToLower caseTable (TrimSpace authorName) ∈ knownBots
        ∨ (∃ p : String, ToLower caseTable (TrimSpace authorName) = p ++ "[bot]")
        ∨ ToLower caseTable (TrimSpace authorLogin) ∈ knownBots
        ∨ (∃ p : String, ToLower caseTable (TrimSpace authorLogin) = p ++ "[bot]"))) ∧
    ((∀ c ∈ authorName.data, isSpace c = true) → (∀ c ∈ authorLogin.data, isSpace c = true) →
      IsBot caseTable authorName authorLogin = false) ∧
    (IsBot caseTable "github-actions" "" = true ∧
     IsBot caseTable "" "github-actions[bot]" = true ∧
     IsBot caseTable "dependabot[bot]" "" = true ∧
     IsBot caseTable "" "renovate" = true ∧
     IsBot caseTable "custom-bot[bot]" "" = true ∧
     IsBot caseTable "John Doe" "johndoe" = false ∧
     IsBot caseTable "" "" = false ∧
     IsBot caseTable "GITHUB-ACTIONS" "" = true ∧
     IsBot caseTable "  github-actions  " "" = true ∧
     IsBot caseTable "github-actions" "dependabot[bot]" = true ∧
     IsBot caseTable "" " Custom-Bot[BOT]\n" = true ∧
     IsBot caseTable "[bot] maintainer" "bot" = false) := by
  obtain ⟨h1, h2⟩ := isBot_cases caseTable authorName authorLogin
  refine ⟨?_, h2, rfl, rfl, rfl, rfl, rfl, rfl, rfl, rfl, rfl, rfl, rfl, rfl⟩
  rw [h1, hasSuffix_iff, hasSuffix_iff]

/-! ## Decimal numbers and dates -/

theorem digitChar_spec (n : Nat) :
    isDigit (digitChar n) = true ∧ (digitChar n).toNat - 48 = n % 10 := by
  have h : ∀ d, d < 10 → isDigit (Char.ofNat (48 + d)) = true ∧ (Char.ofNat (48 + d)).toNat - 48 = d := by
    decide
  exact h (n % 10) (Nat.mod_lt _ (by decide))

theorem digitsValue_snoc (cs : List Char) (c : Char) (acc : Nat) :
    digitsValue (cs ++ [c]) acc =
      match digitsValue cs acc with
      | some v => if isDigit c then some (v * 10 + (c.toNat - 48)) else none
      | none => none := by
  induction cs generalizing acc with
  | nil => simp [digitsValue]
  | cons d ds ih =>
    simp only [List.cons_append, digitsValue]
    by_cases hd : isDigit d = true
    · simp only [hd, if_true]
      exact ih _
    · simp only [hd]
      rfl

theorem digitsValue_digitsRev (fuel n : Nat) (h : n < fuel) :
    digitsValue (digitsRev fuel n).reverse 0 = some n := by
  induction fuel generalizing n with
  | zero => omega
  | succ f ih =>
    obtain ⟨hd, hv⟩ := digitChar_spec n
    simp only [digitsRev, List.reverse_cons, digitsValue_snoc]
    by_cases h0 : n / 10 = 0
    · simp only [h0, if_true, List.reverse_nil, digitsValue, hd, hv]
      congr 1; omega
    · simp only [h0, if_false]
      rw [ih (n / 10) (by omega)]
      simp only [hd, hv, if_true]
      congr 1; omega

theorem digitsValue_natDigits (n : Nat) : digitsValue (natDigits n) 0 = some n :=
  digitsValue_digitsRev (n + 1) n (by omega)

theorem digitsValue_zeros (k : Nat) (cs : List Char) :
    digitsValue (List.replicate k '0' ++ cs) 0 = digitsValue cs 0 := by
  induction k with
  | zero => rfl
  | succ k ih =>
    simp only [List.replicate_succ, List.cons_append, digitsValue]
    have : isDigit '0' = true := by decide
    simp only [this, if_true]
    exact ih

theorem natDigits_ne_nil (n : Nat) : natDigits n ≠ [] := by
  simp [natDigits, digitsRev]

theorem digitsValue_head_ne_minus (c : Char) (cs : List Char) (v : Nat)
    (h : digitsValue (c :: cs) 0 = some v) : c ≠ '-' := by
  intro hc
  subst hc
  have hm : isDigit '-' = false := by decide
  simp [digitsValue, hm] at h

/-- The unsigned part of `appendInt` reads back as the absolute value. -/
theorem digitsValue_padded (k n : Nat) :
    digitsValue (List.replicate k '0' ++ natDigits n) 0 = some n := by
  rw [digitsValue_zeros, digitsValue_natDigits]

theorem appendInt_nonneg (x : Int) (width : Nat) (h : 0 ≤ x) :
    appendInt x width
      = List.replicate (width - (natDigits x.natAbs).length) '0' ++ natDigits x.natAbs := by
  have : ¬ x < 0 := by omega
  simp [appendInt, this]

theorem appendInt_neg (x : Int) (width : Nat) (h : x < 0) :
    appendInt x width
      = '-' :: (List.replicate (width - (natDigits x.natAbs).length) '0' ++ natDigits x.natAbs) := by
  simp [appendInt, h]

theorem padded_ne_nil (k n : Nat) : List.replicate k '0' ++ natDigits n ≠ [] := by
  intro h
  have h2 := (List.append_eq_nil.1 h).2
  exact natDigits_ne_nil n h2

theorem appendInt_injective (x y : Int) (width : Nat)
    (h : appendInt x width = appendInt y width) : x = y := by
  by_cases hx : x < 0 <;> by_cases hy : y < 0
  · rw [appendInt_neg x width hx, appendInt_neg y width hy] at h
    have h2 := List.tail_eq_of_cons_eq h
    have hv := congrArg (fun l => digitsValue l 0) h2
    simp only [digitsValue_padded] at hv
    have := Option.some.inj hv
    omega
  · rw [appendInt_neg x width hx, appendInt_nonneg y width (by omega)] at h
    exfalso
    generalize hl : List.replicate (width - (natDigits y.natAbs).length) '0' ++ natDigits y.natAbs = l at h
    have hv : digitsValue l 0 = some y.natAbs := by rw [← hl]; exact digitsValue_padded _ _
    cases l with
    | nil => exact absurd h (by simp)
    | cons c cs =>
      have := List.head_eq_of_cons_eq h
      exact digitsValue_head_ne_minus c cs _ hv this.symm
  · rw [appendInt_nonneg x width (by omega), appendInt_neg y width hy] at h
    exfalso
    generalize hl : List.replicate (width - (natDigits x.natAbs).length) '0' ++ natDigits x.natAbs = l at h
    have hv : digitsValue l 0 = some x.natAbs := by rw [← hl]; exact digitsValue_padded _ _
    cases l with
    | nil => exact absurd h (by simp)
    | cons c cs =>
      have := List.head_eq_of_cons_eq h
      exact digitsValue_head_ne_minus c cs _ hv this
  · rw [appendInt_nonneg x width (by omega), appendInt_nonneg y width (by omega)] at h
    have hv := congrArg (fun l => digitsValue l 0) h
    simp only [digitsValue_padded] at hv
    have := Option.some.inj hv
    omega

theorem appendInt_two_length (x : Int) (h0 : 0 ≤ x) (h1 : x < 100) :
    (appendInt x 2).length = 2 := by
  have key : ∀ n, n < 100 → (appendInt (Int.ofNat n) 2).length = 2 := by decide
  have := key x.toNat (by omega)
  have e : Int.ofNat x.toNat = x := by simp; omega
  rwa [e] at this

theorem civil_eq_of_dateChars (y1 m1 d1 y2 m2 d2 : Int)
    (hm1 : 0 ≤ m1 ∧ m1 < 100) (hd1 : 0 ≤ d1 ∧ d1 < 100)
    (hm2 : 0 ≤ m2 ∧ m2 < 100) (hd2 : 0 ≤ d2 ∧ d2 < 100)
    (h : appendInt y1 4 ++ '-' :: appendInt m1 2 ++ '-' :: appendInt d1 2
       = appendInt y2 4 ++ '-' :: appendInt m2 2 ++ '-' :: appendInt d2 2) :
    y1 = y2 ∧ m1 = m2 ∧ d1 = d2 := by
  have l1 := appendInt_two_length m1 hm1.1 hm1.2
  have l2 := appendInt_two_length d1 hd1.1 hd1.2
  have l3 := appendInt_two_length m2 hm2.1 hm2.2
  have l4 := appendInt_two_length d2 hd2.1 hd2.2
  have hlen : ('-' :: appendInt d1 2).length = ('-' :: appendInt d2 2).length := by
    simp [l2, l4]
  obtain ⟨hym, hd⟩ := List.append_inj' h hlen
  have hlen2 : ('-' :: appendInt m1 2).length = ('-' :: appendInt m2 2).length := by
    simp [l1, l3]
  obtain ⟨hy, hm⟩ := List.append_inj' hym hlen2
  exact ⟨appendInt_injective _ _ _ hy, appendInt_injective _ _ _ (List.tail_eq_of_cons_eq hm),
    appendInt_injective _ _ _ (List.tail_eq_of_cons_eq hd)⟩

theorem civil_bounds (z : Int) :
    (0 ≤ (civilFromDays z).2.1 ∧ (civilFromDays z).2.1 < 100) ∧
    (0 ≤ (civilFromDays z).2.2 ∧ (civilFromDays z).2.2 < 100) := by
  obtain ⟨h1, h2, h3, h4⟩ := civilFromDays_valid z
  have := daysIn_pos (civilFromDays z).2.1 (civilFromDays z).1
  omega

/-- Two times show the same `YYYY-MM-DD` exactly when they fall on the same
calendar day of their zones. -/
theorem formatDate_eq_iff (a b : Time) :
    a.formatDate = b.formatDate ↔ a.localDay = b.localDay := by
  constructor
  · intro h
    have h2 : (a.formatDate).data = (b.formatDate).data := by rw [h]
    simp only [Time.formatDate, Time.Year, Time.Month, Time.Day] at h2
    obtain ⟨hm1, hd1⟩ := civil_bounds a.localDay
    obtain ⟨hm2, hd2⟩ := civil_bounds b.localDay
    obtain ⟨e1, e2, e3⟩ := civil_eq_of_dateChars _ _ _ _ _ _ hm1 hd1 hm2 hd2 h2
    apply civilFromDays_injective
    exact Prod.ext e1 (Prod.ext e2 e3)
  · intro h
    simp only [Time.formatDate, Time.Year, Time.Month, Time.Day, h]

theorem formatDate_ne_empty (a : Time) : a.formatDate ≠ "" := by
  intro h
  have h2 : (a.formatDate).data = ("" : String).data := by rw [h]
  simp [Time.formatDate] at h2

/-! ## Sorting and the rendering of the commit list -/

theorem sinkLeft_perm {α : Type} (less : α → α → Bool) (x : α) (l : List α) :
    (sinkLeft less x l).Perm (x :: l) := by
  induction l with
  | nil => exact List.Perm.refl _
  | cons y rest ih =>
    simp only [sinkLeft]
    by_cases h : less x y = true
    · simp only [h, if_true]
      exact (List.Perm.cons y ih).trans (List.Perm.swap x y rest)
    · simp only [h]
      exact List.Perm.refl _

theorem foldl_sinkLeft_perm {α : Type} (less : α → α → Bool) (data acc : List α) :
    (data.foldl (fun sorted x => sinkLeft less x sorted) acc).Perm (data.reverse ++ acc) := by
  induction data generalizing acc with
  | nil => exact List.Perm.refl _
  | cons x xs ih =>
    simp only [List.foldl_cons, List.reverse_cons, List.append_assoc, List.singleton_append]
    exact (ih _).trans (List.Perm.append_left _ (sinkLeft_perm less x acc))

/-- Sorting returns a permutation of the slice. -/
theorem sortSlice_perm {α : Type} (less : α → α → Bool) (data : List α) :
    (sortSlice less data).Perm data := by
  unfold sortSlice
  refine (List.reverse_perm _).trans ?_
  have := foldl_sinkLeft_perm less data []
  simp only [List.append_nil] at this
  exact this.trans (List.reverse_perm _)

theorem sinkLeft_sorted {α : Type} (less : α → α → Bool)
    (hasym : ∀ a b, less a b = true → less b a = false)
    (hneg : ∀ a b c, less a b = false → less b c = false → less a c = false)
    (x : α) (l : List α) (h : l.Pairwise (fun a b => less a b = false)) :
    (sinkLeft less x l).Pairwise (fun a b => less a b = false) := by
  induction l with
  | nil => simp [sinkLeft]
  | cons y rest ih =>
    obtain ⟨hy, hrest⟩ := List.pairwise_cons.1 h
    simp only [sinkLeft]
    by_cases hxy : less x y = true
    · simp only [hxy, if_true]
      refine List.pairwise_cons.2 ⟨?_, ih hrest⟩
      intro b hb
      rcases (List.Perm.mem_iff (sinkLeft_perm less x rest)).1 hb with hb2
      rcases List.mem_cons.1 hb2 with e | e
      · subst e; exact hasym _ _ hxy
      · exact hy b e
    · have hxy2 : less x y = false := by simpa using hxy
      simp only [hxy]
      refine List.pairwise_cons.2 ⟨?_, h⟩
      intro b hb
      rcases List.mem_cons.1 hb with e | e
      · subst e; exact hxy2
      · exact hneg x y b hxy2 (hy b e)

theorem foldl_sinkLeft_sorted {α : Type} (less : α → α → Bool)
    (hasym : ∀ a b, less a b = true → less b a = false)
    (hneg : ∀ a b c, less a b = false → less b c = false → less a c = false)
    (data acc : List α) (h : acc.Pairwise (fun a b => less a b = false)) :
    (data.foldl (fun sorted x => sinkLeft less x sorted) acc).Pairwise
      (fun a b => less a b = false) := by
  induction data generalizing acc with
  | nil => exact h
  | cons x xs ih =>
    simp only [List.foldl_cons]
    exact ih _ (sinkLeft_sorted less hasym hneg x acc h)

/-- Sorting orders the slice: no element is `less` than one that stands before it. -/
theorem sortSlice_sorted {α : Type} (less : α → α → Bool)
    (hasym : ∀ a b, less a b = true → less b a = false)
    (hneg : ∀ a b c, less a b = false → less b c = false → less a c = false)
    (data : List α) :
    (sortSlice less data).Pairwise (fun a b => less b a = false) := by
  unfold sortSlice
  rw [List.pairwise_reverse]
  exact foldl_sinkLeft_sorted less hasym hneg data [] List.Pairwise.nil

theorem newerFirst_asymm (a b : CommitEntry) (h : newerFirst a b = true) :
    newerFirst b a = false := by
  simp only [newerFirst, Time.After, decide_eq_true_eq, decide_eq_false_iff_not] at *
  omega

theorem newerFirst_negTrans (a b c : CommitEntry) (h1 : newerFirst a b = false)
    (h2 : newerFirst b c = false) : newerFirst a c = false := by
  simp only [newerFirst, Time.After, decide_eq_false_iff_not] at *
  omega

theorem bulletsOf_markdownLoop (l : List CommitEntry) (prevDate : String) :
    bulletsOf (markdownLoop l prevDate) = l := by
  induction l generalizing prevDate with
  | nil => rfl
  | cons c rest ih =>
    simp only [markdownLoop]
    by_cases h : c.Date.formatDate = prevDate
    · simp [h, bulletsOf, ih]
    · simp [h, bulletsOf, ih]

theorem bulletsOf_markdownChunks (commits : List CommitEntry) :
    bulletsOf (markdownChunks commits) = sortSlice newerFirst commits := by
  unfold markdownChunks
  by_cases h : commits.length = 0
  · have : commits = [] := List.length_eq_zero.1 h
    subst this
    rfl
  · simp only [h, if_false, bulletsOf, bulletsOf_markdownLoop]

/-- C1: the bullets of `BuildMarkdown` are the entries of the input, one bullet
each, newest first: no bullet is followed by the bullet of an entry with a strictly
later `Date`, whatever the order of the input. -/
theorem buildMarkdown_newest_first (commits : List CommitEntry) (repoTitles : StringMap)
    (orgName : String) (hne : commits ≠ []) :
    BuildMarkdown commits repoTitles orgName
      = String.join ((markdownChunks commits).map (Chunk.text repoTitles orgName)) ∧
    (bulletsOf (markdownChunks commits)).Perm commits ∧
    (bulletsOf (markdownChunks commits)).Pairwise (fun a b => b.Date.After a.Date = false) := by
  refine ⟨rfl, ?_, ?_⟩
  · rw [bulletsOf_markdownChunks]
    exact sortSlice_perm _ _
  · rw [bulletsOf_markdownChunks]
    exact sortSlice_sorted newerFirst newerFirst_asymm newerFirst_negTrans commits

/-- Witness of C1: the sorting test of the repository; the bullets come out as
13, 11 and 10 February. -/
theorem buildMarkdown_newest_first_witness :
    sortingTestCommits ≠ [] ∧
    bulletsOf (markdownChunks sortingTestCommits)
      = [⟨"User B", "", DateUTC 2026 2 13 10 0 0 0, "New commit", "repo2"⟩,
         ⟨"User C", "", DateUTC 2026 2 11 10 0 0 0, "Middle commit", "repo3"⟩,
         ⟨"User A", "", DateUTC 2026 2 10 10 0 0 0, "Old commit", "repo1"⟩] ∧
    (bulletsOf (markdownChunks sortingTestCommits)).Pairwise
      (fun a b => b.Date.After a.Date = false) :=
  ⟨by decide, by decide,
    (buildMarkdown_newest_first sortingTestCommits [] "test-org" (by decide)).2.2⟩

theorem foldl_append_init (l : List String) (a : String) :
    l.foldl (fun r s => r ++ s) a = a ++ l.foldl (fun r s => r ++ s) "" := by
  induction l generalizing a with
  | nil => simp
  | cons x xs ih =>
    simp only [List.foldl_cons]
    rw [ih (a ++ x), ih ("" ++ x), String.append_assoc]
    simp

theorem join_cons (a : String) (l : List String) :
    String.join (a :: l) = a ++ String.join l := by
  simp only [String.join, List.foldl_cons]
  rw [foldl_append_init]
  simp

theorem join_append (a b : List String) :
    String.join (a ++ b) = String.join a ++ String.join b := by
  induction a with
  | nil => simp [String.join]
  | cons x rest ih => rw [List.cons_append, join_cons, join_cons, ih, String.append_assoc]

/-- C10: `BuildMarkdown` of the empty list is the empty string, and of a non-empty
list a string that starts with the section heading. -/
theorem buildMarkdown_empty_or_heading (repoTitles : StringMap) (orgName : String) :
    BuildMarkdown [] repoTitles orgName = "" ∧
    ∀ commits : List CommitEntry, commits ≠ [] →
      ∃ rest : String, BuildMarkdown commits repoTitles orgName = "## 更新内容\n\n" ++ rest := by
  refine ⟨rfl, ?_⟩
  intro commits hne
  have hlen : commits.length ≠ 0 := fun h => hne (List.length_eq_zero.1 h)
  refine ⟨String.join ((markdownLoop (sortSlice newerFirst commits) "").map
    (Chunk.text repoTitles orgName)), ?_⟩
  simp only [BuildMarkdown, markdownChunks, hlen, if_false, List.map_cons, Chunk.text]
  exact join_cons _ _


theorem markdownLoop_headings (l : List CommitEntry) (prevDate : String) (bound : Int)
    (hs : l.Pairwise (fun a b => b.Date.localDay ≤ a.Date.localDay))
    (hb : ∀ c ∈ l, c.Date.localDay ≤ bound ∧
      (c.Date.localDay = bound ↔ c.Date.formatDate = prevDate)) :
    (dayHeadingsOf (markdownLoop l prevDate)).Pairwise (fun a b => b.localDay < a.localDay) ∧
    (∀ h ∈ dayHeadingsOf (markdownLoop l prevDate),
      h.localDay < bound ∧ ∃ c ∈ l, c.Date = h) ∧
    (∀ c ∈ l, c.Date.formatDate = prevDate ∨
      c.Date.formatDate ∈ (dayHeadingsOf (markdownLoop l prevDate)).map Time.formatDate) := by
  induction l generalizing prevDate bound with
  | nil => simp [markdownLoop, dayHeadingsOf]
  | cons c rest ih =>
    obtain ⟨hc, hrest⟩ := List.pairwise_cons.1 hs
    obtain ⟨hcb, hciff⟩ := hb c (List.mem_cons_self _ _)
    simp only [markdownLoop]
    by_cases h : c.Date.formatDate = prevDate
    · have hb2 : ∀ d ∈ rest, d.Date.localDay ≤ bound ∧
          (d.Date.localDay = bound ↔ d.Date.formatDate = prevDate) :=
        fun d hd => hb d (List.mem_cons_of_mem _ hd)
      obtain ⟨i1, i2, i3⟩ := ih prevDate bound hrest hb2
      simp only [h, ne_eq, not_true_eq_false, if_false, dayHeadingsOf]
      refine ⟨i1, ?_, ?_⟩
      · intro t ht
        obtain ⟨a1, d, hd, a2⟩ := i2 t ht
        exact ⟨a1, d, List.mem_cons_of_mem _ hd, a2⟩
      · intro d hd
        rcases List.mem_cons.1 hd with e | e
        · subst e; exact Or.inl h
        · exact i3 d e
    · have hlt : c.Date.localDay < bound := by
        have : c.Date.localDay ≠ bound := fun e => h (hciff.1 e)
        omega
      have hb2 : ∀ d ∈ rest, d.Date.localDay ≤ c.Date.localDay ∧
          (d.Date.localDay = c.Date.localDay ↔ d.Date.formatDate = c.Date.formatDate) :=
        fun d hd => ⟨hc d hd, (formatDate_eq_iff d.Date c.Date).symm⟩
      obtain ⟨i1, i2, i3⟩ := ih c.Date.formatDate c.Date.localDay hrest hb2
      simp only [h, ne_eq, not_false_eq_true, if_true, dayHeadingsOf]
      refine ⟨List.pairwise_cons.2 ⟨fun t ht => (i2 t ht).1, i1⟩, ?_, ?_⟩
      · intro t ht
        rcases List.mem_cons.1 ht with e | e
        · subst e; exact ⟨hlt, c, List.mem_cons_self _ _, rfl⟩
        · obtain ⟨a1, d, hd, a2⟩ := i2 t e
          exact ⟨by omega, d, List.mem_cons_of_mem _ hd, a2⟩
      · intro d hd
        right
        rcases List.mem_cons.1 hd with e | e
        · subst e; simp
        · rcases i3 d e with e2 | e2
          · simp [e2]
          · simp only [List.map_cons, List.mem_cons]; exact Or.inr e2

theorem markdownLoop_underOwnDay (l : List CommitEntry) (prevDate : String)
    (current : Option String)
    (h : ∀ t : Time, t.formatDate = prevDate → current = some prevDate) :
    underOwnDay current (markdownLoop l prevDate) := by
  induction l generalizing prevDate current with
  | nil => simp [markdownLoop, underOwnDay]
  | cons c rest ih =>
    simp only [markdownLoop]
    by_cases hc : c.Date.formatDate = prevDate
    · simp only [hc, ne_eq, not_true_eq_false, if_false, underOwnDay]
      exact ⟨h c.Date hc, ih prevDate current h⟩
    · simp only [hc, ne_eq, not_false_eq_true, if_true, underOwnDay]
      exact ⟨trivial, ih _ _ (fun _ _ => rfl)⟩

theorem localDay_mono (a b : Time) (hz : a.offset = b.offset) (h : b.After a = false) :
    b.localDay ≤ a.localDay := by
  simp only [Time.After, decide_eq_false_iff_not] at h
  simp only [Time.localDay, Time.localSec]
  omega

/-- The day headings among the writes of `BuildMarkdown`, for dates in one zone. -/
theorem markdownChunks_day_headings (commits : List CommitEntry) (zone : Int)
    (hne : commits ≠ []) (hzone : ∀ c ∈ commits, c.Date.offset = zone) :
    ((dayHeadingsOf (markdownChunks commits)).map Time.formatDate).Perm
      ((commits.map (fun c => c.Date.formatDate)).dedup) ∧
    (dayHeadingsOf (markdownChunks commits)).length
      = ((commits.map (fun c => c.Date.formatDate)).dedup).length ∧
    (dayHeadingsOf (markdownChunks commits)).Pairwise (fun a b => b.localDay < a.localDay) ∧
    underOwnDay none (markdownChunks commits) := by
  have hlen : commits.length ≠ 0 := fun h => hne (List.length_eq_zero.1 h)
  have hperm := sortSlice_perm newerFirst commits
  have hsorted := sortSlice_sorted newerFirst newerFirst_asymm newerFirst_negTrans commits
  have hchunks : markdownChunks commits
      = Chunk.title :: markdownLoop (sortSlice newerFirst commits) "" := by
    simp only [markdownChunks, hlen, if_false]
  generalize sortSlice newerFirst commits = sorted at *
  have hz : ∀ c ∈ sorted, c.Date.offset = zone := fun c hc => hzone c (hperm.mem_iff.1 hc)
  have hs : sorted.Pairwise (fun a b => b.Date.localDay ≤ a.Date.localDay) := by
    have h2 : sorted.Pairwise (fun a b => a ∈ sorted ∧ b ∈ sorted ∧ newerFirst b a = false) := by
      rw [List.pairwise_iff_get] at hsorted ⊢
      intro i j hij
      exact ⟨List.get_mem _ _ _, List.get_mem _ _ _, hsorted i j hij⟩
    refine h2.imp ?_
    intro a b ⟨ha, hb, hab⟩
    exact localDay_mono a.Date b.Date (by rw [hz a ha, hz b hb]) hab
  cases hsorted_eq : sorted with
  | nil =>
    subst hsorted_eq
    exact absurd (List.Perm.length_eq hperm).symm hlen
  | cons c0 rest =>
    have hb : ∀ c ∈ sorted, c.Date.localDay ≤ c0.Date.localDay + 1 ∧
        (c.Date.localDay = c0.Date.localDay + 1 ↔ c.Date.formatDate = "") := by
      intro c hc
      have hle : c.Date.localDay ≤ c0.Date.localDay := by
        rw [hsorted_eq] at hc hs
        rcases List.mem_cons.1 hc with e | e
        · subst e; exact le_refl _
        · exact (List.pairwise_cons.1 hs).1 c e
      refine ⟨by omega, ?_⟩
      constructor
      · intro e; omega
      · intro e; exact absurd e (formatDate_ne_empty _)
    obtain ⟨i1, i2, i3⟩ := markdownLoop_headings sorted "" (c0.Date.localDay + 1) hs hb
    have hheads : dayHeadingsOf (markdownChunks commits)
        = dayHeadingsOf (markdownLoop sorted "") := by
      rw [hchunks]; rfl
    rw [hheads]
    have hnodup : ((dayHeadingsOf (markdownLoop sorted "")).map Time.formatDate).Nodup := by
      rw [List.Nodup, List.pairwise_map]
      refine i1.imp ?_
      intro a b hab e
      have := (formatDate_eq_iff a b).1 e
      omega
    have hP : ((dayHeadingsOf (markdownLoop sorted "")).map Time.formatDate).Perm
        ((commits.map (fun c => c.Date.formatDate)).dedup) := by
      rw [List.perm_ext_iff_of_nodup hnodup (List.nodup_dedup _)]
      intro s
      rw [List.mem_dedup, List.mem_map, List.mem_map]
      constructor
      · rintro ⟨t, ht, rfl⟩
        obtain ⟨_, c, hc, rfl⟩ := i2 t ht
        exact ⟨c, hperm.mem_iff.1 hc, rfl⟩
      · rintro ⟨c, hc, rfl⟩
        rcases i3 c (hperm.mem_iff.2 hc) with e | e
        · exact absurd e (formatDate_ne_empty _)
        · exact List.mem_map.1 e
    refine ⟨hP, ?_, i1, ?_⟩
    · have := hP.length_eq
      simpa using this
    · rw [hchunks]
      simp only [underOwnDay]
      exact markdownLoop_underOwnDay sorted "" none
        (fun t ht => absurd ht (formatDate_ne_empty t))

/-! ## The daily report -/

/-- The sentinel heading does not overlap itself: no proper non-empty suffix of it
is a prefix of it. -/
theorem sentinel_no_border :
    ∀ k, k < sentinelHeading.data.length → 0 < k →
      (sentinelHeading.data.drop k).isPrefixOf sentinelHeading.data = false := by
  decide

theorem strIndex_of_isPrefixOf (pat l : List Char) (h : pat.isPrefixOf l = true) :
    strIndex pat l = some 0 := by
  cases l with
  | nil => simp [strIndex, h]
  | cons c cs => simp [strIndex, h]

theorem strIndex_cons_of_not (pat : List Char) (x : Char) (l : List Char)
    (h : pat.isPrefixOf (x :: l) = false) :
    strIndex pat (x :: l) = (strIndex pat l).map (fun i => i + 1) := by
  simp only [strIndex, h]
  rfl

theorem cutAtFirst_nil (pat : List Char) : cutAtFirst pat [] = [] := by
  simp only [cutAtFirst, strIndex]
  split <;> simp

theorem cutAtFirst_cons (pat : List Char) (x : Char) (cs : List Char) :
    cutAtFirst pat (x :: cs)
      = if pat.isPrefixOf (x :: cs) then [] else x :: cutAtFirst pat cs := by
  simp only [cutAtFirst, strIndex]
  by_cases h : pat.isPrefixOf (x :: cs) = true
  · simp [h]
  · simp only [h]
    cases strIndex pat cs with
    | none => simp
    | some i => simp

theorem cutAtFirst_isPrefix (pat s : List Char) : cutAtFirst pat s <+: s := by
  induction s with
  | nil => rw [cutAtFirst_nil]
  | cons x cs ih =>
    rw [cutAtFirst_cons]
    by_cases h : pat.isPrefixOf (x :: cs) = true
    · simp [h]
    · simp only [h]
      exact (List.prefix_cons_inj x).2 ih

/-- A pattern without borders does not occur across the seam of `a ++ pat`, when `a`
is non-empty and the pattern does not start `a`. -/
theorem not_isPrefixOf_seam (pat a rest : List Char)
    (hb : ∀ k, k < pat.length → 0 < k → (pat.drop k).isPrefixOf pat = false)
    (ha : 0 < a.length) (hna : ¬ pat <+: a) :
    pat.isPrefixOf (a ++ (pat ++ rest)) = false := by
  by_contra hcon
  have hp : pat <+: a ++ (pat ++ rest) := by
    rw [← List.isPrefixOf_iff_prefix]; simpa using hcon
  have ha2 : a <+: a ++ (pat ++ rest) := List.prefix_append _ _
  by_cases hlen : pat.length ≤ a.length
  · exact hna (List.prefix_of_prefix_length_le hp ha2 hlen)
  · have hap : a <+: pat := List.prefix_of_prefix_length_le ha2 hp (by omega)
    obtain ⟨q, hq⟩ := hap
    subst hq
    have hq2 : q <+: a ++ q ++ rest := (List.prefix_append_right_inj a).1 hp
    have hq3 : q <+: a ++ q :=
      List.prefix_of_prefix_length_le hq2 (List.prefix_append _ _) (by simp)
    have hdrop : (a ++ q).drop a.length = q := by simp
    have := hb a.length (by omega) ha
    rw [hdrop] at this
    have h2 := (List.isPrefixOf_iff_prefix).2 hq3
    rw [this] at h2
    exact Bool.noConfusion h2

/-- The first occurrence of a border-free pattern in `cutAtFirst pat s ++ pat ++ rest`
is the one written after the cut. -/
theorem strIndex_after_cut (pat s rest : List Char)
    (hb : ∀ k, k < pat.length → 0 < k → (pat.drop k).isPrefixOf pat = false) :
    strIndex pat (cutAtFirst pat s ++ (pat ++ rest)) = some (cutAtFirst pat s).length := by
  have h0 : strIndex pat (pat ++ rest) = some 0 :=
    strIndex_of_isPrefixOf _ _ ((List.isPrefixOf_iff_prefix).2 (List.prefix_append _ _))
  induction s with
  | nil => rw [cutAtFirst_nil]; simpa using h0
  | cons x cs ih =>
    rw [cutAtFirst_cons]
    by_cases h : pat.isPrefixOf (x :: cs) = true
    · simp only [h, if_true]; simpa using h0
    · rw [if_neg h]
      have hna : ¬ pat <+: x :: cutAtFirst pat cs := by
        intro hp
        apply h
        rw [List.isPrefixOf_iff_prefix]
        exact hp.trans ((List.prefix_cons_inj x).2 (cutAtFirst_isPrefix pat cs))
      have hseam := not_isPrefixOf_seam pat (x :: cutAtFirst pat cs) rest hb (by simp) hna
      rw [List.cons_append] at hseam ⊢
      rw [strIndex_cons_of_not _ _ _ hseam, ih]
      rfl

theorem cutAtFirst_after_cut (pat s rest : List Char)
    (hb : ∀ k, k < pat.length → 0 < k → (pat.drop k).isPrefixOf pat = false) :
    cutAtFirst pat (cutAtFirst pat s ++ (pat ++ rest)) = cutAtFirst pat s := by
  have h := strIndex_after_cut pat s rest hb
  simp only [cutAtFirst] at h ⊢
  rw [h]
  simp

theorem truncateAtSentinel_data (content : String) :
    (truncateAtSentinel content).data = cutAtFirst sentinelHeading.data content.data := by
  simp only [truncateAtSentinel, Index, cutAtFirst]
  cases strIndex sentinelHeading.data content.data <;> rfl

theorem updateDailyReport_data (content : String) (issues prs : List Item) :
    (UpdateDailyReport content issues prs).data
      = cutAtFirst sentinelHeading.data content.data
        ++ (sentinelHeading.data ++ (dailySections issues prs).data) := by
  simp only [UpdateDailyReport, String.data_append, truncateAtSentinel_data, List.append_assoc]

/-- C4: running `UpdateDailyReport` on its own output leaves what the second run
alone would have written; in particular the update is idempotent. -/
theorem updateDailyReport_twice (content : String) (issues1 prs1 issues2 prs2 : List Item) :
    UpdateDailyReport (UpdateDailyReport content issues1 prs1) issues2 prs2
      = UpdateDailyReport content issues2 prs2 ∧
    UpdateDailyReport (UpdateDailyReport content issues1 prs1) issues1 prs1
      = UpdateDailyReport content issues1 prs1 := by
  have key : ∀ i p : List Item,
      UpdateDailyReport (UpdateDailyReport content issues1 prs1) i p
        = UpdateDailyReport content i p := by
    intro i p
    apply String.ext
    rw [updateDailyReport_data, updateDailyReport_data, updateDailyReport_data,
      cutAtFirst_after_cut _ _ _ sentinel_no_border]
  exact ⟨key _ _, key _ _⟩


theorem countOcc_cons_of_not (pat : List Char) (x : Char) (l : List Char)
    (h : pat.isPrefixOf (x :: l) = false) :
    countOcc pat (x :: l) = countOcc pat l := by
  simp [countOcc, h]

/-- No occurrence of a border-free pattern starts inside the cut content. -/
theorem countOcc_after_cut (pat s rest : List Char)
    (hb : ∀ k, k < pat.length → 0 < k → (pat.drop k).isPrefixOf pat = false) :
    countOcc pat (cutAtFirst pat s ++ (pat ++ rest)) = countOcc pat (pat ++ rest) := by
  induction s with
  | nil => rw [cutAtFirst_nil]; rfl
  | cons x cs ih =>
    rw [cutAtFirst_cons]
    by_cases h : pat.isPrefixOf (x :: cs) = true
    · simp only [h, if_true]; rfl
    · rw [if_neg h]
      have hna : ¬ pat <+: x :: cutAtFirst pat cs := by
        intro hp
        apply h
        rw [List.isPrefixOf_iff_prefix]
        exact hp.trans ((List.prefix_cons_inj x).2 (cutAtFirst_isPrefix pat cs))
      have hseam := not_isPrefixOf_seam pat (x :: cutAtFirst pat cs) rest hb (by simp) hna
      rw [List.cons_append] at hseam ⊢
      rw [countOcc_cons_of_not _ _ _ hseam, ih]

/-- No occurrence of a border-free pattern starts inside the pattern itself, after
its first character. -/
theorem countOcc_drop (pat rest : List Char)
    (hb : ∀ k, k < pat.length → 0 < k → (pat.drop k).isPrefixOf pat = false)
    (n k : Nat) (hk : 0 < k) (hn : k + n = pat.length) :
    countOcc pat (pat.drop k ++ rest) = countOcc pat rest := by
  induction n generalizing k with
  | zero =>
    have : pat.drop k = [] := List.drop_eq_nil_of_le (by omega)
    rw [this]; rfl
  | succ n ih =>
    have hlt : k < pat.length := by omega
    have hd : pat.drop k = pat.get ⟨k, hlt⟩ :: pat.drop (k + 1) := by
      simp
    have hnot : pat.isPrefixOf (pat.drop k ++ rest) = false := by
      by_contra hcon
      have hp : pat <+: pat.drop k ++ rest := by
        rw [← List.isPrefixOf_iff_prefix]; simpa using hcon
      have hq : pat.drop k <+: pat :=
        List.prefix_of_prefix_length_le (List.prefix_append _ _) hp (by simp)
      have h2 := (List.isPrefixOf_iff_prefix).2 hq
      rw [hb k hlt hk] at h2
      exact Bool.noConfusion h2
    rw [hd, List.cons_append] at hnot ⊢
    rw [countOcc_cons_of_not _ _ _ hnot]
    exact ih (k + 1) (by omega) (by omega)

theorem countOcc_pattern_append (pat rest : List Char) (hne : pat ≠ [])
    (hb : ∀ k, k < pat.length → 0 < k → (pat.drop k).isPrefixOf pat = false) :
    countOcc pat (pat ++ rest) = 1 + countOcc pat rest := by
  cases hp : pat with
  | nil => exact absurd hp hne
  | cons p ps =>
    have h1 : (p :: ps).isPrefixOf (p :: ps ++ rest) = true :=
      (List.isPrefixOf_iff_prefix).2 (List.prefix_append _ _)
    rw [List.cons_append] at h1 ⊢
    simp only [countOcc, h1, if_true]
    have hlen : 0 < ps.length ∨ ps.length = 0 := by omega
    have := countOcc_drop (p :: ps) rest (by rw [← hp]; exact hb) ps.length 1 (by omega)
      (by simp; omega)
    simpa using this

/-- C5, as amended: the content written by `UpdateDailyReport` contains the sentinel
heading once more than the sections rendered from the items contain it; it contains
it exactly once if and only if the rendered sections do not contain it, as when both
lists are empty. -/
theorem updateDailyReport_sentinel_count (content : String) (issues prs : List Item) :
    Count (UpdateDailyReport content issues prs) sentinelHeading
      = 1 + Count (dailySections issues prs) sentinelHeading ∧
    (Count (UpdateDailyReport content issues prs) sentinelHeading = 1 ↔
      Count (dailySections issues prs) sentinelHeading = 0) ∧
    Count (UpdateDailyReport content [] []) sentinelHeading = 1 := by
  have key : ∀ i p : List Item, Count (UpdateDailyReport content i p) sentinelHeading
      = 1 + Count (dailySections i p) sentinelHeading := by
    intro i p
    simp only [Count]
    rw [updateDailyReport_data, countOcc_after_cut _ _ _ sentinel_no_border,
      countOcc_pattern_append _ _ (by decide) sentinel_no_border]
  refine ⟨key _ _, ?_, ?_⟩
  · rw [key]; omega
  · rw [key]
    have : Count (dailySections [] []) sentinelHeading = 0 := by decide
    rw [this]

set_option maxRecDepth 100000 in
/-- Counterexample to C5 as stated: an issue whose title is the sentinel heading. -/
theorem updateDailyReport_sentinel_twice :
    Count (UpdateDailyReport "" [⟨"## 待解决的 Issues", "u", "r", "", "a", []⟩] [])
        sentinelHeading = 2 ∧
    ¬ (Count (UpdateDailyReport "" [⟨"## 待解决的 Issues", "u", "r", "", "a", []⟩] [])
        sentinelHeading = 1) := by
  decide

/-! ## Commit aggregation -/

theorem runner_commitLoop_spec (caseTable : Char → Char) (repo : String) (cs : List Commit)
    (commits : List CommitEntry) (flag : Bool) :
    (runner.commitLoop caseTable repo cs (commits, flag)).1
      = commits ++ cs.filterMap (fun c => (Parse c.Date).map (mkEntry repo c)) ∧
    ((runner.commitLoop caseTable repo cs (commits, flag)).2 = true →
      flag = true ∨ ∃ c ∈ cs, IsBot caseTable c.Name (c.Login.getD "") = false) := by
  induction cs generalizing commits flag with
  | nil => simp [runner.commitLoop]
  | cons c rest ih =>
    simp only [runner.commitLoop]
    cases hp : Parse c.Date with
    | none =>
      simp only [hp]
      obtain ⟨i1, i2⟩ := ih commits
        (if (!IsBot caseTable c.Name (c.Login.getD "")) = true then true else flag)
      refine ⟨by rw [i1]; simp [List.filterMap_cons, hp], ?_⟩
      intro h
      rcases i2 h with e | ⟨d, hd, e⟩
      · by_cases hb : IsBot caseTable c.Name (c.Login.getD "") = true
        · simp [hb] at e; exact Or.inl e
        · right; exact ⟨c, List.mem_cons_self _ _, by simpa using hb⟩
      · right; exact ⟨d, List.mem_cons_of_mem _ hd, e⟩
    | some t =>
      simp only [hp]
      obtain ⟨i1, i2⟩ := ih (commits ++ [mkEntry repo c t])
        (if (!IsBot caseTable c.Name (c.Login.getD "")) = true then true else flag)
      refine ⟨by rw [i1]; simp [List.filterMap_cons, hp], ?_⟩
      intro h
      rcases i2 h with e | ⟨d, hd, e⟩
      · by_cases hb : IsBot caseTable c.Name (c.Login.getD "") = true
        · simp [hb] at e; exact Or.inl e
        · right; exact ⟨c, List.mem_cons_self _ _, by simpa using hb⟩
      · right; exact ⟨d, List.mem_cons_of_mem _ hd, e⟩

theorem runner_repoStep_commits (caseTable : Char → Char) (gh : GitHub)
    (st : List CommitEntry × StringMap) (repo : String) :
    (runner.repoStep caseTable gh st repo).1
      = st.1 ++ (match gh.ListCommitsSince repo with
        | none => []
        | some cs => cs.filterMap (fun c => (Parse c.Date).map (mkEntry repo c))) := by
  unfold runner.repoStep
  cases hf : gh.ListCommitsSince repo with
  | none => simp
  | some cs =>
    simp only
    have h := (runner_commitLoop_spec caseTable repo cs st.1 false).1
    split_ifs
    · split
      · split_ifs <;> exact h
      · exact h
    · exact h

theorem runner_summary_commits_from (caseTable : Char → Char) (gh : GitHub)
    (repos : List String) (st : List CommitEntry × StringMap) :
    (repos.foldl (runner.repoStep caseTable gh) st).1
      = st.1 ++ repos.flatMap (fun repo =>
        match gh.ListCommitsSince repo with
        | none => []
        | some cs => cs.filterMap (fun c => (Parse c.Date).map (mkEntry repo c))) := by
  induction repos generalizing st with
  | nil => simp
  | cons r rest ih =>
    simp only [List.foldl_cons, List.flatMap_cons]
    rw [ih, runner_repoStep_commits, List.append_assoc]

theorem cmdSummary_commitLoop_commits (caseTable : Char → Char) (repo : String)
    (cs : List Commit) (commits : List CommitEntry) (flag : Bool) :
    (cmdSummary.commitLoop caseTable repo cs (commits, flag)).1
      = commits ++ cs.filterMap (fun c => (Parse c.Date).map (mkEntry repo c)) := by
  induction cs generalizing commits flag with
  | nil => simp [cmdSummary.commitLoop]
  | cons c rest ih =>
    simp only [cmdSummary.commitLoop]
    cases hp : Parse c.Date with
    | none =>
      simp only [hp]
      rw [ih]
      simp [List.filterMap_cons, hp]
    | some t =>
      simp only [hp]
      rw [ih]
      simp [List.filterMap_cons, hp]

theorem cmdSummary_repoStep_commits (caseTable : Char → Char) (gh : GitHub)
    (st : List CommitEntry × StringMap) (repo : String) (cs : List Commit)
    (h1 : repo ≠ "hoa-moe") (h2 : repo ≠ ".github") (hf : gh.ListCommitsSince repo = some cs) :
    (cmdSummary.repoStep caseTable gh st repo).1
      = st.1 ++ cs.filterMap (fun c => (Parse c.Date).map (mkEntry repo c)) := by
  unfold cmdSummary.repoStep
  have hskip : ¬ (repo = "hoa-moe" ∨ repo = ".github") := by
    intro h; rcases h with e | e
    · exact h1 e
    · exact h2 e
  rw [if_neg hskip, hf]
  simp only
  have h := cmdSummary_commitLoop_commits caseTable repo cs st.1 false
  split_ifs
  · split
    · split_ifs <;> exact h
    · exact h
  · exact h

theorem report_commitLoop_flag (caseTable : Char → Char) (repo : String) (cs : List Commit)
    (commits : List CommitEntry) (flag : Bool) :
    (report.commitLoop caseTable repo cs (commits, flag)).2 = true →
      flag = true ∨ ∃ c ∈ cs, IsBot caseTable c.Name (c.Login.getD "") = false := by
  induction cs generalizing commits flag with
  | nil => intro h; exact Or.inl h
  | cons c rest ih =>
    simp only [report.commitLoop]
    by_cases hb : IsBot caseTable c.Name (c.Login.getD "") = true
    · simp only [hb, if_true]
      intro h
      rcases ih commits flag h with e | ⟨d, hd, e⟩
      · exact Or.inl e
      · exact Or.inr ⟨d, List.mem_cons_of_mem _ hd, e⟩
    · simp only [hb]
      intro _
      exact Or.inr ⟨c, List.mem_cons_self _ _, by simpa using hb⟩

/-- A key that is read from the map is one of its entries. -/
theorem lookup_mem (m : StringMap) (k v : String) (h : m.lookup k = some v) : (k, v) ∈ m := by
  induction m with
  | nil => simp at h
  | cons p rest ih =>
    obtain ⟨a, b⟩ := p
    simp only [List.lookup] at h
    by_cases hk : k = a
    · subst hk
      simp at h
      subst h
      exact List.mem_cons_self _ _
    · have : (k == a) = false := by simpa using hk
      simp only [this] at h
      exact List.mem_cons_of_mem _ (ih h)

theorem runner_repoStep_titles (caseTable : Char → Char) (gh : GitHub)
    (st : List CommitEntry × StringMap) (repo : String) (k v : String)
    (h : (k, v) ∈ (runner.repoStep caseTable gh st repo).2) :
    (k, v) ∈ st.2 ∨ (k = repo ∧ v ≠ "" ∧ ∃ cs, gh.ListCommitsSince repo = some cs ∧
      ∃ c ∈ cs, IsBot caseTable c.Name (c.Login.getD "") = false) := by
  unfold runner.repoStep at h
  cases hf : gh.ListCommitsSince repo with
  | none => rw [hf] at h; exact Or.inl h
  | some cs =>
    rw [hf] at h
    simp only at h
    by_cases hflag : (runner.commitLoop caseTable repo cs (st.1, false)).2 = true
    · have hman := (runner_commitLoop_spec caseTable repo cs st.1 false).2 hflag
      have hman2 : ∃ c ∈ cs, IsBot caseTable c.Name (c.Login.getD "") = false := by
        rcases hman with e | e
        · exact Bool.noConfusion e
        · exact e
      simp only [hflag, if_true] at h
      cases hn : runner.fetchCourseName gh repo with
      | none => rw [hn] at h; exact Or.inl h
      | some name =>
        rw [hn] at h
        simp only at h
        by_cases hne : name = ""
        · simp only [hne, ne_eq, not_true_eq_false, if_false] at h
          exact Or.inl h
        · simp only [hne, ne_eq, not_false_eq_true, if_true, StringMap.set] at h
          rcases List.mem_cons.1 h with e | e
          · right
            have e1 := (Prod.mk.inj e).1
            have e2 := (Prod.mk.inj e).2
            subst e1; subst e2
            exact ⟨rfl, hne, cs, rfl, hman2⟩
          · exact Or.inl e
    · simp only [hflag] at h
      exact Or.inl h

theorem report_repoStep_titles (caseTable : Char → Char) (gh : GitHub)
    (st : List CommitEntry × StringMap) (repo : String) (k v : String)
    (h : (k, v) ∈ (report.repoStep caseTable gh st repo).2) :
    (k, v) ∈ st.2 ∨ (k = repo ∧ v ≠ "" ∧ ∃ cs, gh.ListCommitsSince repo = some cs ∧
      ∃ c ∈ cs, IsBot caseTable c.Name (c.Login.getD "") = false) := by
  unfold report.repoStep at h
  cases hf : gh.ListCommitsSince repo with
  | none => rw [hf] at h; exact Or.inl h
  | some cs =>
    rw [hf] at h
    simp only at h
    by_cases hflag : (report.commitLoop caseTable repo cs (st.1, false)).2 = true
    · have hman := report_commitLoop_flag caseTable repo cs st.1 false hflag
      have hman2 : ∃ c ∈ cs, IsBot caseTable c.Name (c.Login.getD "") = false := by
        rcases hman with e | e
        · exact Bool.noConfusion e
        · exact e
      simp only [hflag, if_true] at h
      cases hn : report.fetchCourseName gh repo with
      | none => rw [hn] at h; exact Or.inl h
      | some name =>
        rw [hn] at h
        simp only at h
        by_cases hne : name = ""
        · simp only [hne, ne_eq, not_true_eq_false, if_false] at h
          exact Or.inl h
        · simp only [hne, ne_eq, not_false_eq_true, if_true, StringMap.set] at h
          rcases List.mem_cons.1 h with e | e
          · right
            have e1 := (Prod.mk.inj e).1
            have e2 := (Prod.mk.inj e).2
            subst e1; subst e2
            exact ⟨rfl, hne, cs, rfl, hman2⟩
          · exact Or.inl e
    · simp only [hflag] at h
      exact Or.inl h

theorem foldl_titles (step : List CommitEntry × StringMap → String → List CommitEntry × StringMap)
    (P : String → String → Prop)
    (hstep : ∀ st repo k v, (k, v) ∈ (step st repo).2 → (k, v) ∈ st.2 ∨ (k = repo ∧ P k v))
    (repos : List String) (st : List CommitEntry × StringMap) (k v : String)
    (h : (k, v) ∈ (repos.foldl step st).2) :
    (k, v) ∈ st.2 ∨ (k ∈ repos ∧ P k v) := by
  induction repos generalizing st with
  | nil => exact Or.inl h
  | cons r rest ih =>
    simp only [List.foldl_cons] at h
    rcases ih _ h with e | ⟨e1, e2⟩
    · rcases hstep st r k v e with e3 | ⟨e3, e4⟩
      · exact Or.inl e3
      · exact Or.inr ⟨by rw [e3]; exact List.mem_cons_self _ _, e4⟩
    · exact Or.inr ⟨List.mem_cons_of_mem _ e1, e2⟩

/-- C7: after the aggregation loop (`runner.Summary` and `report.collectWeeklyData`)
the title map has an entry for a repository only if that repository was visited, its
fetch succeeded and the fetched commits include one that `IsBot` does not classify as
a bot, whatever the tag file contains; and an entry is never the empty string. -/
theorem titles_only_for_manual (caseTable : Char → Char) (gh : GitHub) (repos : List String)
    (repo title : String) :
    ((runner.Summary caseTable gh repos).2.lookup repo = some title →
      title ≠ "" ∧ repo ∈ repos ∧ ∃ cs, gh.ListCommitsSince repo = some cs ∧
        ∃ c ∈ cs, IsBot caseTable c.Name (c.Login.getD "") = false) ∧
    ((report.collectWeeklyData caseTable gh repos).2.lookup repo = some title →
      title ≠ "" ∧ repo ∈ repos ∧ ∃ cs, gh.ListCommitsSince repo = some cs ∧
        ∃ c ∈ cs, IsBot caseTable c.Name (c.Login.getD "") = false) := by
  constructor
  · intro h
    have hm := lookup_mem _ _ _ h
    rcases foldl_titles (runner.repoStep caseTable gh)
      (fun k v => v ≠ "" ∧ ∃ cs, gh.ListCommitsSince k = some cs ∧
        ∃ c ∈ cs, IsBot caseTable c.Name (c.Login.getD "") = false)
      (fun st r k v hkv => by
        rcases runner_repoStep_titles caseTable gh st r k v hkv with e | ⟨e1, e2, e3⟩
        · exact Or.inl e
        · exact Or.inr ⟨e1, e2, by rw [e1]; exact e3⟩)
      repos ([], []) repo title hm with e | ⟨e1, e2, e3⟩
    · simp at e
    · exact ⟨e2, e1, e3⟩
  · intro h
    have hm := lookup_mem _ _ _ h
    rcases foldl_titles (report.repoStep caseTable gh)
      (fun k v => v ≠ "" ∧ ∃ cs, gh.ListCommitsSince k = some cs ∧
        ∃ c ∈ cs, IsBot caseTable c.Name (c.Login.getD "") = false)
      (fun st r k v hkv => by
        rcases report_repoStep_titles caseTable gh st r k v hkv with e | ⟨e1, e2, e3⟩
        · exact Or.inl e
        · exact Or.inr ⟨e1, e2, by rw [e1]; exact e3⟩)
      repos ([], []) repo title hm with e | ⟨e1, e2, e3⟩
    · simp at e
    · exact ⟨e2, e1, e3⟩

/-! ## The time converter -/

theorem digitsRev_length (fuel n k : Nat) (hk : 0 < k) (hn : n < 10 ^ k) :
    (digitsRev fuel n).length ≤ k := by
  induction fuel generalizing n k with
  | zero => simp [digitsRev]
  | succ f ih =>
    simp only [digitsRev]
    by_cases h0 : n / 10 = 0
    · simp only [h0, if_true, List.length_singleton]; omega
    · simp only [h0, if_false, List.length_cons]
      have hk2 : 2 ≤ k := by
        by_contra hcon
        have : k = 1 := by omega
        subst this
        simp at hn
        omega
      have : n / 10 < 10 ^ (k - 1) := by
        have e : 10 ^ k = 10 ^ (k - 1) * 10 := by
          rw [← pow_succ]; congr 1; omega
        rw [e] at hn
        exact Nat.div_lt_of_lt_mul (by omega)
      have := ih (n / 10) (k - 1) (by omega) this
      omega

theorem appendInt_length (x : Int) (width : Nat) (hw : 0 < width) (h0 : 0 ≤ x)
    (h1 : x < 10 ^ width) : (appendInt x width).length = width := by
  rw [appendInt_nonneg x width h0]
  have hl : (natDigits x.natAbs).length ≤ width := by
    simp only [natDigits, List.length_reverse]
    apply digitsRev_length _ _ _ hw
    have : (x.natAbs : Int) < 10 ^ width := by rw [Int.natAbs_of_nonneg h0]; exact h1
    exact_mod_cast this
  simp only [List.length_append, List.length_replicate]
  omega

theorem digitsValue_appendInt (x : Int) (width : Nat) (h0 : 0 ≤ x) :
    digitsValue (appendInt x width) 0 = some x.natAbs := by
  rw [appendInt_nonneg x width h0, digitsValue_padded]

theorem parseUint_appendInt (x : Int) (width : Nat) (lo hi : Int) (h0 : 0 ≤ x)
    (hlo : lo ≤ x) (hhi : x ≤ hi) : parseUint (appendInt x width) lo hi = some x := by
  simp only [parseUint, digitsValue_appendInt x width h0]
  have e : ((x.natAbs : Nat) : Int) = x := Int.natAbs_of_nonneg h0
  simp [e, hlo, hhi]

theorem two_chars (l : List Char) (h : l.length = 2) : ∃ a b, l = [a, b] :=
  List.length_eq_two.1 h

theorem four_chars (l : List Char) (h : l.length = 4) : ∃ a b c d, l = [a, b, c, d] := by
  match l, h with
  | [a, b, c, d], _ => exact ⟨a, b, c, d, rfl⟩


theorem digitsValue_bound (ds : List Char) (acc : Nat) (h : ∀ c ∈ ds, isDigit c = true) :
    ∃ v, digitsValue ds acc = some v ∧ v < (acc + 1) * 10 ^ ds.length := by
  induction ds generalizing acc with
  | nil => exact ⟨acc, rfl, by simp⟩
  | cons c cs ih =>
    have hc := h c (List.mem_cons_self _ _)
    have hc2 : c.toNat - 48 ≤ 9 := by
      simp only [isDigit, Bool.and_eq_true, decide_eq_true_eq] at hc
      omega
    obtain ⟨v, hv, hb⟩ := ih (acc * 10 + (c.toNat - 48)) (fun d hd => h d (List.mem_cons_of_mem _ hd))
    refine ⟨v, by simp [digitsValue, hc, hv], ?_⟩
    calc v < (acc * 10 + (c.toNat - 48) + 1) * 10 ^ cs.length := hb
      _ ≤ ((acc + 1) * 10) * 10 ^ cs.length := Nat.mul_le_mul_right _ (by omega)
      _ = (acc + 1) * 10 ^ (c :: cs).length := by
        rw [List.length_cons, pow_succ]; ring

theorem parseNanoseconds_bound (digits : List Char) (h : ∀ c ∈ digits, isDigit c = true) :
    0 ≤ parseNanoseconds digits ∧ parseNanoseconds digits < 1000000000 := by
  have hall : ∀ c ∈ digits.take 9, isDigit c = true :=
    fun c hc => h c (List.mem_of_mem_take hc)
  obtain ⟨v, hv, hb⟩ := digitsValue_bound (digits.take 9) 0 hall
  have hlen : (digits.take 9).length ≤ 9 := by simp
  simp only [parseNanoseconds, hv, Option.getD_some]
  constructor
  · positivity
  · have h1 : v + 1 ≤ 10 ^ (digits.take 9).length := by simpa using hb
    have h2 : (v + 1) * 10 ^ (9 - (digits.take 9).length) ≤ 10 ^ 9 := by
      calc (v + 1) * 10 ^ (9 - (digits.take 9).length)
          ≤ 10 ^ (digits.take 9).length * 10 ^ (9 - (digits.take 9).length) :=
            Nat.mul_le_mul_right _ h1
        _ = 10 ^ 9 := by rw [← pow_add]; congr 1; omega
    have h3 : v * 10 ^ (9 - (digits.take 9).length) < 10 ^ 9 := by
      have hpos : 0 < 10 ^ (9 - (digits.take 9).length) := by positivity
      nlinarith
    have h4 : ((v * 10 ^ (9 - (digits.take 9).length) : Nat) : Int) < 1000000000 := by
      exact_mod_cast h3
    simpa using h4

theorem digitsRev_fuel (f1 f2 n : Nat) (h1 : n < f1) (h2 : n < f2) :
    digitsRev f1 n = digitsRev f2 n := by
  induction f1 generalizing f2 n with
  | zero => omega
  | succ f ih =>
    cases f2 with
    | zero => omega
    | succ g =>
      simp only [digitsRev]
      by_cases h0 : n / 10 = 0
      · simp only [h0, if_true]
      · simp only [h0, if_false]
        rw [ih g (n / 10) (by omega) (by omega)]

theorem digitChar_mod (n : Nat) : digitChar (n % 10) = digitChar n := by
  simp [digitChar]

theorem natDigits_lt_ten (d : Nat) (h : d < 10) : natDigits d = [digitChar d] := by
  have : d / 10 = 0 := by omega
  simp [natDigits, digitsRev, this]

theorem natDigits_mul_add (v d : Nat) (hv : 0 < v) (hd : d < 10) :
    natDigits (v * 10 + d) = natDigits v ++ [digitChar d] := by
  have h1 : (v * 10 + d) / 10 = v := by omega
  have h2 : (v * 10 + d) % 10 = d := by omega
  have h3 : ¬ (v = 0) := by omega
  have hc : digitChar (v * 10 + d) = digitChar d := by
    rw [← digitChar_mod, h2]
  have e : digitsRev (v * 10 + d + 1) (v * 10 + d) = digitChar d :: digitsRev (v + 1) v := by
    rw [digitsRev, h1, hc, if_neg h3,
      digitsRev_fuel (v * 10 + d) (v + 1) v (by omega) (by omega)]
  simp only [natDigits, e, List.reverse_cons]

theorem digitChar_of_isDigit (c : Char) (h : isDigit c = true) :
    digitChar (c.toNat - 48) = c ∧ c.toNat - 48 < 10 := by
  simp only [isDigit, Bool.and_eq_true, decide_eq_true_eq] at h
  have h1 : (c.toNat - 48) % 10 = c.toNat - 48 := by omega
  have h2 : 48 + (c.toNat - 48) = c.toNat := by omega
  refine ⟨?_, by omega⟩
  simp only [digitChar, h1, h2]
  exact Char.ofNat_toNat c

/-- Writing a parsed number back with the width of its text gives the text. -/
theorem padded_of_digitsValue (cs : List Char) (n : Nat) (hne : cs ≠ [])
    (h : digitsValue cs 0 = some n) :
    List.replicate (cs.length - (natDigits n).length) '0' ++ natDigits n = cs := by
  induction cs using List.reverseRecOn generalizing n with
  | nil => exact absurd rfl hne
  | append_singleton init c ih =>
    rw [digitsValue_snoc] at h
    cases hv : digitsValue init 0 with
    | none => rw [hv] at h; simp at h
    | some v =>
      rw [hv] at h
      simp only at h
      by_cases hc : isDigit c = true
      · simp only [hc, if_true, Option.some.injEq] at h
        obtain ⟨e1, e2⟩ := digitChar_of_isDigit c hc
        subst h
        by_cases hv0 : v = 0
        · subst hv0
          simp only [Nat.zero_mul, Nat.zero_add]
          rw [natDigits_lt_ten _ e2, e1]
          simp only [List.length_append, List.length_singleton, Nat.add_sub_cancel]
          congr 1
          by_cases hi : init = []
          · subst hi; rfl
          · have := ih 0 hi hv
            have hz : natDigits 0 = ['0'] := by decide
            rw [hz] at this
            simp only [List.length_singleton] at this
            have hlen : 0 < init.length := List.length_pos.2 hi
            have e : List.replicate init.length '0'
                = List.replicate (init.length - 1) '0' ++ ['0'] := by
              have : init.length = (init.length - 1) + 1 := by omega
              conv_lhs => rw [this, List.replicate_succ']
            rw [e, this]
        · have hvpos : 0 < v := by omega
          rw [natDigits_mul_add v _ hvpos e2, e1]
          by_cases hi : init = []
          · subst hi
            simp [digitsValue] at hv
            omega
          · have := ih v hi hv
            simp only [List.length_append, List.length_singleton]
            rw [← List.append_assoc]
            congr 1
            have e : init.length + 1 - ((natDigits v).length + 1)
                = init.length - (natDigits v).length := by omega
            rw [e, this]
      · simp [hc] at h

theorem parseUint_sound (cs : List Char) (lo hi v : Int) (hne : cs ≠ [])
    (h : parseUint cs lo hi = some v) :
    0 ≤ v ∧ lo ≤ v ∧ v ≤ hi ∧ appendInt v cs.length = cs := by
  unfold parseUint at h
  cases hd : digitsValue cs 0 with
  | none => rw [hd] at h; simp at h
  | some n =>
    rw [hd] at h
    simp only at h
    by_cases hr : lo ≤ (n : Int) ∧ (n : Int) ≤ hi
    · simp only [hr, and_self, if_true, Option.some.injEq] at h
      subst h
      refine ⟨by omega, hr.1, hr.2, ?_⟩
      rw [appendInt_nonneg _ _ (by omega)]
      simpa using padded_of_digitsValue cs n hne hd
    · simp [hr] at h

/-! ## Well-formed timestamps and the time converter -/

theorem takeWhile_digits_append (fs rest : List Char) (h : ∀ c ∈ fs, isDigit c = true)
    (hr : ∀ c, rest.head? = some c → isDigit c = false) :
    (fs ++ rest).takeWhile isDigit = fs ∧ (fs ++ rest).dropWhile isDigit = rest := by
  induction fs with
  | nil =>
    cases rest with
    | nil => exact ⟨rfl, rfl⟩
    | cons z zs =>
      have := hr z rfl
      simp [List.takeWhile_cons, List.dropWhile_cons, this]
  | cons c cs ih =>
    have hc := h c (List.mem_cons_self _ _)
    obtain ⟨i1, i2⟩ := ih (fun d hd => h d (List.mem_cons_of_mem _ hd))
    simp only [List.cons_append, List.takeWhile_cons, List.dropWhile_cons, hc, if_true, i1, i2]
    exact ⟨trivial, trivial⟩

theorem zoneText_head (zone : Option (Char × Int × Int))
    (hz : ∀ sign hh mm, zone = some (sign, hh, mm) →
      (sign = '+' ∨ sign = '-') ∧ (0 ≤ hh ∧ hh ≤ 23) ∧ (0 ≤ mm ∧ mm ≤ 59)) :
    ∃ z zs, zoneText zone = z :: zs ∧ isDigit z = false ∧ z ≠ '.' := by
  cases zone with
  | none => exact ⟨'Z', [], rfl, by decide, by decide⟩
  | some p =>
    obtain ⟨sg, hh, mm⟩ := p
    obtain ⟨hs, _, _⟩ := hz sg hh mm rfl
    refine ⟨sg, _, rfl, ?_, ?_⟩
    · rcases hs with e | e <;> subst e <;> decide
    · rcases hs with e | e <;> subst e <;> decide

theorem parseFraction_text (fraction : List Char) (rest : List Char)
    (h : ∀ c ∈ fraction, isDigit c = true)
    (hr : ∃ z zs, rest = z :: zs ∧ isDigit z = false ∧ z ≠ '.') :
    ∃ nsec : Int, 0 ≤ nsec ∧ nsec < 1000000000 ∧
      parseFraction ((if fraction = [] then [] else '.' :: fraction) ++ rest)
        = (nsec, rest) := by
  obtain ⟨z, zs, hrest, hz1, hz2⟩ := hr
  cases fraction with
  | nil =>
    refine ⟨0, by omega, by omega, ?_⟩
    subst hrest
    simp only [if_true, List.nil_append]
    unfold parseFraction
    split
    · rename_i d r heq
      exact absurd (List.head_eq_of_cons_eq heq) hz2
    · rfl
  | cons f fs =>
    have hf := h f (List.mem_cons_self _ _)
    obtain ⟨i1, i2⟩ := takeWhile_digits_append fs rest
      (fun d hd => h d (List.mem_cons_of_mem _ hd))
      (fun c hc => by subst hrest; simp at hc; subst hc; exact hz1)
    obtain ⟨b1, b2⟩ := parseNanoseconds_bound (f :: fs) h
    refine ⟨parseNanoseconds (f :: fs), b1, b2, ?_⟩
    simp [parseFraction, hf, i1, i2]

theorem parseZone_zoneText (zone : Option (Char × Int × Int))
    (hz : ∀ sign hh mm, zone = some (sign, hh, mm) →
      (sign = '+' ∨ sign = '-') ∧ (0 ≤ hh ∧ hh ≤ 23) ∧ (0 ≤ mm ∧ mm ≤ 59)) :
    parseZone (zoneText zone) = some (zoneSeconds zone) := by
  cases zone with
  | none => rfl
  | some p =>
    obtain ⟨sg, hh, mm⟩ := p
    obtain ⟨hs, hh1, hm1⟩ := hz sg hh mm rfl
    obtain ⟨a, b, eh⟩ := two_chars _
      (appendInt_length hh 2 (by omega) hh1.1 (by norm_num; omega))
    obtain ⟨c, d, em⟩ := two_chars _
      (appendInt_length mm 2 (by omega) hm1.1 (by norm_num; omega))
    have ph := parseUint_appendInt hh 2 0 23 hh1.1 hh1.1 hh1.2
    have pm := parseUint_appendInt mm 2 0 59 hm1.1 hm1.1 hm1.2
    rw [eh] at ph; rw [em] at pm
    simp only [zoneText, eh, em, List.cons_append, List.nil_append, parseZone, ph, pm,
      zoneSeconds]
    rcases hs with e | e <;> subst e <;> simp

/-- The parser accepts every well-formed timestamp, and reads it as the instant its
fields denote. -/
theorem parseRFC3339_timestampText (year month day hour min sec : Int) (fraction : List Char)
    (zone : Option (Char × Int × Int))
    (hy : 0 ≤ year ∧ year ≤ 9999) (hd : validDate year month day)
    (hh : 0 ≤ hour ∧ hour ≤ 23) (hm : 0 ≤ min ∧ min ≤ 59) (hs : 0 ≤ sec ∧ sec ≤ 59)
    (hf : ∀ c ∈ fraction, isDigit c = true)
    (hz : ∀ sign hh mm, zone = some (sign, hh, mm) →
      (sign = '+' ∨ sign = '-') ∧ (0 ≤ hh ∧ hh ≤ 23) ∧ (0 ≤ mm ∧ mm ≤ 59)) :
    ∃ nsec : Int, 0 ≤ nsec ∧ nsec < 1000000000 ∧
      parseRFC3339 (timestampText year month day hour min sec fraction zone)
        = some { unixNano := (DateUTC year month day hour min sec nsec).unixNano
                   - zoneSeconds zone * 1000000000,
                 offset := zoneSeconds zone } := by
  obtain ⟨hd1, hd2, hd3, hd4⟩ := hd
  have hdi := daysIn_pos month year
  obtain ⟨y1, y2, y3, y4, ey⟩ := four_chars _
    (appendInt_length year 4 (by omega) hy.1 (by norm_num; omega))
  obtain ⟨m1, m2, em⟩ := two_chars _
    (appendInt_length month 2 (by omega) (by omega) (by norm_num; omega))
  obtain ⟨d1, d2, ed⟩ := two_chars _
    (appendInt_length day 2 (by omega) (by omega) (by norm_num; omega))
  obtain ⟨h1, h2, eh⟩ := two_chars _
    (appendInt_length hour 2 (by omega) hh.1 (by norm_num; omega))
  obtain ⟨n1, n2, en⟩ := two_chars _
    (appendInt_length min 2 (by omega) hm.1 (by norm_num; omega))
  obtain ⟨s1, s2, es⟩ := two_chars _
    (appendInt_length sec 2 (by omega) hs.1 (by norm_num; omega))
  have py := parseUint_appendInt year 4 0 9999 hy.1 hy.1 hy.2
  have pm := parseUint_appendInt month 2 1 12 (by omega) hd1 hd2
  have pd := parseUint_appendInt day 2 1 (daysIn month year) (by omega) hd3 hd4
  have ph := parseUint_appendInt hour 2 0 23 hh.1 hh.1 hh.2
  have pn := parseUint_appendInt min 2 0 59 hm.1 hm.1 hm.2
  have ps := parseUint_appendInt sec 2 0 59 hs.1 hs.1 hs.2
  rw [ey] at py; rw [em] at pm; rw [ed] at pd; rw [eh] at ph; rw [en] at pn; rw [es] at ps
  obtain ⟨nsec, b1, b2, efrac⟩ := parseFraction_text fraction (zoneText zone) hf
    (zoneText_head zone hz)
  have ezone := parseZone_zoneText zone hz
  refine ⟨nsec, b1, b2, ?_⟩
  simp only [timestampText, ey, em, ed, eh, en, es, List.cons_append, List.nil_append,
    List.append_assoc, parseRFC3339]
  simp only [py, pm, pd, ph, pn, ps, efrac, ezone, and_self, if_true]


theorem parseFraction_sound (rest : List Char) :
    ∃ fraction : List Char, (∀ c ∈ fraction, isDigit c = true) ∧
      rest = (if fraction = [] then [] else '.' :: fraction) ++ (parseFraction rest).2 := by
  unfold parseFraction
  split
  · rename_i d r
    by_cases hd : isDigit d = true
    · refine ⟨d :: r.takeWhile isDigit, ?_, ?_⟩
      · intro c hc
        rcases List.mem_cons.1 hc with e | e
        · subst e; exact hd
        · exact (List.mem_takeWhile_imp e)
      · simp [hd, List.takeWhile_append_dropWhile]
    · exact ⟨[], by simp, by simp [hd]⟩
  · exact ⟨[], by simp, by simp⟩

theorem parseZone_sound (z : List Char) (off : Int) (h : parseZone z = some off) :
    ∃ zone : Option (Char × Int × Int),
      (∀ sign hh mm, zone = some (sign, hh, mm) →
        (sign = '+' ∨ sign = '-') ∧ (0 ≤ hh ∧ hh ≤ 23) ∧ (0 ≤ mm ∧ mm ≤ 59)) ∧
      z = zoneText zone := by
  unfold parseZone at h
  split at h
  · exact ⟨none, by simp, rfl⟩
  · rename_i sg h1 h2 c m1 m2
    split at h
    · rename_i hr mm ehr emm
      obtain ⟨a1, a2, a3, a4⟩ := parseUint_sound [h1, h2] 0 23 hr (by simp) ehr
      obtain ⟨b1, b2, b3, b4⟩ := parseUint_sound [m1, m2] 0 59 mm (by simp) emm
      by_cases hc : (sg = '-' ∨ sg = '+') ∧ c = ':'
      · refine ⟨some (sg, hr, mm), ?_, ?_⟩
        · intro sign hh2 mm2 e
          simp only [Option.some.injEq, Prod.mk.injEq] at e
          obtain ⟨e1, e2, e3⟩ := e
          subst e1; subst e2; subst e3
          exact ⟨hc.1.symm, ⟨a1, a3⟩, ⟨b1, b3⟩⟩
        · simp only [List.length_cons, List.length_nil] at a4 b4
          simp only [zoneText, a4, b4, hc.2, List.cons_append, List.nil_append]
      · simp [hc] at h
    · simp at h
  · simp at h

/-- The parser accepts nothing but well-formed timestamps. -/
theorem wellFormed_of_parse (s : String) (t : Time) (h : parseRFC3339 s = some t) :
    WellFormedRFC3339 s := by
  unfold parseRFC3339 at h
  split at h
  · rename_i y1 y2 y3 y4 c4 m1 m2 c7 d1 d2 c10 h1 h2 c13 n1 n2 c16 s1 s2 rest hdata
    split at h
    · rename_i year month ey em
      split at h
      · rename_i day hour min sec ed eh en es
        obtain ⟨y0, y5, y6, y7⟩ := parseUint_sound _ _ _ _ (by simp) ey
        obtain ⟨m0, m5, m6, m7⟩ := parseUint_sound _ _ _ _ (by simp) em
        obtain ⟨d0, d5, d6, d7⟩ := parseUint_sound _ _ _ _ (by simp) ed
        obtain ⟨h0, h5, h6, h7⟩ := parseUint_sound _ _ _ _ (by simp) eh
        obtain ⟨n0, n5, n6, n7⟩ := parseUint_sound _ _ _ _ (by simp) en
        obtain ⟨s0, s5, s6, s7⟩ := parseUint_sound _ _ _ _ (by simp) es
        by_cases hc : c4 = '-' ∧ c7 = '-' ∧ c10 = 'T' ∧ c13 = ':' ∧ c16 = ':'
        · simp only [hc, and_self, if_true] at h
          obtain ⟨fraction, hf, efrac⟩ := parseFraction_sound rest
          cases hz : parseZone (parseFraction rest).2 with
          | none => rw [hz] at h; simp at h
          | some off =>
            obtain ⟨zone, hzone, ezone⟩ := parseZone_sound _ _ hz
            refine ⟨year, month, day, hour, min, sec, fraction, zone, ⟨y0, y6⟩,
              ⟨m5, m6, d5, d6⟩, ⟨h0, h6⟩, ⟨n0, n6⟩, ⟨s0, s6⟩, hf, hzone, ?_⟩
            apply String.ext
            simp only [List.length_cons, List.length_nil] at y7 m7 d7 h7 n7 s7
            obtain ⟨c1, c2, c3, c5, c6⟩ := hc
            subst c1; subst c2; subst c3; subst c5; subst c6
            rw [hdata]
            simp only [timestampText, y7, m7, d7, h7, n7, s7, List.cons_append,
              List.nil_append, List.append_assoc]
            rw [← ezone, ← efrac]
        · simp [hc] at h
      · simp at h
    · simp at h
  · simp at h

theorem wellFormed_iff (s : String) : WellFormedRFC3339 s ↔ parseRFC3339 s ≠ none := by
  constructor
  · rintro ⟨year, month, day, hour, min, sec, fraction, zone, hy, hd, hh, hm, hs, hf, hz, rfl⟩
    obtain ⟨nsec, _, _, hp⟩ :=
      parseRFC3339_timestampText year month day hour min sec fraction zone hy hd hh hm hs hf hz
    rw [hp]; simp
  · intro h
    cases hp : parseRFC3339 s with
    | none => exact absurd hp h
    | some t => exact wellFormed_of_parse s t hp

theorem ite_none_eq_some {α : Type} (c : Prop) [Decidable c] (x : Option α) (b : α) :
    (if c then none else x) = some b ↔ ¬ c ∧ x = some b := by
  by_cases h : c
  · simp [h]
  · simp [h]

theorem isDigit_bound (c : Char) (h : isDigit c = true) : 48 ≤ c.toNat ∧ c.toNat ≤ 57 := by
  simpa [isDigit] using h

theorem parseUint_two_digits (a b : Char) (ha : isDigit a = true) (hb : isDigit b = true) :
    parseUint [a, b] 0 99
      = some ((((a.toNat - 48) * 10 + (b.toNat - 48) : Nat) : Int)) := by
  obtain ⟨a1, a2⟩ := isDigit_bound a ha
  obtain ⟨b1, b2⟩ := isDigit_bound b hb
  have hv : digitsValue [a, b] 0 = some ((a.toNat - 48) * 10 + (b.toNat - 48)) := by
    simp [digitsValue, ha, hb]
  simp only [parseUint, hv]
  rw [if_pos]
  constructor
  · exact Int.natCast_nonneg _
  · have : (a.toNat - 48) * 10 + (b.toNat - 48) ≤ 99 := by omega
    exact_mod_cast this

theorem parseUint_one_digit (a : Char) (ha : isDigit a = true) :
    parseUint [a] 0 9 = some (((a.toNat - 48 : Nat) : Int)) := by
  obtain ⟨a1, a2⟩ := isDigit_bound a ha
  have hv : digitsValue [a] 0 = some (a.toNat - 48) := by
    simp [digitsValue, ha]
  simp only [parseUint, hv]
  rw [if_pos]
  constructor
  · exact Int.natCast_nonneg _
  · have : a.toNat - 48 ≤ 9 := by omega
    exact_mod_cast this

/-- What `getnum` reads is a number below 100 written with one or two digits, with
two digits when `fixed`. -/
theorem getnum_sound (v : List Char) (fixed : Bool) (r : Int × List Char)
    (h : getnum v fixed = some r) :
    0 ≤ r.1 ∧ r.1 ≤ 99 ∧ ∃ w : Nat, (w = 1 ∨ w = 2) ∧ (fixed = true → w = 2) ∧
      (w = 1 → r.1 ≤ 9) ∧ v = appendInt r.1 w ++ r.2 := by
  unfold getnum at h
  cases v with
  | nil => simp at h
  | cons a rest =>
    simp only at h
    by_cases ha : isDigit a = true
    · simp only [ha, if_true] at h
      have one := parseUint_sound [a] 0 9 _ (by simp) (parseUint_one_digit a ha)
      cases rest with
      | nil =>
        simp only at h
        by_cases hf : fixed = true
        · simp [hf] at h
        · simp only [hf, Bool.false_eq_true, if_false, Option.some.injEq] at h
          subst h
          obtain ⟨o1, _, o3, o4⟩ := one
          refine ⟨o1, by omega, 1, Or.inl rfl, fun e => absurd e hf, fun _ => o3, ?_⟩
          simp only [List.length_cons, List.length_nil] at o4
          simp [o4]
      | cons b rest2 =>
        simp only at h
        by_cases hb : isDigit b = true
        · simp only [hb, if_true, Option.some.injEq] at h
          subst h
          obtain ⟨t1, _, t3, t4⟩ := parseUint_sound [a, b] 0 99 _ (by simp)
            (parseUint_two_digits a b ha hb)
          refine ⟨t1, t3, 2, Or.inr rfl, fun _ => rfl, fun e => by omega, ?_⟩
          have t5 : appendInt ((((a.toNat - 48) * 10 + (b.toNat - 48) : Nat) : Int)) 2
              = [a, b] := t4
          rw [t5]
          rfl
        · simp only [hb, Bool.false_eq_true, if_false] at h
          by_cases hf : fixed = true
          · simp [hf] at h
          · simp only [hf, Bool.false_eq_true, if_false, Option.some.injEq] at h
            subst h
            obtain ⟨o1, _, o3, o4⟩ := one
            refine ⟨o1, by omega, 1, Or.inl rfl, fun e => absurd e hf, fun _ => o3, ?_⟩
            simp only [List.length_cons, List.length_nil] at o4
            simp [o4]
    · simp [ha] at h

theorem getnum_two (n : Int) (rest : List Char) (fixed : Bool) (h0 : 0 ≤ n) (h1 : n ≤ 99) :
    getnum (appendInt n 2 ++ rest) fixed = some (n, rest) := by
  obtain ⟨a, b, e⟩ := two_chars _ (appendInt_length n 2 (by omega) h0 (by norm_num; omega))
  have hv := digitsValue_appendInt n 2 h0
  rw [e] at hv
  have ha : isDigit a = true := by
    by_contra hc
    simp [digitsValue, hc] at hv
  have hb : isDigit b = true := by
    by_contra hc
    simp [digitsValue, ha, hc] at hv
  have hp := parseUint_appendInt n 2 0 99 h0 h0 h1
  rw [e, parseUint_two_digits a b ha hb] at hp
  rw [e]
  simp only [List.cons_append, List.nil_append, getnum, ha, hb, if_true]
  rw [Option.some.injEq] at hp
  rw [hp]

theorem getnum_hour (hour : Int) (w : Nat) (rest : List Char) (h0 : 0 ≤ hour) (h1 : hour ≤ 23)
    (hw : w = 1 ∨ w = 2) :
    getnum (appendInt hour w ++ ':' :: rest) false = some (hour, ':' :: rest) := by
  rcases hw with e | e
  · subst e
    interval_cases hour <;> rfl
  · subst e
    exact getnum_two hour _ false h0 (by omega)

theorem commaFraction_sound (rest : List Char) :
    ∃ (sep : Char) (fraction : List Char), (sep = '.' ∨ sep = ',') ∧
      (∀ c ∈ fraction, isDigit c = true) ∧
      rest = (if fraction = [] then [] else sep :: fraction)
        ++ (parseCommaOrPeriodFraction rest).2 := by
  unfold parseCommaOrPeriodFraction
  split
  · rename_i sep d r
    by_cases hd : (sep = '.' ∨ sep = ',') ∧ isDigit d = true
    · refine ⟨sep, d :: r.takeWhile isDigit, hd.1, ?_, ?_⟩
      · intro c hc
        rcases List.mem_cons.1 hc with e | e
        · subst e; exact hd.2
        · exact (List.mem_takeWhile_imp e)
      · simp [hd, List.takeWhile_append_dropWhile]
    · exact ⟨'.', [], Or.inl rfl, by simp, by simp [hd]⟩
  · exact ⟨'.', [], Or.inl rfl, by simp, by simp⟩

theorem commaFraction_text (sep : Char) (fraction : List Char) (rest : List Char)
    (hsep : sep = '.' ∨ sep = ',') (h : ∀ c ∈ fraction, isDigit c = true)
    (hr : ∃ z zs, rest = z :: zs ∧ isDigit z = false ∧ z ≠ '.' ∧ z ≠ ',') :
    ∃ nsec : Int, 0 ≤ nsec ∧ nsec < 1000000000 ∧
      parseCommaOrPeriodFraction ((if fraction = [] then [] else sep :: fraction) ++ rest)
        = (nsec, rest) := by
  obtain ⟨z, zs, hrest, hz1, hz2, hz3⟩ := hr
  cases fraction with
  | nil =>
    refine ⟨0, by omega, by omega, ?_⟩
    subst hrest
    simp only [if_true, List.nil_append]
    unfold parseCommaOrPeriodFraction
    split
    · rename_i s2 d r heq
      have e := List.head_eq_of_cons_eq heq
      have hn : ¬ ((s2 = '.' ∨ s2 = ',') ∧ isDigit d = true) := by
        rintro ⟨h1 | h1, _⟩
        · exact hz2 (e.trans h1)
        · exact hz3 (e.trans h1)
      rw [if_neg hn, heq]
    · rfl
  | cons f fs =>
    have hf := h f (List.mem_cons_self _ _)
    obtain ⟨i1, i2⟩ := takeWhile_digits_append fs rest
      (fun d hd => h d (List.mem_cons_of_mem _ hd))
      (fun c hc => by subst hrest; simp at hc; subst hc; exact hz1)
    obtain ⟨b1, b2⟩ := parseNanoseconds_bound (f :: fs) h
    refine ⟨parseNanoseconds (f :: fs), b1, b2, ?_⟩
    simp [parseCommaOrPeriodFraction, hf, hsep, i1, i2]

theorem zoneText_head_wider (zone : Option (Char × Int × Int))
    (hz : ∀ sign hh mm, zone = some (sign, hh, mm) →
      (sign = '+' ∨ sign = '-') ∧ (0 ≤ hh ∧ hh ≤ 24) ∧ (0 ≤ mm ∧ mm ≤ 60)) :
    ∃ z zs, zoneText zone = z :: zs ∧ isDigit z = false ∧ z ≠ '.' ∧ z ≠ ',' := by
  cases zone with
  | none => exact ⟨'Z', [], rfl, by decide, by decide, by decide⟩
  | some p =>
    obtain ⟨sg, hh, mm⟩ := p
    obtain ⟨hs, _, _⟩ := hz sg hh mm rfl
    refine ⟨sg, _, rfl, ?_, ?_, ?_⟩
    · rcases hs with e | e <;> subst e <;> decide
    · rcases hs with e | e <;> subst e <;> decide
    · rcases hs with e | e <;> subst e <;> decide

theorem parseColonZone_signed (sg h1 h2 c m1 m2 : Char) (rest : List Char) (hsg : sg ≠ 'Z') :
    parseColonZone (sg :: h1 :: h2 :: c :: m1 :: m2 :: rest)
      = if c = ':' then
          match getnum [h1, h2] true, getnum [m1, m2] true with
          | some hr, some mm =>
            if hr.1 > 24 ∨ mm.1 > 60 then none
            else if sg = '+' then some ((hr.1 * 60 + mm.1) * 60, rest)
            else if sg = '-' then some (-((hr.1 * 60 + mm.1) * 60), rest)
            else none
          | _, _ => none
        else none := by
  unfold parseColonZone
  split
  · rename_i heq
    exact absurd (List.head_eq_of_cons_eq heq) hsg
  · rename_i heq
    simp only [List.cons.injEq] at heq
    obtain ⟨e1, e2, e3, e4, e5, e6, e7⟩ := heq
    subst e1; subst e2; subst e3; subst e4; subst e5; subst e6; subst e7
    rfl
  · rename_i hno
    exact absurd rfl (hno sg h1 h2 c m1 m2 rest)

theorem parseColonZone_zoneText (zone : Option (Char × Int × Int))
    (hz : ∀ sign hh mm, zone = some (sign, hh, mm) →
      (sign = '+' ∨ sign = '-') ∧ (0 ≤ hh ∧ hh ≤ 24) ∧ (0 ≤ mm ∧ mm ≤ 60)) :
    parseColonZone (zoneText zone) = some (zoneSeconds zone, []) := by
  cases zone with
  | none => rfl
  | some p =>
    obtain ⟨sg, hh, mm⟩ := p
    obtain ⟨hs, hh1, hm1⟩ := hz sg hh mm rfl
    obtain ⟨a, b, eh⟩ := two_chars _
      (appendInt_length hh 2 (by omega) hh1.1 (by norm_num; omega))
    obtain ⟨c, d, em⟩ := two_chars _
      (appendInt_length mm 2 (by omega) hm1.1 (by norm_num; omega))
    have ph := getnum_two hh [] true hh1.1 (by omega)
    have pm := getnum_two mm [] true hm1.1 (by omega)
    rw [eh] at ph; rw [em] at pm
    simp only [List.append_nil] at ph pm
    have n1 : ¬ (hh > 24 ∨ mm > 60) := by omega
    have n2 : ¬ (24 < hh ∨ 60 < mm) := by omega
    rcases hs with e | e
    · subst e
      simp only [zoneText, eh, em, List.cons_append, List.nil_append]
      rw [parseColonZone_signed _ _ _ _ _ _ _ (by decide), ph, pm]
      simp [n2, zoneSeconds]
    · subst e
      simp only [zoneText, eh, em, List.cons_append, List.nil_append]
      rw [parseColonZone_signed _ _ _ _ _ _ _ (by decide), ph, pm]
      simp [n2, zoneSeconds]

theorem parseColonZone_sound (z : List Char) (r : Int × List Char)
    (h : parseColonZone z = some r) :
    ∃ zone : Option (Char × Int × Int),
      (∀ sign hh mm, zone = some (sign, hh, mm) →
        (sign = '+' ∨ sign = '-') ∧ (0 ≤ hh ∧ hh ≤ 24) ∧ (0 ≤ mm ∧ mm ≤ 60)) ∧
      z = zoneText zone ++ r.2 ∧ r.1 = zoneSeconds zone := by
  unfold parseColonZone at h
  split at h
  · simp only [Option.some.injEq] at h
    subst h
    exact ⟨none, by simp, rfl, rfl⟩
  · rename_i sg h1 h2 c m1 m2 rest hnz
    by_cases hc : c = ':'
    · simp only [hc, if_true] at h
      split at h
      · rename_i hr mm ehr emm
        obtain ⟨a1, a2, w1, _, hw1, _, a4⟩ := getnum_sound _ _ _ ehr
        obtain ⟨b1, b2, w2, _, hw2, _, b4⟩ := getnum_sound _ _ _ emm
        have e1 := hw1 rfl
        have e2 := hw2 rfl
        subst e1; subst e2
        have l1 : hr.2 = [] := by
          have := congrArg List.length a4
          rw [List.length_append, appendInt_length hr.1 2 (by omega) a1 (by norm_num; omega)]
            at this
          simp only [List.length_cons, List.length_nil] at this
          exact List.length_eq_zero.1 (by omega)
        have l2 : mm.2 = [] := by
          have := congrArg List.length b4
          rw [List.length_append, appendInt_length mm.1 2 (by omega) b1 (by norm_num; omega)]
            at this
          simp only [List.length_cons, List.length_nil] at this
          exact List.length_eq_zero.1 (by omega)
        rw [l1, List.append_nil] at a4
        rw [l2, List.append_nil] at b4
        by_cases hrange : hr.1 > 24 ∨ mm.1 > 60
        · simp [hrange] at h
        · simp only [hrange, if_false] at h
          by_cases hp : sg = '+'
          · simp only [hp, if_true, Option.some.injEq] at h
            subst h
            refine ⟨some ('+', hr.1, mm.1), ?_, ?_, ?_⟩
            · intro sign hh2 mm2 e
              simp only [Option.some.injEq, Prod.mk.injEq] at e
              obtain ⟨e1, e2, e3⟩ := e
              subst e1; subst e2; subst e3
              exact ⟨Or.inl rfl, ⟨a1, by omega⟩, ⟨b1, by omega⟩⟩
            · simp only [zoneText, ← a4, ← b4, hp, hc, List.cons_append, List.nil_append]
            · simp [zoneSeconds]
          · simp only [hp, if_false] at h
            by_cases hm : sg = '-'
            · simp only [hm, if_true, Option.some.injEq] at h
              subst h
              refine ⟨some ('-', hr.1, mm.1), ?_, ?_, ?_⟩
              · intro sign hh2 mm2 e
                simp only [Option.some.injEq, Prod.mk.injEq] at e
                obtain ⟨e1, e2, e3⟩ := e
                subst e1; subst e2; subst e3
                exact ⟨Or.inr rfl, ⟨a1, by omega⟩, ⟨b1, by omega⟩⟩
              · simp only [zoneText, ← a4, ← b4, hm, hc, List.cons_append, List.nil_append]
              · simp [zoneSeconds]
            · simp [hm] at h
      · simp at h
    · simp [hc] at h
  · simp at h

theorem skip_sound (value : List Char) (c : Char) (r : List Char)
    (h : skip value c = some r) : value = c :: r := by
  unfold skip at h
  cases value with
  | nil => simp at h
  | cons v rest =>
    simp only at h
    by_cases hv : v = c
    · simp only [hv, if_true, Option.some.injEq] at h
      rw [hv, h]
    · simp [hv] at h

/-- The general parser accepts nothing but timestamps of the wider forms. -/
theorem accepted_of_parse (s : String) (t : Time) (h : parse s = some t) :
    AcceptedByParse s := by
  unfold parse at h
  split at h
  · rename_i y1 y2 y3 y4 value hdata
    rw [Option.bind_eq_some] at h
    obtain ⟨year, ey, h⟩ := h
    rw [Option.bind_eq_some] at h
    obtain ⟨v1, e1, h⟩ := h
    rw [Option.bind_eq_some] at h
    obtain ⟨month, em, h⟩ := h
    rw [ite_none_eq_some, Option.bind_eq_some] at h
    obtain ⟨hmr, v2, e2, h⟩ := h
    rw [Option.bind_eq_some] at h
    obtain ⟨day, ed, h⟩ := h
    rw [Option.bind_eq_some] at h
    obtain ⟨v3, e3, h⟩ := h
    rw [Option.bind_eq_some] at h
    obtain ⟨hour, eh, h⟩ := h
    rw [ite_none_eq_some, Option.bind_eq_some] at h
    obtain ⟨hhr, v4, e4, h⟩ := h
    rw [Option.bind_eq_some] at h
    obtain ⟨min, en, h⟩ := h
    rw [ite_none_eq_some, Option.bind_eq_some] at h
    obtain ⟨hnr, v5, e5, h⟩ := h
    rw [Option.bind_eq_some] at h
    obtain ⟨sec, es, h⟩ := h
    rw [ite_none_eq_some] at h
    obtain ⟨hsr, h⟩ := h
    simp only [] at h
    rw [Option.bind_eq_some] at h
    obtain ⟨zone, ez, h⟩ := h
    rw [ite_none_eq_some, ite_none_eq_some] at h
    obtain ⟨hrest, hday, _⟩ := h
    obtain ⟨y0, _, y6, y7⟩ := parseUint_sound _ _ _ _ (by simp) ey
    obtain ⟨_, _, wm, _, hwm, _, tm⟩ := getnum_sound _ _ _ em
    obtain ⟨_, _, wd, _, hwd, _, td⟩ := getnum_sound _ _ _ ed
    obtain ⟨h0, _, wh, hwh, _, _, th⟩ := getnum_sound _ _ _ eh
    obtain ⟨n0, _, wn, _, hwn, _, tn⟩ := getnum_sound _ _ _ en
    obtain ⟨s0, _, ws, _, hws, _, ts⟩ := getnum_sound _ _ _ es
    have := hwm rfl; subst this
    have := hwd rfl; subst this
    have := hwn rfl; subst this
    have := hws rfl; subst this
    obtain ⟨sep, fraction, hsep, hf, efrac⟩ := commaFraction_sound sec.2
    obtain ⟨z, hz, tz, _⟩ := parseColonZone_sound _ _ ez
    have hrest2 : zone.2 = [] := by
      by_contra hc
      exact hrest hc
    refine ⟨year, month.1, day.1, hour.1, min.1, sec.1, wh, sep, fraction, z, ⟨y0, y6⟩,
      ⟨by omega, by omega, by omega, by omega⟩, ⟨h0, by omega⟩, hwh, ⟨n0, by omega⟩,
      ⟨s0, by omega⟩, hsep, hf, hz, ?_⟩
    apply String.ext
    have y8 : appendInt year 4 = [y1, y2, y3, y4] := y7
    generalize hF : (parseCommaOrPeriodFraction sec.2).2 = F at efrac tz
    rw [hrest2, List.append_nil] at tz
    rw [hdata, skip_sound _ _ _ e1, tm, skip_sound _ _ _ e2, td, skip_sound _ _ _ e3, th,
      skip_sound _ _ _ e4, tn, skip_sound _ _ _ e5, ts, efrac, tz]
    simp only [widerTimestampText, y8, List.cons_append, List.nil_append, List.append_assoc]
  · simp at h

/-- The general parser accepts every timestamp of the wider forms. -/
theorem parse_widerTimestampText (year month day hour min sec : Int) (hourWidth : Nat)
    (sep : Char) (fraction : List Char) (zone : Option (Char × Int × Int))
    (hy : 0 ≤ year ∧ year ≤ 9999) (hd : validDate year month day)
    (hh : 0 ≤ hour ∧ hour ≤ 23) (hw : hourWidth = 1 ∨ hourWidth = 2)
    (hm : 0 ≤ min ∧ min ≤ 59) (hs : 0 ≤ sec ∧ sec ≤ 59) (hsep : sep = '.' ∨ sep = ',')
    (hf : ∀ c ∈ fraction, isDigit c = true)
    (hz : ∀ sign hh mm, zone = some (sign, hh, mm) →
      (sign = '+' ∨ sign = '-') ∧ (0 ≤ hh ∧ hh ≤ 24) ∧ (0 ≤ mm ∧ mm ≤ 60)) :
    ∃ nsec : Int, 0 ≤ nsec ∧ nsec < 1000000000 ∧
      parse (widerTimestampText year month day hour hourWidth min sec sep fraction zone)
        = some { unixNano := (DateUTC year month day hour min sec nsec).unixNano
                   - zoneSeconds zone * 1000000000,
                 offset := zoneSeconds zone } := by
  obtain ⟨hd1, hd2, hd3, hd4⟩ := hd
  have hdi := daysIn_pos month year
  have hdays : daysIn month year ≤ 99 := by
    unfold daysIn
    split_ifs <;> omega
  obtain ⟨y1, y2, y3, y4, ey⟩ := four_chars _
    (appendInt_length year 4 (by omega) hy.1 (by norm_num; omega))
  have py := parseUint_appendInt year 4 0 9999 hy.1 hy.1 hy.2
  rw [ey] at py
  obtain ⟨nsec, b1, b2, efrac⟩ := commaFraction_text sep fraction (zoneText zone) hsep hf
    (zoneText_head_wider zone hz)
  have ezone := parseColonZone_zoneText zone hz
  refine ⟨nsec, b1, b2, ?_⟩
  have n1 : ¬ (month ≤ 0 ∨ 12 < month) := by omega
  have n2 : ¬ (hour < 0 ∨ 24 ≤ hour) := by omega
  have n3 : ¬ (min < 0 ∨ 60 ≤ min) := by omega
  have n4 : ¬ (sec < 0 ∨ 60 ≤ sec) := by omega
  have n5 : ¬ (day < 1 ∨ day > daysIn month year) := by omega
  simp only [widerTimestampText, ey, List.cons_append, List.nil_append, List.append_assoc,
    parse, py, Option.some_bind, skip, if_true,
    getnum_two month _ true (by omega) (by omega), n1, if_false,
    getnum_two day _ true (by omega) (by omega),
    getnum_hour hour hourWidth _ hh.1 hh.2 hw, n2,
    getnum_two min _ true hm.1 (by omega), n3,
    getnum_two sec _ true hs.1 (by omega), n4, efrac, ezone, n5, ne_eq, not_true_eq_false]

theorem accepted_iff_parse (s : String) : AcceptedByParse s ↔ Parse s ≠ none := by
  constructor
  · rintro ⟨year, month, day, hour, min, sec, w, sep, fraction, zone, hy, hd, hh, hw, hm, hs,
      hsep, hf, hz, rfl⟩
    obtain ⟨nsec, _, _, hp⟩ := parse_widerTimestampText year month day hour min sec w sep
      fraction zone hy hd hh hw hm hs hsep hf hz
    unfold Parse
    cases parseRFC3339 (widerTimestampText year month day hour w min sec sep fraction zone) with
    | some t => simp
    | none => simp only [hp]; simp
  · intro h
    unfold Parse at h
    cases hp : parseRFC3339 s with
    | some t =>
      obtain ⟨year, month, day, hour, min, sec, fraction, zone, hy, hd, hh, hm, hs, hf, hz, e⟩ :=
        wellFormed_of_parse s t hp
      refine ⟨year, month, day, hour, min, sec, 2, '.', fraction, zone, hy, hd, hh, Or.inr rfl,
        hm, hs, Or.inl rfl, hf, ?_, e⟩
      intro sign h2 m2 ez
      obtain ⟨z1, z2, z3⟩ := hz sign h2 m2 ez
      exact ⟨z1, ⟨z2.1, by omega⟩, ⟨z3.1, by omega⟩⟩
    | none =>
      rw [hp] at h
      simp only at h
      cases hg : parse s with
      | none => exact absurd hg h
      | some t => exact accepted_of_parse s t hg

/-- Counterexample to C9 as stated: `2026-02-13T1:30:00Z`, with its hour written
with one digit, is not a well-formed RFC 3339 timestamp, and `UTCToBJT` converts it. -/
theorem utcToBJT_converts_short_hour :
    ¬ WellFormedRFC3339 "2026-02-13T1:30:00Z" ∧
    UTCToBJT "2026-02-13T1:30:00Z" = "2026-02-13 09:30:00" ∧
    UTCToBJT "2026-02-13T1:30:00Z" ≠ "2026-02-13T1:30:00Z" ∧
    UTCToBJT "2026-02-13T10:30:00,5Z" = "2026-02-13 18:30:00" ∧
    UTCToBJT "2026-02-13T10:30:00+24:00" = "2026-02-13 18:30:00" :=
  ⟨fun h => (wellFormed_iff _).1 h (by decide), by decide, by decide, by decide, by decide⟩

/-- C9 (amended): every string that is not a timestamp in one of the forms
`time.Parse` accepts (the well-formed RFC 3339 timestamps, and those with a one-digit
hour, a comma before the fraction, or a zone offset of hour 24 or minute 60) is
returned unchanged, by `UTCToBJT` and by `utcToBJT` of `daily.go`; both are total
functions and have no error result. -/
theorem utcToBJT_passthrough (utcTimeStr : String) (h : ¬ AcceptedByParse utcTimeStr) :
    UTCToBJT utcTimeStr = utcTimeStr ∧ utcToBJT utcTimeStr = utcTimeStr := by
  have hp : Parse utcTimeStr = none := by
    by_contra hcon
    exact h ((accepted_iff_parse utcTimeStr).2 hcon)
  simp only [UTCToBJT, utcToBJT, hp, and_self]

/-- Witness of C9: the two malformed inputs of the repository's test. -/
theorem utcToBJT_passthrough_witness :
    ¬ AcceptedByParse "invalid-time" ∧ UTCToBJT "invalid-time" = "invalid-time" ∧
    ¬ AcceptedByParse "" ∧ UTCToBJT "" = "" :=
  ⟨fun h => (accepted_iff_parse _).1 h (by decide),
   (utcToBJT_passthrough "invalid-time" (fun h => (accepted_iff_parse _).1 h (by decide))).1,
   fun h => (accepted_iff_parse _).1 h (by decide),
   (utcToBJT_passthrough "" (fun h => (accepted_iff_parse _).1 h (by decide))).1⟩

/-- C6: in the aggregation loop of `runner.Summary`, a repository whose fetch succeeds
appends, in fetch order, one entry per fetched commit whose author date `time.Parse`
accepts for the layout RFC 3339, bot or not; the entry carries the author name, the
login (empty when absent), the full message, the repository, and the parsed date plus
8 hours; a commit whose date does not parse adds nothing and the loop goes on. The
same holds in `main` of `cmd/summary` for every repository it fetches. The dates
that parse are the well-formed timestamps and the wider forms of `AcceptedByParse`:
a commit dated `2026-02-13T2:00:00Z` gives an entry of 10:00. -/
theorem runner_summary_entries (caseTable : Char → Char) (gh : GitHub) :
    (∀ (st : List CommitEntry × StringMap) (repo : String) (cs : List Commit),
      gh.ListCommitsSince repo = some cs →
      (runner.repoStep caseTable gh st repo).1
        = st.1 ++ cs.filterMap (fun c => (Parse c.Date).map (fun t =>
            ({ AuthorName := c.Name, AuthorLogin := c.Login.getD "",
               Date := ⟨t.unixNano + 8 * 3600 * 1000000000, t.offset⟩,
               Message := c.Message, RepoName := repo } : CommitEntry)))) ∧
    (∀ repos : List String,
      (runner.Summary caseTable gh repos).1
        = repos.flatMap (fun repo =>
          match gh.ListCommitsSince repo with
          | none => []
          | some cs => cs.filterMap (fun c => (Parse c.Date).map (fun t =>
              ({ AuthorName := c.Name, AuthorLogin := c.Login.getD "",
                 Date := ⟨t.unixNano + 8 * 3600 * 1000000000, t.offset⟩,
                 Message := c.Message, RepoName := repo } : CommitEntry))))) ∧
    (∀ (st : List CommitEntry × StringMap) (repo : String) (cs : List Commit),
      repo ≠ "hoa-moe" → repo ≠ ".github" → gh.ListCommitsSince repo = some cs →
      (cmdSummary.repoStep caseTable gh st repo).1
        = st.1 ++ cs.filterMap (fun c => (Parse c.Date).map (fun t =>
            ({ AuthorName := c.Name, AuthorLogin := c.Login.getD "",
               Date := ⟨t.unixNano + 8 * 3600 * 1000000000, t.offset⟩,
               Message := c.Message, RepoName := repo } : CommitEntry)))) ∧
    (∀ s : String, Parse s ≠ none ↔ AcceptedByParse s) ∧
    (runner.Summary id
        ⟨fun _ => some [⟨"张三", "2026-02-13T2:00:00Z", "更新", none⟩,
                        ⟨"李四", "2026-02-13 02:00:00", "更新", none⟩],
         fun _ => none⟩ ["course-a"]).1
      = [⟨"张三", "", DateUTC 2026 2 13 10 0 0 0, "更新", "course-a"⟩] := by
  have hmk : ∀ (repo : String) (c : Commit), mkEntry repo c = fun t =>
      ({ AuthorName := c.Name, AuthorLogin := c.Login.getD "",
         Date := ⟨t.unixNano + 8 * 3600 * 1000000000, t.offset⟩,
         Message := c.Message, RepoName := repo } : CommitEntry) := by
    intro repo c
    funext t
    simp [mkEntry, Time.Add, Hour]
  refine ⟨?_, ?_, ?_, fun s => (accepted_iff_parse s).symm, by decide⟩
  · intro st repo cs h
    rw [runner_repoStep_commits, h]
    simp only [hmk]
  · intro repos
    unfold runner.Summary
    rw [runner_summary_commits_from]
    simp only [hmk, List.nil_append]
    try rfl
  · intro st repo cs h1 h2 h
    rw [cmdSummary_repoStep_commits caseTable gh st repo cs h1 h2 h]
    simp only [hmk]

/-- A list without two entries of the same instant has one newest-first order. -/
theorem sortSlice_eq_of_perm (l1 l2 : List CommitEntry) (hp : l1.Perm l2)
    (hd : l1.Pairwise (fun a b => a.Date.unixNano ≠ b.Date.unixNano)) :
    sortSlice newerFirst l1 = sortSlice newerFirst l2 := by
  have strict : ∀ l s : List CommitEntry, s.Perm l →
      l.Pairwise (fun a b => a.Date.unixNano ≠ b.Date.unixNano) →
      s.Pairwise (fun a b => newerFirst b a = false) →
      s.Pairwise (fun a b => b.Date.unixNano < a.Date.unixNano) := by
    intro l s hsl hl hs
    have hne : s.Pairwise (fun a b => a.Date.unixNano ≠ b.Date.unixNano) :=
      hsl.symm.pairwise hl (fun h => Ne.symm h)
    refine (hs.and hne).imp ?_
    intro a b ⟨h1, h2⟩
    simp only [newerFirst, Time.After, decide_eq_false_iff_not] at h1
    omega
  have hd2 : l2.Pairwise (fun a b => a.Date.unixNano ≠ b.Date.unixNano) :=
    hp.pairwise hd (fun h => Ne.symm h)
  have s1 := strict l1 _ (sortSlice_perm newerFirst l1) hd
    (sortSlice_sorted newerFirst newerFirst_asymm newerFirst_negTrans l1)
  have s2 := strict l2 _ (sortSlice_perm newerFirst l2) hd2
    (sortSlice_sorted newerFirst newerFirst_asymm newerFirst_negTrans l2)
  have hperm : (sortSlice newerFirst l1).Perm (sortSlice newerFirst l2) :=
    ((sortSlice_perm newerFirst l1).trans hp).trans (sortSlice_perm newerFirst l2).symm
  haveI : IsAntisymm CommitEntry (fun a b => b.Date.unixNano < a.Date.unixNano) :=
    ⟨fun a b h1 h2 => absurd h1 (by omega)⟩
  exact List.eq_of_perm_of_sorted hperm s1 s2

/-- C11: two commit lists that are permutations of each other, with no two entries
of the same instant, are rendered by `BuildMarkdown` to the same string. -/
theorem buildMarkdown_perm (commits1 commits2 : List CommitEntry) (repoTitles : StringMap)
    (orgName : String) (hp : commits1.Perm commits2)
    (hd : commits1.Pairwise (fun a b => a.Date.unixNano ≠ b.Date.unixNano)) :
    BuildMarkdown commits1 repoTitles orgName = BuildMarkdown commits2 repoTitles orgName := by
  have hlen : commits1.length = commits2.length := hp.length_eq
  simp only [BuildMarkdown, markdownChunks, hlen, sortSlice_eq_of_perm commits1 commits2 hp hd]

/-- Witness of C11: the commits of the sorting test, and the same commits reversed. -/
theorem buildMarkdown_perm_witness :
    sortingTestCommits.Perm sortingTestCommits.reverse ∧
    sortingTestCommits.Pairwise (fun a b => a.Date.unixNano ≠ b.Date.unixNano) ∧
    BuildMarkdown sortingTestCommits [] "test-org"
      = BuildMarkdown sortingTestCommits.reverse [] "test-org" :=
  ⟨(List.reverse_perm _).symm, by decide,
    buildMarkdown_perm sortingTestCommits sortingTestCommits.reverse [] "test-org"
      (List.reverse_perm _).symm (by decide)⟩

theorem mem_bulletsOf (c : CommitEntry) (chunks : List Chunk) :
    c ∈ bulletsOf chunks ↔ Chunk.bullet c ∈ chunks := by
  induction chunks with
  | nil => simp [bulletsOf]
  | cons x rest ih =>
    cases x with
    | title => simp [bulletsOf, ih]
    | day d => simp [bulletsOf, ih]
    | bullet e => simp [bulletsOf, ih]

theorem firstLineChars_spec (l : List Char) :
    (∀ c ∈ firstLineChars l, c ≠ '\n') ∧
    (l = firstLineChars l ∨ ∃ rest, l = firstLineChars l ++ '\n' :: rest) := by
  induction l with
  | nil => simp [firstLineChars]
  | cons c cs ih =>
    simp only [firstLineChars]
    by_cases h : c = '\n'
    · subst h
      simp
    · simp only [h, if_false]
      obtain ⟨i1, i2⟩ := ih
      refine ⟨?_, ?_⟩
      · intro d hd
        rcases List.mem_cons.1 hd with e | e
        · subst e; exact h
        · exact i1 d e
      · rcases i2 with e | ⟨rest, e⟩
        · left; rw [← e]
        · right; exact ⟨rest, by rw [List.cons_append, ← e]⟩

/-- The model of `strings.Split(s, "\n")[0]` is the first piece of `Split`. -/
theorem head_splitChars_newline (l : List Char) :
    (splitChars '\n' l).head? = some (firstLineChars l) := by
  induction l with
  | nil => rfl
  | cons c cs ih =>
    simp only [splitChars, firstLineChars]
    by_cases h : c = '\n'
    · simp [h]
    · simp only [h, if_false]
      cases hs : splitChars '\n' cs with
      | nil => rw [hs] at ih; simp at ih
      | cons p ps =>
        rw [hs] at ih
        simp only [List.head?_cons, Option.some.injEq] at ih
        simp [ih]

/-- The bullet of an entry is among the writes, and its text. -/
theorem chunk_bullet_text (commits : List CommitEntry) (repoTitles : StringMap) (orgName : String)
    (e : CommitEntry) (he : e ∈ commits) :
    Chunk.bullet e ∈ markdownChunks commits ∧
    ∃ title first : String,
      title = (match repoTitles.lookup e.RepoName with
        | some t => if t = "" then e.RepoName else t
        | none => e.RepoName) ∧
      (Split e.Message '\n').head? = some first ∧
      (∀ c ∈ first.data, c ≠ '\n') ∧
      (e.Message = first ∨ ∃ rest : String, e.Message = first ++ "\n" ++ rest) ∧
      Chunk.text repoTitles orgName (Chunk.bullet e)
        = "- " ++ e.AuthorName ++ " 在 [" ++ title ++ "](https://github.com/" ++ orgName
          ++ "/" ++ e.RepoName ++ ") 中提交了信息：" ++ first ++ "\n\n" := by
  constructor
  · rw [← mem_bulletsOf, bulletsOf_markdownChunks]
    exact (sortSlice_perm newerFirst commits).mem_iff.2 he
  · obtain ⟨f1, f2⟩ := firstLineChars_spec e.Message.data
    refine ⟨_, firstLine e.Message, rfl, ?_, f1, ?_, ?_⟩
    · simp only [Split, List.head?_map, head_splitChars_newline]
      rfl
    · rcases f2 with h | ⟨rest, h⟩
      · left
        apply String.ext
        simpa [firstLine] using h
      · right
        refine ⟨String.mk rest, ?_⟩
        apply String.ext
        simpa [firstLine, String.data_append] using h
    · simp only [Chunk.text, bulletText, StringMap.get]
      cases hl : repoTitles.lookup e.RepoName with
      | none => simp
      | some t =>
        by_cases ht : t = ""
        · simp [ht]
        · simp [ht]

/-! ## The daily report: the kept content and the sections -/

theorem isPrefixOf_append_tail (pat s : List Char) (h : pat.isPrefixOf s = true) :
    ∃ tail, s = pat ++ tail := by
  obtain ⟨t, ht⟩ := (List.isPrefixOf_iff_prefix).1 h
  exact ⟨t, ht.symm⟩

/-- The position `strings.Index` finds is that of an occurrence, and the first. -/
theorem strIndex_some_spec (pat s : List Char) (i : Nat) (h : strIndex pat s = some i) :
    (∃ tail, s = s.take i ++ pat ++ tail) ∧
    ∀ p q : List Char, s = p ++ pat ++ q → i ≤ p.length := by
  induction s generalizing i with
  | nil =>
    simp only [strIndex] at h
    by_cases hp : pat.isPrefixOf [] = true
    · simp only [hp, if_true, Option.some.injEq] at h
      subst h
      obtain ⟨t, ht⟩ := isPrefixOf_append_tail _ _ hp
      exact ⟨⟨t, by simpa using ht⟩, fun _ _ _ => Nat.zero_le _⟩
    · simp [hp] at h
  | cons c cs ih =>
    by_cases hp : pat.isPrefixOf (c :: cs) = true
    · have := strIndex_of_isPrefixOf pat (c :: cs) hp
      rw [this] at h
      simp only [Option.some.injEq] at h
      subst h
      obtain ⟨t, ht⟩ := isPrefixOf_append_tail _ _ hp
      exact ⟨⟨t, by simpa using ht⟩, fun _ _ _ => Nat.zero_le _⟩
    · have hp2 : pat.isPrefixOf (c :: cs) = false := Bool.eq_false_iff.2 hp
      rw [strIndex_cons_of_not _ _ _ hp2] at h
      cases hj : strIndex pat cs with
      | none => rw [hj] at h; simp at h
      | some j =>
        rw [hj] at h
        simp only [Option.map_some', Option.some.injEq] at h
        subst h
        obtain ⟨⟨t, ht⟩, hmin⟩ := ih j hj
        refine ⟨⟨t, ?_⟩, ?_⟩
        · simp only [List.take_succ_cons, List.cons_append]
          rw [← ht]
        · intro p q hpq
          cases p with
          | nil =>
            exfalso
            apply hp
            rw [List.isPrefixOf_iff_prefix]
            exact ⟨q, by simpa using hpq.symm⟩
          | cons d p2 =>
            simp only [List.cons_append, List.cons.injEq] at hpq
            have := hmin p2 q hpq.2
            simp only [List.length_cons]
            omega

/-- Where `strings.Index` finds nothing, the pattern does not occur. -/
theorem strIndex_none_spec (pat s : List Char) (h : strIndex pat s = none) :
    ∀ p q : List Char, s ≠ p ++ pat ++ q := by
  induction s with
  | nil =>
    intro p q hpq
    simp only [strIndex] at h
    have hp : pat.isPrefixOf [] = true := by
      rw [List.isPrefixOf_iff_prefix]
      have h1 := List.append_eq_nil.1 hpq.symm
      have h2 := List.append_eq_nil.1 h1.1
      rw [h2.2]
    simp [hp] at h
  | cons c cs ih =>
    intro p q hpq
    by_cases hp : pat.isPrefixOf (c :: cs) = true
    · rw [strIndex_of_isPrefixOf pat (c :: cs) hp] at h
      simp at h
    · have hp2 : pat.isPrefixOf (c :: cs) = false := Bool.eq_false_iff.2 hp
      rw [strIndex_cons_of_not _ _ _ hp2] at h
      have hj : strIndex pat cs = none := by
        cases hj : strIndex pat cs with
        | none => rfl
        | some j => rw [hj] at h; simp at h
      cases p with
      | nil =>
        apply hp
        rw [List.isPrefixOf_iff_prefix]
        exact ⟨q, by simpa using hpq.symm⟩
      | cons d p2 =>
        simp only [List.cons_append, List.cons.injEq] at hpq
        exact ih hj p2 q hpq.2

/-- The content kept is all of the content when the sentinel heading does not occur
in it, and otherwise what stands before its first occurrence. -/
theorem truncateAtSentinel_first (content : String) :
    (truncateAtSentinel content = content ∧
      ∀ p q : String, content ≠ p ++ "## 待解决的 Issues" ++ q) ∨
    (∃ tail : String, content = truncateAtSentinel content ++ "## 待解决的 Issues" ++ tail ∧
      ∀ p q : String, content = p ++ "## 待解决的 Issues" ++ q →
        (truncateAtSentinel content).length ≤ p.length) := by
  cases hi : strIndex sentinelHeading.data content.data with
  | none =>
    left
    have hk : truncateAtSentinel content = content := by
      simp only [truncateAtSentinel, Index, hi]
    refine ⟨hk, ?_⟩
    intro p q hpq
    apply strIndex_none_spec _ _ hi p.data q.data
    have := congrArg String.data hpq
    simpa [String.data_append, sentinelHeading] using this
  | some i =>
    right
    obtain ⟨⟨t, ht⟩, hmin⟩ := strIndex_some_spec _ _ i hi
    have hk : (truncateAtSentinel content).data = content.data.take i := by
      simp only [truncateAtSentinel, Index, hi]
    have hlen : i ≤ content.data.length := by
      have := hmin (content.data.take i) t ht
      rw [List.length_take] at this
      exact le_trans this (Nat.min_le_right _ _)
    refine ⟨String.mk t, ?_, ?_⟩
    · apply String.ext
      simp only [String.data_append, hk]
      simpa [sentinelHeading] using ht
    · intro p q hpq
      have h1 := hmin p.data q.data (by
        have := congrArg String.data hpq
        simpa [String.data_append, sentinelHeading] using this)
      have h2 : (truncateAtSentinel content).length = i := by
        simp only [String.length, hk, List.length_take]
        exact Nat.min_eq_left hlen
      rw [h2]
      exact h1

theorem cutAtFirst_idem (pat s : List Char) :
    cutAtFirst pat (cutAtFirst pat s) = cutAtFirst pat s := by
  induction s with
  | nil => rw [cutAtFirst_nil, cutAtFirst_nil]
  | cons x cs ih =>
    rw [cutAtFirst_cons]
    by_cases hp : pat.isPrefixOf (x :: cs) = true
    · rw [if_pos hp, cutAtFirst_nil]
    · rw [if_neg hp, cutAtFirst_cons]
      have hn : ¬ (pat.isPrefixOf (x :: cutAtFirst pat cs) = true) := by
        intro h
        apply hp
        rw [List.isPrefixOf_iff_prefix] at h ⊢
        exact h.trans ((List.prefix_cons_inj x).2 (cutAtFirst_isPrefix pat cs))
      rw [if_neg hn, ih]

/-- C13: the content `UpdateDailyReport` writes is the existing content cut before
the first occurrence of the sentinel heading (all of it when the heading does not
occur), followed at once by the heading, an empty line and the two sections rendered
from the item lists alone: what the file held from the heading onward is discarded,
the written content is the same whatever followed the heading, and the same as for a
file that holds the kept part only. -/
theorem updateDailyReport_keeps_head (content : String) (issues prs : List Item) :
    ∃ kept : String,
      UpdateDailyReport content issues prs
        = kept ++ "## 待解决的 Issues\n\n" ++ renderItems issues "暂无待解决的 Issues\n\n"
          ++ "## 待合并的 Pull Requests\n\n"
          ++ renderItems prs "暂无待合并的 Pull Requests\n\n" ∧
      ((kept = content ∧ ∀ p q : String, content ≠ p ++ "## 待解决的 Issues" ++ q) ∨
       (∃ tail : String, content = kept ++ "## 待解决的 Issues" ++ tail ∧
          ∀ p q : String, content = p ++ "## 待解决的 Issues" ++ q → kept.length ≤ p.length)) ∧
      (∀ other : String,
        UpdateDailyReport (kept ++ "## 待解决的 Issues" ++ other) issues prs
          = UpdateDailyReport content issues prs) ∧
      UpdateDailyReport kept issues prs = UpdateDailyReport content issues prs := by
  refine ⟨truncateAtSentinel content, ?_, truncateAtSentinel_first content, ?_, ?_⟩
  · apply String.ext
    simp only [UpdateDailyReport, dailySections, sentinelHeading, String.data_append,
      List.append_assoc]
    rfl
  · intro other
    have hk : truncateAtSentinel (truncateAtSentinel content ++ "## 待解决的 Issues" ++ other)
        = truncateAtSentinel content := by
      apply String.ext
      rw [truncateAtSentinel_data, truncateAtSentinel_data]
      rw [String.data_append, String.data_append, truncateAtSentinel_data, List.append_assoc]
      exact cutAtFirst_after_cut sentinelHeading.data content.data other.data
        sentinel_no_border
    simp only [UpdateDailyReport, hk]
  · have hk : truncateAtSentinel (truncateAtSentinel content) = truncateAtSentinel content := by
      apply String.ext
      rw [truncateAtSentinel_data, truncateAtSentinel_data]
      exact cutAtFirst_idem _ _
    simp only [UpdateDailyReport, hk]

theorem renderItem_subheading (item : Item) :
    ∃ details : String,
      renderItem item = "### [" ++ item.Title ++ "](" ++ item.URL ++ ")\n\n" ++ details := by
  refine ⟨"- **仓库**: " ++ item.RepositoryName ++ "\n"
    ++ "- **创建于**: " ++ utcToBJT item.CreatedAt ++ "\n"
    ++ "- **作者**: " ++ item.AuthorLogin ++ "\n"
    ++ (if item.Labels.length > 0 then "- **标签**: " ++ Join item.Labels ", " ++ "\n" else "")
    ++ "\n", ?_⟩
  simp only [renderItem, String.append_assoc]

theorem renderItems_blocks (items : List Item) :
    List.Forall₂
      (fun item block => ∃ details : String,
        block = "### [" ++ item.Title ++ "](" ++ item.URL ++ ")\n\n" ++ details)
      items (items.map renderItem) := by
  induction items with
  | nil => exact List.Forall₂.nil
  | cons item rest ih => exact List.Forall₂.cons (renderItem_subheading item) ih

theorem renderItems_nonempty_head (item : Item) (rest : List Item) (noneFound tail : String) :
    ∃ more : List Char,
      (renderItems (item :: rest) noneFound ++ tail).data = '#' :: more := by
  obtain ⟨details, hd⟩ := renderItem_subheading item
  have h5 : ("### [" : String).data = ['#', '#', '#', ' ', '['] := by decide
  simp only [renderItems, List.length_cons, Nat.succ_ne_zero, if_false, List.map_cons,
    join_cons, hd, String.data_append, h5, List.cons_append, List.append_assoc]
  exact ⟨_, rfl⟩

/-- What stands right after a section heading is the line `noneFound` exactly when
the list is empty (the line does not start with `#`). -/
theorem renderItems_none_iff (items : List Item) (noneFound tail : String) (first : Char)
    (hn : noneFound.data.head? = some first) (hf : first ≠ '#') :
    (∃ rest : String, renderItems items noneFound ++ tail = noneFound ++ rest) ↔ items = [] := by
  constructor
  · rintro ⟨rest, h⟩
    cases items with
    | nil => rfl
    | cons item others =>
      exfalso
      obtain ⟨m, hm⟩ := renderItems_nonempty_head item others noneFound tail
      have := congrArg (fun t : String => t.data.head?) h
      simp only [hm, String.data_append, List.head?_cons] at this
      cases hnd : noneFound.data with
      | nil => rw [hnd] at hn; simp at hn
      | cons c cs =>
        rw [hnd] at hn this
        simp only [List.head?_cons, Option.some.injEq, List.cons_append] at hn this
        exact hf (by rw [← hn, ← this])
  · intro h
    subst h
    exact ⟨tail, rfl⟩

/-- C20: in the content `UpdateDailyReport` writes, the issues section starts with
the line "暂无待解决的 Issues" right after its heading exactly when the issue list is
empty, and otherwise consists of one block per issue, in input order, each starting
with the sub-heading `### [title](url)`; the same holds for the pull-request section
and its line "暂无待合并的 Pull Requests". -/
theorem updateDailyReport_sections (content : String) (issues prs : List Item) :
    ∃ issuesSection prsSection : String,
      UpdateDailyReport content issues prs
        = truncateAtSentinel content ++ "## 待解决的 Issues\n\n" ++ issuesSection
          ++ "## 待合并的 Pull Requests\n\n" ++ prsSection ∧
      ((∃ rest : String, issuesSection ++ ("## 待合并的 Pull Requests\n\n" ++ prsSection)
          = "暂无待解决的 Issues\n\n" ++ rest) ↔ issues = []) ∧
      (issues = [] → issuesSection = "暂无待解决的 Issues\n\n") ∧
      (issues ≠ [] → ∃ blocks : List String, issuesSection = String.join blocks ∧
        List.Forall₂ (fun item block => ∃ details : String,
          block = "### [" ++ item.Title ++ "](" ++ item.URL ++ ")\n\n" ++ details)
          issues blocks) ∧
      ((∃ rest : String, prsSection = "暂无待合并的 Pull Requests\n\n" ++ rest) ↔ prs = []) ∧
      (prs = [] → prsSection = "暂无待合并的 Pull Requests\n\n") ∧
      (prs ≠ [] → ∃ blocks : List String, prsSection = String.join blocks ∧
        List.Forall₂ (fun item block => ∃ details : String,
          block = "### [" ++ item.Title ++ "](" ++ item.URL ++ ")\n\n" ++ details)
          prs blocks) := by
  have hblocks : ∀ (items : List Item) (noneFound : String), items ≠ [] →
      ∃ blocks : List String, renderItems items noneFound = String.join blocks ∧
        List.Forall₂ (fun item block => ∃ details : String,
          block = "### [" ++ item.Title ++ "](" ++ item.URL ++ ")\n\n" ++ details)
          items blocks := by
    intro items noneFound hne
    have hlen : items.length ≠ 0 := fun h => hne (List.length_eq_zero.1 h)
    exact ⟨items.map renderItem, by simp only [renderItems, hlen, if_false],
      renderItems_blocks items⟩
  have hnone : ∀ noneFound : String, renderItems [] noneFound = noneFound := by
    intro noneFound; rfl
  refine ⟨renderItems issues "暂无待解决的 Issues\n\n",
    renderItems prs "暂无待合并的 Pull Requests\n\n", ?_, ?_, ?_, hblocks _ _, ?_, ?_,
    hblocks _ _⟩
  · apply String.ext
    simp only [UpdateDailyReport, dailySections, sentinelHeading, String.data_append,
      List.append_assoc]
    rfl
  · exact renderItems_none_iff issues _ _ '暂' (by decide) (by decide)
  · intro h; subst h; rfl
  · have := renderItems_none_iff prs "暂无待合并的 Pull Requests\n\n" "" '暂' (by decide)
      (by decide)
    simpa using this
  · intro h; subst h; rfl

/-! ## Failed fetches, the allow-list, the weekly document, front matter and weekday labels -/

theorem foldl_skip {σ : Type} (step : σ → String → σ) (r : String)
    (hskip : ∀ st, step st r = st) (repos : List String) (st : σ) :
    repos.foldl step st = (repos.filter (fun x => decide (x ≠ r))).foldl step st := by
  induction repos generalizing st with
  | nil => rfl
  | cons x rest ih =>
    rw [List.foldl_cons, List.filter_cons]
    by_cases hx : x = r
    · have hd : decide (x ≠ r) = false := by simp [hx]
      rw [hd, hx, hskip]
      simp only [Bool.false_eq_true, if_false]
      exact ih st
    · have hd : decide (x ≠ r) = true := by simp [hx]
      rw [hd]
      simp only [if_true, List.foldl_cons]
      exact ih _

theorem runner_repoStep_failed (caseTable : Char → Char) (gh : GitHub) (r : String)
    (hf : gh.ListCommitsSince r = none) (st : List CommitEntry × StringMap) :
    runner.repoStep caseTable gh st r = st := by
  simp only [runner.repoStep, hf]

theorem report_repoStep_failed (caseTable : Char → Char) (gh : GitHub) (r : String)
    (hf : gh.ListCommitsSince r = none) (st : List CommitEntry × StringMap) :
    report.repoStep caseTable gh st r = st := by
  simp only [report.repoStep, hf]

theorem report_commitLoop_repo (caseTable : Char → Char) (repo : String) (cs : List Commit)
    (commits : List CommitEntry) (flag : Bool) (e : CommitEntry)
    (he : e ∈ (report.commitLoop caseTable repo cs (commits, flag)).1) :
    e ∈ commits ∨ e.RepoName = repo := by
  induction cs generalizing commits flag with
  | nil => exact Or.inl he
  | cons c rest ih =>
    simp only [report.commitLoop] at he
    by_cases hb : IsBot caseTable c.Name (c.Login.getD "") = true
    · simp only [hb, if_true] at he
      exact ih _ _ he
    · simp only [hb] at he
      cases hp : Parse c.Date with
      | none =>
        rw [hp] at he
        exact ih _ _ he
      | some t =>
        rw [hp] at he
        rcases ih _ _ he with h | h
        · rcases List.mem_append.1 h with h2 | h2
          · exact Or.inl h2
          · right
            simp only [List.mem_singleton] at h2
            rw [h2]; rfl
        · exact Or.inr h

theorem report_repoStep_repo (caseTable : Char → Char) (gh : GitHub)
    (st : List CommitEntry × StringMap) (repo : String) (e : CommitEntry)
    (he : e ∈ (report.repoStep caseTable gh st repo).1) :
    e ∈ st.1 ∨ (e.RepoName = repo ∧ gh.ListCommitsSince repo ≠ none) := by
  unfold report.repoStep at he
  cases hf : gh.ListCommitsSince repo with
  | none => rw [hf] at he; exact Or.inl he
  | some cs =>
    rw [hf] at he
    simp only at he
    have key : e ∈ (report.commitLoop caseTable repo cs (st.1, false)).1 := by
      split_ifs at he
      · split at he
        · split_ifs at he <;> exact he
        · exact he
      · exact he
    rcases report_commitLoop_repo caseTable repo cs st.1 false e key with h | h
    · exact Or.inl h
    · exact Or.inr ⟨h, by simp⟩

theorem foldl_entries (step : List CommitEntry × StringMap → String → List CommitEntry × StringMap)
    (P : CommitEntry → Prop)
    (hstep : ∀ st repo e, e ∈ (step st repo).1 → e ∈ st.1 ∨ P e)
    (repos : List String) (st : List CommitEntry × StringMap) (e : CommitEntry)
    (h : e ∈ (repos.foldl step st).1) : e ∈ st.1 ∨ P e := by
  induction repos generalizing st with
  | nil => exact Or.inl h
  | cons r rest ih =>
    simp only [List.foldl_cons] at h
    rcases ih _ h with h2 | h2
    · exact hstep st r e h2
    · exact Or.inr h2

/-- C14: a repository whose commit fetch fails is skipped by the aggregation loop
(`runner.Summary` and `report.collectWeeklyData`): the result is the one obtained
without that repository in the set, no entry of the commit list belongs to it and
the title map has no entry for it. The loop has a result for every outcome of the
fetches. -/
theorem failed_fetch_skipped (caseTable : Char → Char) (gh : GitHub) (repos : List String)
    (r : String) (hf : gh.ListCommitsSince r = none) :
    runner.Summary caseTable gh repos
      = runner.Summary caseTable gh (repos.filter (fun x => decide (x ≠ r))) ∧
    (∀ e ∈ (runner.Summary caseTable gh repos).1, e.RepoName ≠ r) ∧
    (runner.Summary caseTable gh repos).2.lookup r = none ∧
    report.collectWeeklyData caseTable gh repos
      = report.collectWeeklyData caseTable gh (repos.filter (fun x => decide (x ≠ r))) ∧
    (∀ e ∈ (report.collectWeeklyData caseTable gh repos).1, e.RepoName ≠ r) ∧
    (report.collectWeeklyData caseTable gh repos).2.lookup r = none := by
  refine ⟨?_, ?_, ?_, ?_, ?_, ?_⟩
  · exact foldl_skip _ r (runner_repoStep_failed caseTable gh r hf) repos _
  · intro e he
    have hc := runner_summary_commits_from caseTable gh repos ([], [])
    unfold runner.Summary at he
    rw [hc] at he
    simp only [List.nil_append, List.mem_flatMap] at he
    obtain ⟨repo, _, hin⟩ := he
    intro hr
    cases hl : gh.ListCommitsSince repo with
    | none => rw [hl] at hin; simp at hin
    | some cs =>
      rw [hl] at hin
      simp only [List.mem_filterMap] at hin
      obtain ⟨c, _, hc2⟩ := hin
      cases hp : Parse c.Date with
      | none => rw [hp] at hc2; simp at hc2
      | some t =>
        rw [hp] at hc2
        simp only [Option.map_some', Option.some.injEq] at hc2
        have : e.RepoName = repo := by rw [← hc2]; rfl
        rw [this] at hr
        rw [hr, hf] at hl
        simp at hl
  · cases hl : (runner.Summary caseTable gh repos).2.lookup r with
    | none => rfl
    | some title =>
      exfalso
      have hm := lookup_mem _ _ _ hl
      rcases foldl_titles (runner.repoStep caseTable gh)
        (fun k _ => gh.ListCommitsSince k ≠ none)
        (fun st repo k v hkv => by
          rcases runner_repoStep_titles caseTable gh st repo k v hkv with e | ⟨e1, _, cs, e3, _⟩
          · exact Or.inl e
          · exact Or.inr ⟨e1, by
              show gh.ListCommitsSince k ≠ none
              rw [e1, e3]; simp⟩)
        repos ([], []) r title hm with e | ⟨_, e2⟩
      · simp at e
      · exact e2 hf
  · exact foldl_skip _ r (report_repoStep_failed caseTable gh r hf) repos _
  · intro e he
    rcases foldl_entries (report.repoStep caseTable gh)
      (fun e => ∃ repo, e.RepoName = repo ∧ gh.ListCommitsSince repo ≠ none)
      (fun st repo e he => by
        rcases report_repoStep_repo caseTable gh st repo e he with h | h
        · exact Or.inl h
        · exact Or.inr ⟨repo, h⟩)
      repos ([], []) e he with h | ⟨repo, h1, h2⟩
    · simp at h
    · intro hr
      rw [← h1, hr] at h2
      exact h2 hf
  · cases hl : (report.collectWeeklyData caseTable gh repos).2.lookup r with
    | none => rfl
    | some title =>
      exfalso
      have hm := lookup_mem _ _ _ hl
      rcases foldl_titles (report.repoStep caseTable gh)
        (fun k _ => gh.ListCommitsSince k ≠ none)
        (fun st repo k v hkv => by
          rcases report_repoStep_titles caseTable gh st repo k v hkv with e | ⟨e1, _, cs, e3, _⟩
          · exact Or.inl e
          · exact Or.inr ⟨e1, by
              show gh.ListCommitsSince k ≠ none
              rw [e1, e3]; simp⟩)
        repos ([], []) r title hm with e | ⟨_, e2⟩
      · simp at e
      · exact e2 hf


/-- Witness of C14: the repository `bad`, whose fetch fails, next to one that is
fetched. -/
theorem failed_fetch_skipped_witness :
    failingFetchExample.ListCommitsSince "bad" = none ∧
    runner.Summary id failingFetchExample ["good", "bad"]
      = runner.Summary id failingFetchExample
          (["good", "bad"].filter (fun x => decide (x ≠ "bad"))) ∧
    (runner.Summary id failingFetchExample ["good", "bad"]).1.length = 1 :=
  ⟨rfl, (failed_fetch_skipped id failingFetchExample ["good", "bad"] "bad" rfl).1, by decide⟩

theorem foldl_filtered (p : Item → Bool) (items acc : List Item) :
    items.foldl (fun filtered item => if p item then filtered ++ [item] else filtered) acc
      = acc ++ items.filter p := by
  induction items generalizing acc with
  | nil => simp
  | cons x rest ih =>
    rw [List.foldl_cons, ih, List.filter_cons]
    by_cases hx : p x = true
    · simp [hx]
    · simp [hx]

/-- C15: `filterByPublicRepos` returns the list unchanged for an empty allow-list,
and otherwise the items whose repository is in the allow-list, each once and in the
order of the input. -/
theorem filterByPublicRepos_spec (items : List Item) (publicRepos : List String) :
    (publicRepos = [] → filterByPublicRepos items publicRepos = items) ∧
    (publicRepos ≠ [] → filterByPublicRepos items publicRepos
      = items.filter (fun item => decide (item.RepositoryName ∈ publicRepos))) ∧
    (filterByPublicRepos items publicRepos).Sublist items := by
  have hcont : (fun item : Item => publicRepos.contains item.RepositoryName)
      = (fun item => decide (item.RepositoryName ∈ publicRepos)) := by
    funext item
    simp
  refine ⟨?_, ?_, ?_⟩
  · intro h
    subst h
    simp [filterByPublicRepos]
  · intro h
    have hlen : publicRepos.length ≠ 0 := fun e => h (List.length_eq_zero.1 e)
    simp only [filterByPublicRepos, hlen, if_false]
    rw [foldl_filtered (fun item => publicRepos.contains item.RepositoryName), hcont]
    simp
  · by_cases h : publicRepos.length = 0
    · simp [filterByPublicRepos, h]
    · simp only [filterByPublicRepos, h, if_false]
      rw [foldl_filtered (fun item => publicRepos.contains item.RepositoryName)]
      simp

/-- C16: the weekly document is the front matter between `---` lines followed by the
body when the summariser fails or returns exactly `__NO_SUMMARY__`; for any other
non-empty text the text and an empty line stand between the front matter and the
body. The document `runner.Summary` builds inline is the same in these cases. -/
theorem weeklyReport_summary (frontMatter markdownReport : String) :
    assembleWeeklyReport frontMatter (generateSummarySection none) markdownReport
      = "---\n" ++ frontMatter ++ "---\n\n" ++ markdownReport ∧
    assembleWeeklyReport frontMatter (generateSummarySection (some "__NO_SUMMARY__"))
        markdownReport
      = "---\n" ++ frontMatter ++ "---\n\n" ++ markdownReport ∧
    (∀ s : String, s ≠ "" → s ≠ "__NO_SUMMARY__" →
      assembleWeeklyReport frontMatter (generateSummarySection (some s)) markdownReport
        = "---\n" ++ frontMatter ++ "---\n\n" ++ s ++ "\n\n" ++ markdownReport) ∧
    runner.weeklyReport frontMatter none markdownReport
      = "---\n" ++ frontMatter ++ "---\n\n" ++ markdownReport ∧
    runner.weeklyReport frontMatter (some "__NO_SUMMARY__") markdownReport
      = "---\n" ++ frontMatter ++ "---\n\n" ++ markdownReport ∧
    (∀ s : String, s ≠ "" → s ≠ "__NO_SUMMARY__" →
      runner.weeklyReport frontMatter (some s) markdownReport
        = "---\n" ++ frontMatter ++ "---\n\n" ++ s ++ "\n\n" ++ markdownReport) ∧
    assembleWeeklyReport "fm\n" (generateSummarySection (some "see __NO_SUMMARY__")) "md"
      = "---\nfm\n---\n\nsee __NO_SUMMARY__\n\nmd" := by
  refine ⟨?_, ?_, ?_, ?_, ?_, ?_, by decide⟩
  · simp [assembleWeeklyReport, generateSummarySection]
  · simp [assembleWeeklyReport, generateSummarySection]
  · intro s h1 h2
    simp [assembleWeeklyReport, generateSummarySection, h1, h2, String.append_assoc]
  · simp [runner.weeklyReport]
  · simp [runner.weeklyReport]
  · intro s _ h2
    simp [runner.weeklyReport, h2, String.append_assoc]

theorem occurs_in_join (pre post : List String) (key rest : String) :
    ∃ before after : String,
      String.join (pre ++ (key ++ rest) :: post) = before ++ key ++ after := by
  refine ⟨String.join pre, rest ++ String.join post, ?_⟩
  rw [join_append, join_cons]
  simp only [String.append_assoc]

/-- C17: `GenerateFrontMatter` returns no error, and the block it returns is the
mapping written key by key: `title:`, `date:` and `authors:` with their values, then
`description:` with its value exactly when the description is not empty, then
`excludeSearch:` and `draft:`, both with the value false. Each of the five keys
occurs in the text returned, and `description:` does when the description is not
empty. -/
theorem generateFrontMatter_keys (value : YamlNode → String) (title date description : String)
    (authors : List Author) :
    GenerateFrontMatter value title date description authors
      = Except.ok ("title:" ++ value (YamlNode.str title)
          ++ "date:" ++ value (YamlNode.str date)
          ++ "authors:" ++ value (YamlNode.seq (authors.map Author.node))
          ++ (if description = "" then "" else "description:" ++ value (YamlNode.str description))
          ++ "excludeSearch:" ++ value (YamlNode.bool false)
          ++ "draft:" ++ value (YamlNode.bool false)) ∧
    (∃ out : String, GenerateFrontMatter value title date description authors = Except.ok out ∧
      (∀ key ∈ ["title:", "date:", "authors:", "excludeSearch:", "draft:"],
        ∃ before after : String, out = before ++ key ++ after) ∧
      (description ≠ "" → ∃ before after : String, out = before ++ "description:" ++ after)) ∧
    (frontMatterOf title date description authors).node.keys
      = ["title", "date", "authors"] ++ (if description = "" then [] else ["description"])
        ++ ["excludeSearch", "draft"] ∧
    ("description" ∈ (frontMatterOf title date description authors).node.keys
      ↔ description ≠ "") ∧
    GenerateFrontMatter
        (fun node => match node with
          | YamlNode.str s => " " ++ s ++ "\n"
          | YamlNode.bool b => if b then " true\n" else " false\n"
          | _ => " []\n")
        "Test Report" "2026-01-01" "" []
      = Except.ok "title: Test Report\ndate: 2026-01-01\nauthors: []\nexcludeSearch: false\ndraft: false\n" := by
  have k1 : ("title" ++ ":" : String) = "title:" := by decide
  have k2 : ("date" ++ ":" : String) = "date:" := by decide
  have k3 : ("authors" ++ ":" : String) = "authors:" := by decide
  have k4 : ("description" ++ ":" : String) = "description:" := by decide
  have k5 : ("excludeSearch" ++ ":" : String) = "excludeSearch:" := by decide
  have k6 : ("draft" ++ ":" : String) = "draft:" := by decide
  have hout : GenerateFrontMatter value title date description authors
      = Except.ok (String.join
          (["title:" ++ value (YamlNode.str title), "date:" ++ value (YamlNode.str date),
            "authors:" ++ value (YamlNode.seq (authors.map Author.node))]
            ++ (if description = "" then []
                else ["description:" ++ value (YamlNode.str description)])
            ++ ["excludeSearch:" ++ value (YamlNode.bool false),
                "draft:" ++ value (YamlNode.bool false)])) := by
    simp only [GenerateFrontMatter, Marshal, emitMapping, frontMatterOf, FrontMatter.node,
      YamlNode.entries, List.map_append, List.map_cons, List.map_nil, k1, k2, k3, k5, k6]
    by_cases h : description = ""
    · simp only [h, if_true, List.map_nil]
    · simp only [h, if_false, List.map_cons, List.map_nil, k4]
  refine ⟨?_, ⟨_, hout, ?_, ?_⟩, ?_, ?_, rfl⟩
  · rw [hout]
    by_cases h : description = ""
    · simp [join_cons, String.join, h, String.append_assoc]
    · simp [join_cons, String.join, h, String.append_assoc]
  · intro key hkey
    simp only [List.mem_cons, List.mem_singleton, List.not_mem_nil, or_false] at hkey
    simp only [List.cons_append, List.nil_append]
    rcases hkey with e | e | e | e | e
    · subst e; exact occurs_in_join [] _ _ _
    · subst e; exact occurs_in_join [_] _ _ _
    · subst e; exact occurs_in_join [_, _] _ _ _
    · subst e
      by_cases h : description = ""
      · simp only [h, if_true, List.nil_append]
        exact occurs_in_join [_, _, _] _ _ _
      · simp only [h, if_false, List.cons_append, List.nil_append]
        exact occurs_in_join [_, _, _, _] _ _ _
    · subst e
      by_cases h : description = ""
      · simp only [h, if_true, List.nil_append]
        exact occurs_in_join [_, _, _, _] _ _ _
      · simp only [h, if_false, List.cons_append, List.nil_append]
        exact occurs_in_join [_, _, _, _, _] _ _ _
  · intro h
    simp only [List.cons_append, List.nil_append, h, if_false]
    exact occurs_in_join [_, _, _] _ _ _
  · by_cases h : description = ""
    · simp [frontMatterOf, FrontMatter.node, YamlNode.keys, h]
    · simp [frontMatterOf, FrontMatter.node, YamlNode.keys, h]
  · by_cases h : description = ""
    · simp [frontMatterOf, FrontMatter.node, YamlNode.keys, h]
    · simp [frontMatterOf, FrontMatter.node, YamlNode.keys, h]

/-- The seven dates of `TestChineseWeekday`, Monday 9 to Sunday 15 February 2026. -/
theorem chineseWeekday_tests :
    ChineseWeekday (DateUTC 2026 2 9 0 0 0 0) = some "周一" ∧
    ChineseWeekday (DateUTC 2026 2 10 0 0 0 0) = some "周二" ∧
    ChineseWeekday (DateUTC 2026 2 11 0 0 0 0) = some "周三" ∧
    ChineseWeekday (DateUTC 2026 2 12 0 0 0 0) = some "周四" ∧
    ChineseWeekday (DateUTC 2026 2 13 0 0 0 0) = some "周五" ∧
    ChineseWeekday (DateUTC 2026 2 14 0 0 0 0) = some "周六" ∧
    ChineseWeekday (DateUTC 2026 2 15 0 0 0 0) = some "周日" := by
  decide

/-- C18: the weekday label of an instant is the entry of the table `weekdays` at the
index `(w + 6) mod 7`, where `w` is the weekday with Sunday as 0; the index is within
the table, so the lookup does not fail; Monday gives `周一` and Sunday `周日`. -/
theorem chineseWeekday_spec (t : Time) :
    (0 ≤ t.Weekday ∧ t.Weekday ≤ 6) ∧
    (0 ≤ (t.Weekday + 6) % 7 ∧ ((t.Weekday + 6) % 7).toNat < weekdays.length) ∧
    (∃ label : String, ChineseWeekday t = some label ∧
      weekdays.get? ((t.Weekday + 6) % 7).toNat = some label) ∧
    (t.Weekday = 1 → ChineseWeekday t = some "周一") ∧
    (t.Weekday = 2 → ChineseWeekday t = some "周二") ∧
    (t.Weekday = 3 → ChineseWeekday t = some "周三") ∧
    (t.Weekday = 4 → ChineseWeekday t = some "周四") ∧
    (t.Weekday = 5 → ChineseWeekday t = some "周五") ∧
    (t.Weekday = 6 → ChineseWeekday t = some "周六") ∧
    (t.Weekday = 0 → ChineseWeekday t = some "周日") := by
  have hw : 0 ≤ t.Weekday ∧ t.Weekday ≤ 6 := by
    simp only [Time.Weekday]; omega
  have hlen : weekdays.length = 7 := by decide
  have hidx : ((t.Weekday + 6) % 7).toNat < weekdays.length := by
    rw [hlen]; omega
  refine ⟨hw, ⟨by omega, hidx⟩, ?_, ?_, ?_, ?_, ?_, ?_, ?_, ?_⟩
  · refine ⟨weekdays.get ⟨_, hidx⟩, ?_, ?_⟩
    · simp only [ChineseWeekday]
      exact List.get?_eq_get hidx
    · exact List.get?_eq_get hidx
  all_goals
    intro h
    simp only [ChineseWeekday, h]
    decide

/-! ## The next link of the pagination -/

theorem nextLinkLoop_find (parts : List String) :
    nextLinkLoop parts
      = match parts.find? hasNextRelation with
        | some part => linkTarget part
        | none => "" := by
  induction parts with
  | nil => rfl
  | cons part rest ih =>
    simp only [nextLinkLoop, List.find?_cons, hasNextRelation, linkTarget]
    cases hs : Split (TrimSpace part) ';' with
    | nil => simp only [hs]; exact ih
    | cons u more =>
      cases more with
      | nil => simp only [hs]; exact ih
      | cons r more2 =>
        simp only [hs]
        by_cases hr : TrimSpace r = "rel=\"next\""
        · simp [hr, hs]
        · simp only [hr, if_false, decide_False]
          exact ih

theorem splitChars_ne_nil (sep : Char) (l : List Char) : splitChars sep l ≠ [] := by
  cases l with
  | nil => simp [splitChars]
  | cons c cs =>
    simp only [splitChars]
    split_ifs
    · simp
    · split <;> simp

theorem splitChars_no_sep (sep : Char) (a : List Char) (h : ∀ c ∈ a, c ≠ sep) :
    splitChars sep a = [a] := by
  induction a with
  | nil => rfl
  | cons c cs ih =>
    have hc : c ≠ sep := h c (List.mem_cons_self _ _)
    simp only [splitChars, hc, if_false, ih (fun d hd => h d (List.mem_cons_of_mem _ hd))]

theorem splitChars_append_sep (sep : Char) (a b : List Char) (h : ∀ c ∈ a, c ≠ sep) :
    splitChars sep (a ++ sep :: b) = a :: splitChars sep b := by
  induction a with
  | nil => simp [splitChars]
  | cons c cs ih =>
    have hc : c ≠ sep := h c (List.mem_cons_self _ _)
    rw [List.cons_append, splitChars, if_neg hc,
      ih (fun d hd => h d (List.mem_cons_of_mem _ hd))]

theorem dropWhile_of_head (p : Char → Bool) (l : List Char)
    (h : ∀ c, l.head? = some c → p c = false) : l.dropWhile p = l := by
  cases l with
  | nil => rfl
  | cons c cs => simp [List.dropWhile_cons, h c rfl]

theorem trimSpace_eq_self (s : String)
    (h1 : ∀ c, s.data.head? = some c → isSpace c = false)
    (h2 : ∀ c, s.data.getLast? = some c → isSpace c = false) : TrimSpace s = s := by
  apply String.ext
  simp only [TrimSpace]
  rw [dropWhile_of_head isSpace s.data h1,
    dropWhile_of_head isSpace s.data.reverse (by rw [List.head?_reverse]; exact h2),
    List.reverse_reverse]


theorem trimSpace_leading_space (l : List Char) :
    TrimSpace (String.mk (' ' :: l)) = TrimSpace (String.mk l) := by
  have h : isSpace ' ' = true := by decide
  simp only [TrimSpace, List.dropWhile_cons, h, if_true]

theorem inCutset_brackets (c : Char) :
    ("<>" : String).data.contains c = decide (c = '<' ∨ c = '>') := by
  have hd : ("<>" : String).data = ['<', '>'] := by decide
  rw [hd]
  by_cases h1 : c = '<'
  · subst h1; decide
  · by_cases h2 : c = '>'
    · subst h2; decide
    · simp [h1, h2]

theorem trim_brackets (v : List Char) (h : ∀ c ∈ v, c ≠ '<' ∧ c ≠ '>') :
    Trim (String.mk ('<' :: v ++ ['>'])) "<>" = String.mk v := by
  have hin : ∀ c ∈ v, ("<>" : String).data.contains c = false := by
    intro c hc
    rw [inCutset_brackets]
    simp [(h c hc).1, (h c hc).2]
  have hl : ("<>" : String).data.contains '<' = true := by decide
  have hr : ("<>" : String).data.contains '>' = true := by decide
  apply String.ext
  simp only [Trim, List.cons_append, List.dropWhile_cons, hl, if_true]
  cases v with
  | nil => simp [List.dropWhile_cons, hr]
  | cons c cs =>
    have hc := hin c (List.mem_cons_self _ _)
    simp only [List.cons_append, List.dropWhile_cons, hc, Bool.false_eq_true, if_false]
    have e : (c :: (cs ++ ['>'])).reverse = '>' :: (c :: cs).reverse := by simp
    rw [e]
    simp only [List.dropWhile_cons, hr, if_true]
    rw [dropWhile_of_head _ (c :: cs).reverse, List.reverse_reverse]
    intro d hd
    rw [List.head?_reverse] at hd
    exact hin d (List.mem_of_getLast?_eq_some hd)

/-- A part `<url>; rel="..."` of the header, read as `nextLinkLoop` reads it: its
sections are `<url>` and the relation. -/
theorem split_link_part (url rel : List Char) (hu : ∀ c ∈ url, c ≠ ';')
    (hrel : ∀ c ∈ rel, c ≠ ';') (hlast : ∀ c, rel.getLast? = some c → isSpace c = false)
    (hne : rel ≠ []) :
    Split (TrimSpace (String.mk ('<' :: url ++ '>' :: ';' :: rel))) ';'
      = [String.mk ('<' :: url ++ ['>']), String.mk rel] := by
  have ht : TrimSpace (String.mk ('<' :: url ++ '>' :: ';' :: rel))
      = String.mk ('<' :: url ++ '>' :: ';' :: rel) := by
    apply trimSpace_eq_self
    · intro c hc
      simp only [List.cons_append, List.head?_cons, Option.some.injEq] at hc
      subst hc; decide
    · intro c hc
      have e : ('<' :: url ++ '>' :: ';' :: rel).getLast? = rel.getLast? := by
        have e1 : '<' :: url ++ '>' :: ';' :: rel = ('<' :: url ++ ['>', ';']) ++ rel := by simp
        rw [e1, List.getLast?_append_of_ne_nil _ hne]
      rw [e] at hc
      exact hlast c hc
  rw [ht]
  have e2 : '<' :: url ++ '>' :: ';' :: rel = ('<' :: url ++ ['>']) ++ ';' :: rel := by simp
  simp only [Split]
  rw [e2, splitChars_append_sep, splitChars_no_sep _ _ hrel]
  · rfl
  · intro c hc
    simp only [List.cons_append, List.mem_cons, List.mem_append, List.mem_singleton,
      List.not_mem_nil, or_false] at hc
    rcases hc with h | h | h
    · subst h; decide
    · exact hu c h
    · subst h; decide

theorem splitChars_two_parts (U V R1 R2 : List Char)
    (hU : ∀ c ∈ U, c ≠ ',') (hV : ∀ c ∈ V, c ≠ ',')
    (hR1 : ∀ c ∈ R1, c ≠ ',') (hR2 : ∀ c ∈ R2, c ≠ ',') :
    splitChars ',' (('<' :: U ++ '>' :: ';' :: R1) ++ ',' :: (' ' :: '<' :: V ++ '>' :: ';' :: R2))
      = ['<' :: U ++ '>' :: ';' :: R1, ' ' :: '<' :: V ++ '>' :: ';' :: R2] := by
  rw [splitChars_append_sep, splitChars_no_sep]
  · intro c hc
    simp only [List.cons_append, List.mem_cons, List.mem_append] at hc
    rcases hc with h | h | h | h | h | h
    · subst h; decide
    · subst h; decide
    · exact hV c h
    · subst h; decide
    · subst h; decide
    · exact hR2 c h
  · intro c hc
    simp only [List.cons_append, List.mem_cons, List.mem_append] at hc
    rcases hc with h | h | h | h | h
    · subst h; decide
    · exact hU c h
    · subst h; decide
    · subst h; decide
    · exact hR1 c h

theorem nextLinkLoop_two_parts (U V R1 R2 : List Char)
    (hU : ∀ c ∈ U, c ≠ ';') (hV : ∀ c ∈ V, c ≠ ';' ∧ c ≠ '<' ∧ c ≠ '>')
    (hR1 : ∀ c ∈ R1, c ≠ ';') (hR2 : ∀ c ∈ R2, c ≠ ';')
    (hl1 : ∀ c, R1.getLast? = some c → isSpace c = false)
    (hl2 : ∀ c, R2.getLast? = some c → isSpace c = false)
    (hn1 : R1 ≠ []) (hn2 : R2 ≠ [])
    (hr1 : TrimSpace (String.mk R1) ≠ "rel=\"next\"")
    (hr2 : TrimSpace (String.mk R2) = "rel=\"next\"") :
    nextLinkLoop [String.mk ('<' :: U ++ '>' :: ';' :: R1),
        String.mk (' ' :: '<' :: V ++ '>' :: ';' :: R2)] = String.mk V := by
  have hp1 := split_link_part U R1 hU hR1 hl1 hn1
  have hp2 := split_link_part V R2 (fun c hc => (hV c hc).1) hR2 hl2 hn2
  have hurl : TrimSpace (String.mk ('<' :: V ++ ['>'])) = String.mk ('<' :: V ++ ['>']) := by
    apply trimSpace_eq_self
    · intro c hc
      simp only [List.cons_append, List.head?_cons, Option.some.injEq] at hc
      subst hc; decide
    · intro c hc
      have e : ('<' :: V ++ ['>']).getLast? = some '>' := by
        rw [List.getLast?_append_of_ne_nil _ (by simp)]; rfl
      rw [e] at hc
      simp only [Option.some.injEq] at hc
      subst hc; decide
  rw [nextLinkLoop, hp1]
  simp only []
  have e : (' ' :: '<' :: V ++ '>' :: ';' :: R2) = ' ' :: ('<' :: V ++ '>' :: ';' :: R2) := rfl
  rw [if_neg hr1, nextLinkLoop, e, trimSpace_leading_space, hp2]
  simp only []
  rw [if_pos hr2, hurl]
  exact trim_brackets V (fun c hc => (hV c hc).2)

theorem parseNextLink_prev_next (u v : String)
    (hu : ∀ c ∈ u.data, c ≠ ',' ∧ c ≠ ';')
    (hv : ∀ c ∈ v.data, c ≠ ',' ∧ c ≠ ';' ∧ c ≠ '<' ∧ c ≠ '>') :
    ParseNextLink ("<" ++ u ++ ">; rel=\"prev\", <" ++ v ++ ">; rel=\"next\"") = v := by
  have hdata : ("<" ++ u ++ ">; rel=\"prev\", <" ++ v ++ ">; rel=\"next\"").data
      = ('<' :: u.data ++ '>' :: ';' :: (" rel=\"prev\"" : String).data)
        ++ ',' :: (' ' :: '<' :: v.data ++ '>' :: ';' :: (" rel=\"next\"" : String).data) := by
    have e1 : ("<" : String).data = ['<'] := by decide
    have e2 : (">; rel=\"prev\", <" : String).data
        = '>' :: ';' :: (" rel=\"prev\"" : String).data ++ [',', ' ', '<'] := by decide
    have e3 : (">; rel=\"next\"" : String).data
        = '>' :: ';' :: (" rel=\"next\"" : String).data := by decide
    rw [String.data_append, String.data_append, String.data_append, String.data_append,
      e1, e2, e3]
    simp only [List.cons_append, List.nil_append, List.append_assoc]
  have hne : ("<" ++ u ++ ">; rel=\"prev\", <" ++ v ++ ">; rel=\"next\"") ≠ "" := by
    intro h
    have := congrArg String.data h
    rw [hdata] at this
    simp at this
  rw [ParseNextLink, if_neg hne, Split, hdata,
    splitChars_two_parts _ _ _ _ (fun c hc => (hu c hc).1) (fun c hc => (hv c hc).1)
      (by decide) (by decide)]
  exact nextLinkLoop_two_parts u.data v.data _ _ (fun c hc => (hu c hc).2)
    (fun c hc => (hv c hc).2) (by decide) (by decide) (by decide) (by decide)
    (by decide) (by decide) (by decide) (by decide)

theorem parseNextLink_find (linkHeader : String) :
    ParseNextLink linkHeader
      = match (Split linkHeader ',').find? hasNextRelation with
        | some part => linkTarget part
        | none => "" := by
  unfold ParseNextLink
  by_cases h : linkHeader = ""
  · subst h
    rw [if_pos rfl]
    decide
  · rw [if_neg h]
    exact nextLinkLoop_find _

theorem listCommitsLoop_last_page (getJSON : String → Option (List Commit × String))
    (fuel : Nat) (url : String) (commits page : List Commit) (link : String)
    (hurl : url ≠ "") (hget : getJSON url = some (page, link))
    (hlink : ParseNextLink link = "") :
    cmdSummary.listCommitsLoop getJSON (fuel + 1) url commits = Paging.done (commits ++ page) := by
  rw [cmdSummary.listCommitsLoop, if_pos hurl, hget]
  simp only []
  rw [hlink]
  cases fuel <;> simp [cmdSummary.listCommitsLoop]

theorem find_first (p : String → Bool) (pre : List String) (part : String) (post : List String)
    (hpre : ∀ q ∈ pre, p q = false) (hpart : p part = true) :
    (pre ++ part :: post).find? p = some part := by
  induction pre with
  | nil => simp [List.find?_cons, hpart]
  | cons q qs ih =>
    rw [List.cons_append, List.find?_cons, hpre q (List.mem_cons_self _ _)]
    exact ih (fun r hr => hpre r (List.mem_cons_of_mem _ hr))

theorem find_none (p : String → Bool) (parts : List String)
    (h : ∀ q ∈ parts, p q = false) : parts.find? p = none := by
  induction parts with
  | nil => rfl
  | cons q qs ih =>
    rw [List.find?_cons, h q (List.mem_cons_self _ _)]
    exact ih (fun r hr => h r (List.mem_cons_of_mem _ hr))

/-- C19: `ParseNextLink h` is the target (the trimmed first `;`-section with its
angle brackets trimmed off) of the first comma-separated part of `h` whose second
`;`-section is, after trimming, exactly `rel="next"`; it is the empty string when
`h` is empty or no part carries that relation, and a page whose header gives the
empty string is the last one the pagination loop of `listCommitsSince` fetches.
For `u` free of `,` and `;` and `v` free of `,`, `;`, `<` and `>`, the header
`<u>; rel="prev", <v>; rel="next"` gives `v`. -/
theorem parseNextLink_spec (h u v : String)
    (hu : ∀ c ∈ u.data, c ≠ ',' ∧ c ≠ ';')
    (hv : ∀ c ∈ v.data, c ≠ ',' ∧ c ≠ ';' ∧ c ≠ '<' ∧ c ≠ '>') :
    (ParseNextLink h
      = match (Split h ',').find? hasNextRelation with
        | some part => linkTarget part
        | none => "") ∧
    (∀ pre part post, Split h ',' = pre ++ part :: post →
      (∀ q ∈ pre, hasNextRelation q = false) → hasNextRelation part = true →
      ParseNextLink h = linkTarget part) ∧
    ((h = "" ∨ ∀ q ∈ Split h ',', hasNextRelation q = false) → ParseNextLink h = "") ∧
    (∀ (getJSON : String → Option (List Commit × String)) (fuel : Nat) (url : String)
        (commits page : List Commit),
      url ≠ "" → getJSON url = some (page, h) →
      (h = "" ∨ ∀ q ∈ Split h ',', hasNextRelation q = false) →
      cmdSummary.listCommitsLoop getJSON (fuel + 1) url commits
        = Paging.done (commits ++ page)) ∧
    ParseNextLink ("<" ++ u ++ ">; rel=\"prev\", <" ++ v ++ ">; rel=\"next\"") = v := by
  have hempty : (h = "" ∨ ∀ q ∈ Split h ',', hasNextRelation q = false) →
      ParseNextLink h = "" := by
    intro hc
    rcases hc with hc | hc
    · subst hc; rfl
    · rw [parseNextLink_find, find_none _ _ hc]
  refine ⟨parseNextLink_find h, ?_, hempty, ?_, parseNextLink_prev_next u v hu hv⟩
  · intro pre part post hs hpre hpart
    rw [parseNextLink_find, hs, find_first _ _ _ _ hpre hpart]
  · intro getJSON fuel url commits page hurl hget hc
    exact listCommitsLoop_last_page getJSON fuel url commits page h hurl hget (hempty hc)

/-- Witness of C19: a header with a previous and a next page. -/
theorem parseNextLink_spec_witness :
    (∀ c ∈ ("https://api.github.com/r/commits?page=1" : String).data, c ≠ ',' ∧ c ≠ ';') ∧
    (∀ c ∈ ("https://api.github.com/r/commits?page=3" : String).data,
      c ≠ ',' ∧ c ≠ ';' ∧ c ≠ '<' ∧ c ≠ '>') ∧
    ParseNextLink ("<" ++ "https://api.github.com/r/commits?page=1" ++ ">; rel=\"prev\", <"
      ++ "https://api.github.com/r/commits?page=3" ++ ">; rel=\"next\"")
      = "https://api.github.com/r/commits?page=3" :=
  ⟨by decide, by decide,
    (parseNextLink_spec "" "https://api.github.com/r/commits?page=1"
      "https://api.github.com/r/commits?page=3" (by decide) (by decide)).2.2.2.2⟩

/-! ## The block of an item of the daily report -/

theorem intercalate_go (sep acc : String) (l : List String) :
    String.intercalate.go acc sep l = acc ++ String.join (l.map (fun a => sep ++ a)) := by
  induction l generalizing acc with
  | nil => simp [String.intercalate.go, String.join]
  | cons a rest ih =>
    rw [String.intercalate.go, ih, List.map_cons, join_cons]
    simp only [String.append_assoc]

/-- The function `strings.Join` of the model writes the elements with the separator
between them. -/
theorem join_eq_intercalate (l : List String) (sep : String) :
    Join l sep = sep.intercalate l := by
  induction l with
  | nil => rfl
  | cons a rest ih =>
    cases rest with
    | nil => simp [Join, String.intercalate, String.intercalate.go]
    | cons b rest2 =>
      rw [Join, ih]
      simp only [String.intercalate, intercalate_go, String.intercalate.go, List.map_cons,
        join_cons, String.append_assoc]

theorem renderItems_mem (items : List Item) (noneFound : String) (item : Item)
    (h : item ∈ items) :
    ∃ before after : String, renderItems items noneFound = before ++ renderItem item ++ after := by
  obtain ⟨l1, l2, hl⟩ := List.append_of_mem h
  have hlen : items.length ≠ 0 := by
    rw [hl]; simp
  refine ⟨String.join (l1.map renderItem), String.join (l2.map renderItem), ?_⟩
  simp only [renderItems, hlen, if_false]
  rw [hl, List.map_append, List.map_cons, join_append, join_cons, String.append_assoc]

/-- C21: the block of an issue or pull request in the content `UpdateDailyReport`
writes is its sub-heading, the repository, creation-time (through `utcToBJT`) and
author bullets, then the label bullet exactly when the item has a label, with all
label names in their order joined by `", "`, and an empty line. -/
theorem updateDailyReport_item_block (content : String) (issues prs : List Item) (item : Item)
    (hi : item ∈ issues ∨ item ∈ prs) :
    renderItem item
      = "### [" ++ item.Title ++ "](" ++ item.URL ++ ")\n\n"
        ++ "- **仓库**: " ++ item.RepositoryName ++ "\n"
        ++ "- **创建于**: " ++ utcToBJT item.CreatedAt ++ "\n"
        ++ "- **作者**: " ++ item.AuthorLogin ++ "\n"
        ++ (if item.Labels = [] then ""
            else "- **标签**: " ++ ", ".intercalate item.Labels ++ "\n")
        ++ "\n" ∧
    ((∃ rest : String, renderItem item
      = "### [" ++ item.Title ++ "](" ++ item.URL ++ ")\n\n"
        ++ "- **仓库**: " ++ item.RepositoryName ++ "\n"
        ++ "- **创建于**: " ++ utcToBJT item.CreatedAt ++ "\n"
        ++ "- **作者**: " ++ item.AuthorLogin ++ "\n"
        ++ "- **标签**: " ++ rest) ↔ item.Labels ≠ []) ∧
    ∃ before after : String,
      UpdateDailyReport content issues prs = before ++ renderItem item ++ after := by
  have hblock : renderItem item
      = "### [" ++ item.Title ++ "](" ++ item.URL ++ ")\n\n"
        ++ "- **仓库**: " ++ item.RepositoryName ++ "\n"
        ++ "- **创建于**: " ++ utcToBJT item.CreatedAt ++ "\n"
        ++ "- **作者**: " ++ item.AuthorLogin ++ "\n"
        ++ (if item.Labels = [] then ""
            else "- **标签**: " ++ ", ".intercalate item.Labels ++ "\n")
        ++ "\n" := by
    by_cases hl : item.Labels = []
    · simp [renderItem, hl]
    · have hlen : item.Labels.length > 0 := List.length_pos.2 hl
      simp only [renderItem, hlen, if_true, hl, if_false, join_eq_intercalate]
  refine ⟨hblock, ?_, ?_⟩
  · constructor
    · rintro ⟨rest, hrest⟩ hl
      rw [hblock, hl] at hrest
      simp only [if_true, String.append_assoc] at hrest
      have := congrArg String.data hrest
      simp only [String.data_append, List.append_cancel_left_eq] at this
      have h2 := congrArg List.head? this
      simp at h2
    · intro hl
      refine ⟨", ".intercalate item.Labels ++ "\n" ++ "\n", ?_⟩
      rw [hblock]
      simp only [hl, if_false, String.append_assoc]
  · rcases hi with hi | hi
    · obtain ⟨b, a, hba⟩ := renderItems_mem issues "暂无待解决的 Issues\n\n" item hi
      refine ⟨truncateAtSentinel content ++ sentinelHeading ++ "\n\n" ++ b,
        a ++ "## 待合并的 Pull Requests\n\n" ++ renderItems prs "暂无待合并的 Pull Requests\n\n", ?_⟩
      simp only [UpdateDailyReport, dailySections, hba, String.append_assoc]
    · obtain ⟨b, a, hba⟩ := renderItems_mem prs "暂无待合并的 Pull Requests\n\n" item hi
      refine ⟨truncateAtSentinel content ++ sentinelHeading ++ "\n\n"
        ++ renderItems issues "暂无待解决的 Issues\n\n" ++ "## 待合并的 Pull Requests\n\n" ++ b, a, ?_⟩
      simp only [UpdateDailyReport, dailySections, hba, String.append_assoc]

set_option maxRecDepth 100000 in
/-- Witness of C21: the issue of `TestUpdateDailyReport_WithData`, with two labels. -/
theorem updateDailyReport_item_block_witness :
    (testIssue ∈ [testIssue] ∨ testIssue ∈ ([] : List Item)) ∧
    renderItem testIssue
      = "### [Test Issue](https://github.com/test-org/repo/issues/1)\n\n- **仓库**: test-repo\n- **创建于**: 2026-02-13 18:00:00\n- **作者**: testuser\n- **标签**: bug, enhancement\n\n" :=
  ⟨Or.inl (List.mem_cons_self _ _),
    (updateDailyReport_item_block "" [testIssue] [] testIssue
      (Or.inl (List.mem_cons_self _ _))).1.trans (by decide)⟩

/-! ## The exit status of the command line -/

theorem args_second (args : List String) (command : String) (h : args.get? 1 = some command) :
    ¬ args.length < 2 ∧ args.getD 1 "" = command := by
  cases args with
  | nil => simp at h
  | cons a rest =>
    cases rest with
    | nil => simp at h
    | cons b rest2 =>
      simp at h
      simp [h]

/-- Counterexample to C22 as stated: with the unknown subcommand `weekly` and an
empty environment the status is 1, not 2. -/
theorem main_unknown_command_without_environment :
    ("weekly" ≠ "news" ∧ "weekly" ≠ "summary") ∧
    cmd.main (fun _ => none) ["hoa-news", "weekly"] (fun _ => "") = Outcome.exit 1 ∧
    cmd.main (fun _ => none) ["hoa-news", "weekly"] (fun _ => "") ≠ Outcome.exit 2 := by
  decide

/-- C22 (amended): `main` exits with status 2 when the subcommand argument is
missing, whatever the environment; with an argument that is neither `news` nor
`summary` it exits with status 2 when `ORG_NAME` and `PERSONAL_ACCESS_TOKEN` are set
and `repos_array` is read without error, and with status 1 otherwise, because the
environment is checked before the subcommand; with a valid subcommand and a required
variable missing it exits with status 1. -/
theorem main_exit_status (unmarshal : String → Option (List String)) (args : List String)
    (getenv : String → String) :
    (args.length < 2 → cmd.main unmarshal args getenv = Outcome.exit 2) ∧
    (∀ command, args.get? 1 = some command → command ≠ "news" → command ≠ "summary" →
      (getenv "ORG_NAME" ≠ "" → LoadPublicRepos unmarshal getenv ≠ none →
        getenv "PERSONAL_ACCESS_TOKEN" ≠ "" →
        cmd.main unmarshal args getenv = Outcome.exit 2) ∧
      (getenv "ORG_NAME" = "" ∨ LoadPublicRepos unmarshal getenv = none ∨
        getenv "PERSONAL_ACCESS_TOKEN" = "" →
        cmd.main unmarshal args getenv = Outcome.exit 1)) ∧
    (∀ command, args.get? 1 = some command → command = "news" ∨ command = "summary" →
      (getenv "ORG_NAME" = "" ∨ getenv "PERSONAL_ACCESS_TOKEN" = "" ∨
        (command = "summary" ∧ getenv "NEWS_TYPE" = "")) →
      cmd.main unmarshal args getenv = Outcome.exit 1) := by
  refine ⟨?_, ?_, ?_⟩
  · intro h
    simp only [cmd.main, h, if_true]
  · intro command hc h1 h2
    obtain ⟨hlen, hget⟩ := args_second args command hc
    constructor
    · intro ho hr hp
      cases hl : LoadPublicRepos unmarshal getenv with
      | none => exact absurd hl hr
      | some repos => simp only [cmd.main, hlen, if_false, ho, hl, hp, hget, h1, h2]
    · intro h
      by_cases ho : getenv "ORG_NAME" = ""
      · simp only [cmd.main, hlen, if_false, ho, if_true]
      · cases hl : LoadPublicRepos unmarshal getenv with
        | none => simp only [cmd.main, hlen, if_false, ho, hl]
        | some repos =>
          have hp : getenv "PERSONAL_ACCESS_TOKEN" = "" := by
            rcases h with h | h | h
            · exact absurd h ho
            · rw [hl] at h; cases h
            · exact h
          simp only [cmd.main, hlen, if_false, ho, hl, hp, if_true]
  · intro command hc hv h
    obtain ⟨hlen, hget⟩ := args_second args command hc
    by_cases ho : getenv "ORG_NAME" = ""
    · simp only [cmd.main, hlen, if_false, ho, if_true]
    · cases hl : LoadPublicRepos unmarshal getenv with
      | none => simp only [cmd.main, hlen, if_false, ho, hl]
      | some repos =>
        by_cases hp : getenv "PERSONAL_ACCESS_TOKEN" = ""
        · simp only [cmd.main, hlen, if_false, ho, hl, hp, if_true]
        · rcases h with h | h | ⟨h3, h4⟩
          · exact absurd h ho
          · exact absurd h hp
          · have hn : ¬ ("summary" = "news") := by decide
            simp only [cmd.main, hlen, if_false, ho, hl, hp, hget, h3, hn, h4, if_true]

/-! ## The order of the bullets of the daily digest -/

set_option maxRecDepth 100000 in
/-- C23: the daily digest writes the commit bullets in the order in which the
repositories and their commits were fetched. With the commit of 10:00 in the
repository visited first and the commit of 12:00 in the one visited second, the
earlier bullet comes first; visiting the repositories the other way round gives the
other order, whereas `BuildMarkdown` puts the later commit first for both. -/
theorem dailyDigest_fetch_order (emit : YamlNode → String) (now : Time) :
    (∃ fm : String,
      news.UpdateDailyReport emit id twoRepositoriesExample now "org"
          ["course-a", "course-b"] [] []
        = Except.ok ("---\n" ++ fm ++ "---\n\n" ++ "## 今日更新\n\n"
          ++ "- 张三 在 [course-a](https://github.com/org/course-a) 中提交了信息：更新实验报告 (10:00)\n\n- 李四 在 [course-b](https://github.com/org/course-b) 中提交了信息：添加课件 (12:00)\n\n"
          ++ "## 待解决的 Issues\n\n暂无待解决的 Issues\n\n"
          ++ "## 待合并的 Pull Requests\n\n暂无待合并的 Pull Requests\n\n")) ∧
    (news.collectCommits id twoRepositoriesExample ["course-a", "course-b"]).map
        (fun e => (e.AuthorName, e.Date.unixNano))
      = [("张三", 1770976800000000000), ("李四", 1770984000000000000)] ∧
    (news.collectCommits id twoRepositoriesExample ["course-b", "course-a"]).map
        (fun e => (e.AuthorName, e.Date.unixNano))
      = [("李四", 1770984000000000000), ("张三", 1770976800000000000)] ∧
    (bulletsOf (markdownChunks
        (news.collectCommits id twoRepositoriesExample ["course-a", "course-b"]))).map
        (fun e => e.AuthorName) = ["李四", "张三"] ∧
    (bulletsOf (markdownChunks
        (news.collectCommits id twoRepositoriesExample ["course-b", "course-a"]))).map
        (fun e => e.AuthorName) = ["李四", "张三"] := by
  refine ⟨⟨emitMapping emit (frontMatterOf "AUTO 更新速递" now.UTC.formatDate "每日更新"
      [{ Name := "github-actions[bot]", Link := "https://github.com/features/actions",
         Image := "https://avatars.githubusercontent.com/in/15368" }]).node.entries, ?_⟩,
    by decide, by decide, by decide, by decide⟩
  have h : news.commitSection "org"
      (news.collectCommits id twoRepositoriesExample ["course-a", "course-b"])
      = "- 张三 在 [course-a](https://github.com/org/course-a) 中提交了信息：更新实验报告 (10:00)\n\n- 李四 在 [course-b](https://github.com/org/course-b) 中提交了信息：添加课件 (12:00)\n\n" := by
    decide
  have h2 : ∀ noneFound : String, news.renderItems [] noneFound = noneFound := fun _ => rfl
  simp only [news.UpdateDailyReport, GenerateFrontMatter, Marshal, h, h2, String.append_assoc]
  rfl

/-! ## The title extraction -/

/-- The title extraction with `strings.Cut` (package `report`) and the one with
`strings.Index` and a slice (package `runner`) give the same result. -/
theorem fetchCourseName_agree (gh : GitHub) (repoName : String) :
    report.fetchCourseName gh repoName = runner.fetchCourseName gh repoName := by
  unfold report.fetchCourseName runner.fetchCourseName
  cases gh.GetRawTag repoName with
  | none => rfl
  | some text =>
    simp only [Cut]
    cases Index text "name:" with
    | none => simp
    | some i => simp

theorem append_data_eq (text p pat q : String) :
    text = p ++ pat ++ q ↔ text.data = p.data ++ pat.data ++ q.data := by
  constructor
  · intro h; rw [h]; simp [String.data_append]
  · intro h; apply String.ext; simp [String.data_append, h]

theorem runner_repoStep_no_title (caseTable : Char → Char) (gh : GitHub)
    (st : List CommitEntry × StringMap) (repo : String)
    (h : runner.fetchCourseName gh repo = some "" ∨ runner.fetchCourseName gh repo = none) :
    (runner.repoStep caseTable gh st repo).2 = st.2 := by
  unfold runner.repoStep
  cases gh.ListCommitsSince repo with
  | none => rfl
  | some cs =>
    simp only
    split
    · rcases h with h | h <;> simp [h]
    · rfl

theorem report_repoStep_no_title (caseTable : Char → Char) (gh : GitHub)
    (st : List CommitEntry × StringMap) (repo : String)
    (h : report.fetchCourseName gh repo = some "" ∨ report.fetchCourseName gh repo = none) :
    (report.repoStep caseTable gh st repo).2 = st.2 := by
  unfold report.repoStep
  cases gh.ListCommitsSince repo with
  | none => rfl
  | some cs =>
    simp only
    split
    · rcases h with h | h <;> simp [h]
    · rfl

/-- C24: for a tag file with the text `text`, the title extraction of
`fetchCourseName` fails exactly when `name:` does not occur in the text; otherwise
it returns what follows the first occurrence of `name:`, up to the end of the text,
trimmed by `strings.TrimSpace`. The version of package `report` returns the same as
the one of package `runner`, and a repository whose extracted name is empty gets no
entry in the title map. -/
theorem fetchCourseName_spec (gh : GitHub) (repo text : String)
    (hget : gh.GetRawTag repo = some text) :
    (runner.fetchCourseName gh repo = none ↔ ∀ p q : String, text ≠ p ++ "name:" ++ q) ∧
    (∀ p q : String, text = p ++ "name:" ++ q →
      (∀ p2 q2 : String, text = p2 ++ "name:" ++ q2 → p.length ≤ p2.length) →
      runner.fetchCourseName gh repo = some (TrimSpace q)) ∧
    report.fetchCourseName gh repo = runner.fetchCourseName gh repo ∧
    (runner.fetchCourseName gh repo = some "" →
      ∀ (caseTable : Char → Char) (st : List CommitEntry × StringMap),
        (runner.repoStep caseTable gh st repo).2 = st.2 ∧
        (report.repoStep caseTable gh st repo).2 = st.2) := by
  have hrun : runner.fetchCourseName gh repo
      = match strIndex "name:".data text.data with
        | none => none
        | some idx => some (TrimSpace (String.mk (text.data.drop (idx + "name:".length)))) := by
    unfold runner.fetchCourseName
    rw [hget]
    rfl
  refine ⟨?_, ?_, fetchCourseName_agree gh repo, ?_⟩
  · rw [hrun]
    constructor
    · intro h p q hpq
      cases hi : strIndex "name:".data text.data with
      | none =>
        exact strIndex_none_spec _ _ hi p.data q.data ((append_data_eq _ _ _ _).1 hpq)
      | some i => rw [hi] at h; cases h
    · intro h
      cases hi : strIndex "name:".data text.data with
      | none => rfl
      | some i =>
        exfalso
        obtain ⟨⟨tail, ht⟩, _⟩ := strIndex_some_spec _ _ i hi
        exact h (String.mk (text.data.take i)) (String.mk tail)
          ((append_data_eq _ _ _ _).2 ht)
  · intro p q hpq hmin
    rw [hrun]
    have hd := (append_data_eq _ _ _ _).1 hpq
    cases hi : strIndex "name:".data text.data with
    | none => exact absurd hd (strIndex_none_spec _ _ hi p.data q.data)
    | some i =>
      obtain ⟨⟨tail, ht⟩, hfirst⟩ := strIndex_some_spec _ _ i hi
      have h1 : i ≤ p.data.length := hfirst p.data q.data hd
      have h2 : p.length ≤ (String.mk (text.data.take i)).length :=
        hmin (String.mk (text.data.take i)) (String.mk tail) ((append_data_eq _ _ _ _).2 ht)
      have h3 : (String.mk (text.data.take i)).length ≤ i := by
        show (text.data.take i).length ≤ i
        rw [List.length_take]; exact Nat.min_le_left _ _
      have h4 : p.data.length = i := le_antisymm (le_trans h2 h3) h1
      have h5 : text.data.drop (i + "name:".length) = q.data := by
        rw [hd, ← h4, List.append_assoc]
        have : ("name:" : String).length = ("name:" : String).data.length := rfl
        rw [this, List.drop_append, List.drop_left]
      simp only [h5]
  · intro h caseTable st
    exact ⟨runner_repoStep_no_title caseTable gh st repo (Or.inl h),
      report_repoStep_no_title caseTable gh st repo
        (Or.inl ((fetchCourseName_agree gh repo).trans h))⟩

/-- Witness of C24: a tag file in which `name:` occurs twice. -/
theorem fetchCourseName_spec_witness :
    runner.fetchCourseName ⟨fun _ => none, fun _ => some "tag\nname:  高等数学 name: x \n"⟩ "r"
      = some "高等数学 name: x" ∧
    report.fetchCourseName ⟨fun _ => none, fun _ => some "tag\nname:  高等数学 name: x \n"⟩ "r"
      = runner.fetchCourseName ⟨fun _ => none, fun _ => some "tag\nname:  高等数学 name: x \n"⟩ "r" :=
  ⟨by decide,
    (fetchCourseName_spec ⟨fun _ => none, fun _ => some "tag\nname:  高等数学 name: x \n"⟩ "r"
      "tag\nname:  高等数学 name: x \n" rfl).2.2.1⟩

/-! ## The window start -/

theorem dateUTC_midnight (t : Time) :
    DateUTC t.Year t.Month t.Day 0 0 0 0 = ⟨t.localDay * 86400 * 1000000000, 0⟩ := by
  simp only [DateUTC, Time.Year, Time.Month, Time.Day, daysFromCivil_civilFromDays]
  congr 1
  ring

/-- Counterexample to C25 as stated: for `now` = 2026-02-13T10:00:00Z the window
start is 2026-02-06T00:00:00Z, which the UTC+8 clock shows as 08:00:00; midnight at
UTC+8 of the day that contains `now` minus 7 days is 2026-02-05T16:00:00Z. -/
theorem calculateStartTimeAt_not_display_midnight :
    (report.calculateStartTimeAt (DateUTC 2026 2 13 10 0 0 0)).1
      = DateUTC 2026 2 6 0 0 0 0 ∧
    midnightAtDisplayOffset ((DateUTC 2026 2 13 10 0 0 0).Add (-(7 * 24 * Hour)))
      = (DateUTC 2026 2 5 16 0 0 0).unixNano ∧
    (report.calculateStartTimeAt (DateUTC 2026 2 13 10 0 0 0)).1.unixNano
      ≠ midnightAtDisplayOffset ((DateUTC 2026 2 13 10 0 0 0).Add (-(7 * 24 * Hour))) ∧
    Time.formatDateTime
      { (report.calculateStartTimeAt (DateUTC 2026 2 13 10 0 0 0)).1 with offset := 8 * 3600 }
      = "2026-02-06 08:00:00" := by
  decide

/-- C25 (amended): for a current instant `now` given in UTC, the window start of
`calculateStartTimeAt` is `now` minus 7 days aligned down to UTC midnight: it is
00:00:00 UTC of the UTC calendar day that contains `now` minus 7 days, and both
returned values are that instant. The fetch start of `calculateStartTime` in package
`runner` for the type `weekly` is the same instant. -/
theorem calculateStartTimeAt_spec (now : Time) (hutc : now.offset = 0) :
    (report.calculateStartTimeAt now).1 = (report.calculateStartTimeAt now).2 ∧
    (report.calculateStartTimeAt now).1.offset = 0 ∧
    (report.calculateStartTimeAt now).1.unixNano
      = (now.unixNano - 7 * 24 * Hour) / 1000000000 / 86400 * 86400 * 1000000000 ∧
    (report.calculateStartTimeAt now).1.unixNano ≤ now.unixNano - 7 * 24 * Hour ∧
    now.unixNano - 7 * 24 * Hour
      < (report.calculateStartTimeAt now).1.unixNano + 24 * Hour ∧
    (report.calculateStartTimeAt now).1.localSec % 86400 = 0 ∧
    (report.calculateStartTimeAt now).1.formatDate
      = (now.Add (-(7 * 24 * Hour))).formatDate ∧
    (runner.calculateStartTime "weekly" now).1 = (report.calculateStartTimeAt now).1 := by
  have hstart : (report.calculateStartTimeAt now).1
      = ⟨(now.unixNano - 7 * 24 * Hour) / 1000000000 / 86400 * 86400 * 1000000000, 0⟩ := by
    simp only [report.calculateStartTimeAt, dateUTC_midnight, Time.localDay, Time.localSec,
      Time.Add, hutc, add_zero]
    congr 2
  have hday : (report.calculateStartTimeAt now).1.localDay
      = (now.Add (-(7 * 24 * Hour))).localDay := by
    rw [hstart]
    simp only [Time.localDay, Time.localSec, Time.Add, hutc, add_zero]
    have e : now.unixNano + -(7 * 24 * Hour) = now.unixNano - 7 * 24 * Hour := by ring
    rw [e]
    generalize (now.unixNano - 7 * 24 * Hour) / 1000000000 = S
    omega
  refine ⟨rfl, ?_, ?_, ?_, ?_, ?_, ?_, ?_⟩
  · rw [hstart]
  · rw [hstart]
  · rw [hstart]
    simp only [Hour]
    generalize now.unixNano - 7 * 24 * (3600 * 1000000000) = N
    omega
  · rw [hstart]
    simp only [Hour]
    generalize now.unixNano - 7 * 24 * (3600 * 1000000000) = N
    omega
  · rw [hstart]
    simp only [Time.localSec]
    generalize (now.unixNano - 7 * 24 * Hour) / 1000000000 / 86400 = D
    omega
  · simp only [Time.formatDate, Time.Year, Time.Month, Time.Day, hday]
  · have hu : now.UTC = now := by
      cases now
      simp only [Time.UTC] at *
      simp [hutc]
    simp only [runner.calculateStartTime, report.calculateStartTimeAt, hu, if_true]

/-- Witness of C25: the instant 2026-02-13T10:00:00Z. -/
theorem calculateStartTimeAt_spec_witness :
    (DateUTC 2026 2 13 10 0 0 0).offset = 0 ∧
    (report.calculateStartTimeAt (DateUTC 2026 2 13 10 0 0 0)).1.formatDate
      = ((DateUTC 2026 2 13 10 0 0 0).Add (-(7 * 24 * Hour))).formatDate ∧
    (report.calculateStartTimeAt (DateUTC 2026 2 13 10 0 0 0)).1.formatDateTime
      = "2026-02-06 00:00:00" :=
  ⟨rfl, (calculateStartTimeAt_spec (DateUTC 2026 2 13 10 0 0 0) rfl).2.2.2.2.2.2.1, by decide⟩

/-! ## The two bot classifiers and the entries of the table -/

theorem toLowerRune_ne_upper (caseTable : Char → Char)
    (hct : ∀ c : Char, 128 ≤ c.toNat →
      ¬ ('A'.toNat ≤ (caseTable c).toNat ∧ (caseTable c).toNat ≤ 'Z'.toNat))
    (c : Char) : toLowerRune caseTable c ≠ 'G' := by
  unfold toLowerRune
  by_cases h1 : c.toNat < 128
  · rw [if_pos h1]
    by_cases h2 : 'A'.toNat ≤ c.toNat ∧ c.toNat ≤ 'Z'.toNat
    · rw [if_pos h2]
      have ha : ('A' : Char).toNat = 65 := by decide
      have hz : ('Z' : Char).toNat = 90 := by decide
      rw [ha, hz] at h2
      obtain ⟨l, u⟩ := h2
      generalize c.toNat = n at l u
      interval_cases n <;> decide
    · rw [if_neg h2]
      intro h
      apply h2
      rw [h]
      decide
  · rw [if_neg h1]
    intro h
    have := hct c (by omega)
    rw [h] at this
    exact this (by decide)

theorem toLower_ne_mixed (caseTable : Char → Char)
    (hct : ∀ c : Char, 128 ≤ c.toNat →
      ¬ ('A'.toNat ≤ (caseTable c).toNat ∧ (caseTable c).toNat ≤ 'Z'.toNat))
    (s : String) : ToLower caseTable s ≠ "GitHub Actions" := by
  intro h
  have hd := congrArg String.data h
  have hg : ("GitHub Actions" : String).data = 'G' :: ("itHub Actions" : String).data := by
    decide
  rw [hg] at hd
  simp only [ToLower] at hd
  cases hs : s.data with
  | nil => rw [hs] at hd; simp at hd
  | cons c cs =>
    rw [hs, List.map_cons] at hd
    exact toLowerRune_ne_upper caseTable hct c (List.cons.inj hd).1

theorem knownBots_contains (s : String) (h : s ≠ "GitHub Actions") :
    knownBots.contains s = news.knownBots.contains s := by
  have e : knownBots = "GitHub Actions" :: news.knownBots := by decide
  rw [e, List.contains_cons]
  have : (s == "GitHub Actions") = false := by simpa using h
  rw [this, Bool.false_or]

/-- C26: the bot test of package `news` and the one of package `utils` return the same
for every author name and login, although the table of `utils` has the additional
entry `GitHub Actions`: a lowercased name is never that entry. The case table of
`strings.ToLower` is one that, as Unicode's, never yields an upper-case ASCII
letter. -/
theorem isBot_agree (caseTable : Char → Char)
    (hct : ∀ c : Char, 128 ≤ c.toNat →
      ¬ ('A'.toNat ≤ (caseTable c).toNat ∧ (caseTable c).toNat ≤ 'Z'.toNat))
    (authorName authorLogin : String) :
    news.IsBot caseTable authorName authorLogin = IsBot caseTable authorName authorLogin := by
  simp only [news.IsBot, IsBot,
    knownBots_contains _ (toLower_ne_mixed caseTable hct (TrimSpace authorName)),
    knownBots_contains _ (toLower_ne_mixed caseTable hct (TrimSpace authorLogin))]

/-- Witness of C26: the name `GitHub Actions`, the entry by which the tables
differ, with a case table that changes nothing beyond ASCII. -/
theorem isBot_agree_witness :
    (∀ c : Char, 128 ≤ c.toNat → ¬ ('A'.toNat ≤ (id c).toNat ∧ (id c).toNat ≤ 'Z'.toNat)) ∧
    news.IsBot id "GitHub Actions" "" = IsBot id "GitHub Actions" "" ∧
    news.IsBot id "" "Dependabot[bot]" = IsBot id "" "Dependabot[bot]" :=
  ⟨fun c h1 h2 => absurd (le_trans h1 h2.2) (by decide),
    isBot_agree id (fun c h1 h2 => absurd (le_trans h1 h2.2) (by decide)) "GitHub Actions" "",
    isBot_agree id (fun c h1 h2 => absurd (le_trans h1 h2.2) (by decide)) "" "Dependabot[bot]"⟩

/-- C27: the entry `GitHub Actions` of the table `knownBots` is not recognised, as
a name or as a login, because the name is lowercased before the lookup and the entry
is not lower case; every other entry of the table is recognised both ways. -/
theorem knownBots_mixed_case_entry (caseTable : Char → Char) :
    "GitHub Actions" ∈ knownBots ∧
    ToLower caseTable (TrimSpace "GitHub Actions") = "github actions" ∧
    IsBot caseTable "GitHub Actions" "" = false ∧
    IsBot caseTable "" "GitHub Actions" = false ∧
    (∀ k ∈ knownBots, k ≠ "GitHub Actions" →
      IsBot caseTable k "" = true ∧ IsBot caseTable "" k = true) := by
  refine ⟨by decide, rfl, rfl, rfl, ?_⟩
  intro k hk hne
  simp only [knownBots, List.mem_cons, List.mem_singleton, List.not_mem_nil, or_false] at hk
  rcases hk with h | h | h | h | h | h | h | h
  · exact absurd h hne
  all_goals (subst h; exact ⟨rfl, rfl⟩)

/-! ## The time converter and the zone; the two weekly assemblies -/

/-- Counterexample to C29 as stated: for the empty text returned by the summariser
the inline assembly writes an empty line pair that the refactored one leaves out. -/
theorem weeklyReport_empty_summary :
    assembleWeeklyReport "fm\n" (generateSummarySection (some "")) "md" = "---\nfm\n---\n\nmd" ∧
    runner.weeklyReport "fm\n" (some "") "md" = "---\nfm\n---\n\n\n\nmd" ∧
    assembleWeeklyReport "fm\n" (generateSummarySection (some "")) "md"
      ≠ runner.weeklyReport "fm\n" (some "") "md" := by
  decide

/-- C29 (amended): for every front matter, body and result of the summariser other
than the empty text (an error, or any returned text that is not empty),
`assembleWeeklyReport` applied to the result of `generateSummarySection` is the
document that `runner.Summary` builds inline; for the empty text the refactored
assembly is the document without a summary section. -/
theorem weeklyReport_agree (frontMatter markdownReport : String) (summary : Option String)
    (hs : summary ≠ some "") :
    assembleWeeklyReport frontMatter (generateSummarySection summary) markdownReport
      = runner.weeklyReport frontMatter summary markdownReport ∧
    assembleWeeklyReport frontMatter (generateSummarySection (some "")) markdownReport
      = "---\n" ++ frontMatter ++ "---\n\n" ++ markdownReport := by
  constructor
  · cases summary with
    | none => simp [assembleWeeklyReport, generateSummarySection, runner.weeklyReport]
    | some s =>
      have hne : s ≠ "" := fun h => hs (by rw [h])
      by_cases h : s = "__NO_SUMMARY__"
      · simp [assembleWeeklyReport, generateSummarySection, runner.weeklyReport, h]
      · simp [assembleWeeklyReport, generateSummarySection, runner.weeklyReport, h, hne,
          String.append_assoc]
  · simp [assembleWeeklyReport, generateSummarySection]

/-- Witness of C29: a summary text, the sentinel text and a failed call. -/
theorem weeklyReport_agree_witness :
    (some "## 本周更新摘要" : Option String) ≠ some "" ∧
    assembleWeeklyReport "fm\n" (generateSummarySection (some "## 本周更新摘要")) "md"
      = runner.weeklyReport "fm\n" (some "## 本周更新摘要") "md" ∧
    assembleWeeklyReport "fm\n" (generateSummarySection none) "md"
      = runner.weeklyReport "fm\n" none "md" :=
  ⟨by decide, (weeklyReport_agree "fm\n" "md" (some "## 本周更新摘要") (by decide)).1,
    (weeklyReport_agree "fm\n" "md" none (by decide)).1⟩

/-! ## The two weekly aggregators -/

/-- The commit loop of `report.collectWeeklyData` builds the entries of the loop of
`runner.Summary` that are not bot-authored, and the same flag. -/
theorem commitLoop_filtered (caseTable : Char → Char) (repo : String) (cs : List Commit)
    (commits : List CommitEntry) (flag : Bool) :
    report.commitLoop caseTable repo cs
        (commits.filter (fun e => !IsBot caseTable e.AuthorName e.AuthorLogin), flag)
      = ((runner.commitLoop caseTable repo cs (commits, flag)).1.filter
          (fun e => !IsBot caseTable e.AuthorName e.AuthorLogin),
         (runner.commitLoop caseTable repo cs (commits, flag)).2) := by
  induction cs generalizing commits flag with
  | nil => rfl
  | cons c rest ih =>
    rw [report.commitLoop, runner.commitLoop]
    by_cases hb : IsBot caseTable c.Name (c.Login.getD "") = true
    · simp only [hb, if_true, Bool.not_true, Bool.false_eq_true, if_false]
      cases hp : Parse c.Date with
      | none => exact ih commits flag
      | some date =>
        simp only
        have hf : (commits ++ [mkEntry repo c date]).filter
            (fun e => !IsBot caseTable e.AuthorName e.AuthorLogin)
            = commits.filter (fun e => !IsBot caseTable e.AuthorName e.AuthorLogin) := by
          rw [List.filter_append]
          simp [mkEntry, hb]
        rw [← ih (commits ++ [mkEntry repo c date]) flag, hf]
    · have hb2 : IsBot caseTable c.Name (c.Login.getD "") = false := by
        simpa using hb
      simp only [hb2, Bool.false_eq_true, if_false, Bool.not_false, if_true]
      cases hp : Parse c.Date with
      | none => exact ih commits true
      | some date =>
        simp only
        have hf : (commits ++ [mkEntry repo c date]).filter
            (fun e => !IsBot caseTable e.AuthorName e.AuthorLogin)
            = commits.filter (fun e => !IsBot caseTable e.AuthorName e.AuthorLogin)
              ++ [mkEntry repo c date] := by
          rw [List.filter_append]
          simp [mkEntry, hb2]
        rw [← ih (commits ++ [mkEntry repo c date]) true, hf]

theorem repoStep_filtered (caseTable : Char → Char) (gh : GitHub)
    (st : List CommitEntry × StringMap) (repo : String) :
    report.repoStep caseTable gh
        (st.1.filter (fun e => !IsBot caseTable e.AuthorName e.AuthorLogin), st.2) repo
      = ((runner.repoStep caseTable gh st repo).1.filter
          (fun e => !IsBot caseTable e.AuthorName e.AuthorLogin),
         (runner.repoStep caseTable gh st repo).2) := by
  unfold report.repoStep runner.repoStep
  cases gh.ListCommitsSince repo with
  | none => rfl
  | some cs =>
    simp only [commitLoop_filtered, fetchCourseName_agree]
    cases (runner.commitLoop caseTable repo cs (st.1, false)).2 with
    | false => simp
    | true =>
      simp only [if_true]
      cases runner.fetchCourseName gh repo with
      | none => rfl
      | some name =>
        by_cases hn : name = ""
        · simp [hn]
        · simp [hn]

theorem foldl_filtered_steps (caseTable : Char → Char) (gh : GitHub) (repos : List String)
    (st : List CommitEntry × StringMap) :
    repos.foldl (report.repoStep caseTable gh)
        (st.1.filter (fun e => !IsBot caseTable e.AuthorName e.AuthorLogin), st.2)
      = ((repos.foldl (runner.repoStep caseTable gh) st).1.filter
          (fun e => !IsBot caseTable e.AuthorName e.AuthorLogin),
         (repos.foldl (runner.repoStep caseTable gh) st).2) := by
  induction repos generalizing st with
  | nil => rfl
  | cons r rest ih =>
    rw [List.foldl_cons, List.foldl_cons, repoStep_filtered, ih]

/-- Counterexample to C30 as stated: for a repository with a commit of a person and
a commit of `dependabot[bot]`, `runner.Summary` builds two entries and
`report.collectWeeklyData` one. -/
theorem weekly_aggregators_differ_on_bots :
    (runner.Summary id twoRepositoriesExample ["course-b"]).1.map (fun e => e.AuthorName)
      = ["李四", "dependabot[bot]"] ∧
    (report.collectWeeklyData id twoRepositoriesExample ["course-b"]).1.map
      (fun e => e.AuthorName) = ["李四"] ∧
    (report.collectWeeklyData id twoRepositoriesExample ["course-b"]).1
      ≠ (runner.Summary id twoRepositoriesExample ["course-b"]).1 := by
  decide

/-- C30 (amended): for the same repositories visited in the same order and the same
results of the commit fetch and the tag fetch, `report.collectWeeklyData` returns the
same title map as the collection loop of `runner.Summary`, and its commit list is the
one of `runner.Summary` without the entries whose author `IsBot` takes for a bot; the
commit lists are the same when `runner.Summary` has no such entry. -/
theorem weekly_aggregators_agree (caseTable : Char → Char) (gh : GitHub)
    (repos : List String) :
    (report.collectWeeklyData caseTable gh repos).2 = (runner.Summary caseTable gh repos).2 ∧
    (report.collectWeeklyData caseTable gh repos).1
      = (runner.Summary caseTable gh repos).1.filter
          (fun e => !IsBot caseTable e.AuthorName e.AuthorLogin) ∧
    ((∀ e ∈ (runner.Summary caseTable gh repos).1,
        IsBot caseTable e.AuthorName e.AuthorLogin = false) →
      report.collectWeeklyData caseTable gh repos = runner.Summary caseTable gh repos) := by
  have h := foldl_filtered_steps caseTable gh repos ([], [])
  have h2 : report.collectWeeklyData caseTable gh repos
      = ((runner.Summary caseTable gh repos).1.filter
          (fun e => !IsBot caseTable e.AuthorName e.AuthorLogin),
         (runner.Summary caseTable gh repos).2) := h
  refine ⟨by rw [h2], by rw [h2], ?_⟩
  intro hall
  rw [h2]
  have hf : (runner.Summary caseTable gh repos).1.filter
      (fun e => !IsBot caseTable e.AuthorName e.AuthorLogin)
      = (runner.Summary caseTable gh repos).1 := by
    apply List.filter_eq_self.2
    intro e he
    simp [hall e he]
  rw [hf]

/-! ## The day headings and the bullets in the text of `BuildMarkdown` -/

theorem chineseWeekday_some (t : Time) : ∃ label : String, ChineseWeekday t = some label := by
  have hw : 0 ≤ t.Weekday ∧ t.Weekday ≤ 6 := by
    simp only [Time.Weekday]; omega
  have hlen : weekdays.length = 7 := by decide
  have hidx : ((t.Weekday + 6) % 7).toNat < weekdays.length := by
    rw [hlen]; omega
  exact ⟨weekdays.get ⟨_, hidx⟩, List.get?_eq_get hidx⟩

theorem join_flatMap {α : Type} (gs : List α) (f : α → List String) :
    String.join (gs.flatMap f) = String.join (gs.map (fun g => String.join (f g))) := by
  induction gs with
  | nil => rfl
  | cons g rest ih => rw [List.flatMap_cons, join_append, ih, List.map_cons, join_cons]

/-- The writes of the loop of `BuildMarkdown`, by runs of equal calendar day: a run
starts with its day heading unless its day is `prevDate`. -/
theorem markdownLoop_dayGroups (l : List CommitEntry) (prevDate : String) :
    markdownLoop l prevDate
      = match dayGroups l with
        | [] => []
        | g :: gs =>
          (if g.1.formatDate ≠ prevDate then [Chunk.day g.1] else [])
            ++ g.2.map Chunk.bullet
            ++ gs.flatMap (fun g => Chunk.day g.1 :: g.2.map Chunk.bullet) := by
  induction l generalizing prevDate with
  | nil => rfl
  | cons c rest ih =>
    have hstep : markdownLoop (c :: rest) prevDate
        = (if c.Date.formatDate ≠ prevDate then [Chunk.day c.Date] else [])
          ++ Chunk.bullet c :: markdownLoop rest c.Date.formatDate := by
      rw [markdownLoop]
      by_cases h : c.Date.formatDate ≠ prevDate
      · simp only [h, if_true, ne_eq, not_false_eq_true, List.cons_append, List.nil_append]
      · have h2 : c.Date.formatDate = prevDate := by
          by_contra hc
          exact h hc
        subst h2
        simp
    rw [hstep, ih c.Date.formatDate, dayGroups]
    cases hg : dayGroups rest with
    | nil => simp
    | cons g gs =>
      simp only
      by_cases hd : c.Date.formatDate = g.1.formatDate
      · simp [hd]
      · have hd2 : ¬ (g.1.formatDate = c.Date.formatDate) := fun e => hd e.symm
        simp [hd, hd2]

theorem markdownLoop_groups (l : List CommitEntry) :
    markdownLoop l "" = (dayGroups l).flatMap (fun g => Chunk.day g.1 :: g.2.map Chunk.bullet) := by
  rw [markdownLoop_dayGroups]
  cases dayGroups l with
  | nil => rfl
  | cons g gs =>
    simp only [ne_eq, formatDate_ne_empty, not_false_eq_true, if_true, List.flatMap_cons,
      List.cons_append, List.nil_append]

theorem dayGroups_flatten (l : List CommitEntry) :
    (dayGroups l).flatMap (fun g => g.2) = l := by
  induction l with
  | nil => rfl
  | cons c rest ih =>
    rw [dayGroups]
    cases hg : dayGroups rest with
    | nil =>
      rw [hg] at ih
      simp only [List.flatMap_nil] at ih
      simp [← ih]
    | cons g gs =>
      rw [hg] at ih
      simp only [List.flatMap_cons] at ih
      by_cases hd : c.Date.formatDate = g.1.formatDate
      · simp [hd, ih]
      · simp [hd, ih]

theorem dayGroups_same_day (l : List CommitEntry) :
    ∀ g ∈ dayGroups l, g.2 ≠ [] ∧ ∀ c ∈ g.2, c.Date.formatDate = g.1.formatDate := by
  induction l with
  | nil => intro g hg; simp [dayGroups] at hg
  | cons c rest ih =>
    intro g hg
    rw [dayGroups] at hg
    cases hr : dayGroups rest with
    | nil =>
      rw [hr] at hg
      simp only [List.mem_singleton] at hg
      subst hg
      simp
    | cons g0 gs =>
      rw [hr] at hg ih
      simp only at hg
      by_cases hd : c.Date.formatDate = g0.1.formatDate
      · simp only [hd, if_true, List.mem_cons] at hg
        rcases hg with e | e
        · subst e
          refine ⟨by simp, ?_⟩
          intro x hx
          simp only [List.mem_cons] at hx
          rcases hx with e2 | e2
          · subst e2; rfl
          · simp only
            rw [hd]
            exact (ih g0 (List.mem_cons_self _ _)).2 x e2
        · exact ih g (List.mem_cons_of_mem _ e)
      · simp only [hd, if_false, List.mem_cons] at hg
        rcases hg with e | e
        · subst e; simp
        · exact ih g (by simpa using e)

theorem dayHeadingsOf_bullets (cs : List CommitEntry) (rest : List Chunk) :
    dayHeadingsOf (cs.map Chunk.bullet ++ rest) = dayHeadingsOf rest := by
  induction cs with
  | nil => rfl
  | cons c more ih => simpa [dayHeadingsOf] using ih

theorem dayHeadingsOf_groups (gs : List (Time × List CommitEntry)) :
    dayHeadingsOf (gs.flatMap (fun g => Chunk.day g.1 :: g.2.map Chunk.bullet))
      = gs.map (fun g => g.1) := by
  induction gs with
  | nil => rfl
  | cons g rest ih =>
    rw [List.flatMap_cons, List.cons_append, dayHeadingsOf, dayHeadingsOf_bullets, ih,
      List.map_cons]

/-- C2: for a non-empty list whose dates are all in one zone, the text
`BuildMarkdown` returns is the section heading followed by one block per distinct
calendar day `YYYY-MM-DD` of the list, in strictly descending order of the day: each
block is the day heading `### <weekday> (<month>.<day>)` of its day followed by the
bullets of the entries of that day, so every bullet stands after the heading of its
own day and before the next heading, and there are as many day headings as distinct
days. -/
theorem buildMarkdown_day_headings (commits : List CommitEntry) (repoTitles : StringMap)
    (orgName : String) (zone : Int)
    (hne : commits ≠ []) (hzone : ∀ c ∈ commits, c.Date.offset = zone) :
    ∃ groups : List (Time × List CommitEntry),
      BuildMarkdown commits repoTitles orgName
        = "## 更新内容\n\n" ++ String.join (groups.map (fun g =>
            "### " ++ (ChineseWeekday g.1).getD "" ++ " (" ++ fmtInt g.1.Month ++ "."
              ++ fmtInt g.1.Day ++ ")\n\n"
              ++ String.join (g.2.map (bulletText repoTitles orgName)))) ∧
      (groups.flatMap (fun g => g.2)).Perm commits ∧
      (∀ g ∈ groups, g.2 ≠ [] ∧ ∀ c ∈ g.2, c.Date.formatDate = g.1.formatDate) ∧
      (∀ g ∈ groups, ∃ label : String, ChineseWeekday g.1 = some label) ∧
      (groups.map (fun g => g.1.formatDate)).Perm
        ((commits.map (fun c => c.Date.formatDate)).dedup) ∧
      groups.Pairwise (fun a b => b.1.localDay < a.1.localDay) ∧
      groups.length = ((commits.map (fun c => c.Date.formatDate)).dedup).length := by
  have hlen : commits.length ≠ 0 := fun h => hne (List.length_eq_zero.1 h)
  obtain ⟨h1, _, h3, _⟩ := markdownChunks_day_headings commits zone hne hzone
  have hchunks : markdownChunks commits
      = Chunk.title :: (dayGroups (sortSlice newerFirst commits)).flatMap
          (fun g => Chunk.day g.1 :: g.2.map Chunk.bullet) := by
    simp only [markdownChunks, hlen, if_false, markdownLoop_groups]
  have hheads : dayHeadingsOf (markdownChunks commits)
      = (dayGroups (sortSlice newerFirst commits)).map (fun g => g.1) := by
    rw [hchunks]
    show dayHeadingsOf ((dayGroups (sortSlice newerFirst commits)).flatMap
      (fun g => Chunk.day g.1 :: g.2.map Chunk.bullet)) = _
    exact dayHeadingsOf_groups _
  rw [hheads] at h1 h3
  refine ⟨dayGroups (sortSlice newerFirst commits), ?_, ?_, dayGroups_same_day _, ?_, ?_, ?_, ?_⟩
  · unfold BuildMarkdown
    rw [hchunks, List.map_cons, join_cons, List.map_flatMap, join_flatMap]
    simp only [Chunk.text, List.map_cons, join_cons, List.map_map, dayHeadingText,
      String.append_assoc]
    rfl
  · rw [dayGroups_flatten]
    exact sortSlice_perm _ _
  · intro g _
    exact chineseWeekday_some g.1
  · simpa [List.map_map] using h1
  · exact (List.pairwise_map.1 h3)
  · have := h1.length_eq
    simpa using this

set_option maxRecDepth 100000 in
/-- Witness of C2: the two commits of `TestBuildMarkdown` on two days give two day
headings, the later day first. -/
theorem buildMarkdown_day_headings_witness :
    twoDayTestCommits ≠ [] ∧ (∀ c ∈ twoDayTestCommits, c.Date.offset = 0) ∧
    (∃ groups : List (Time × List CommitEntry), groups.length = 2 ∧
      BuildMarkdown twoDayTestCommits [] "HITSZ-OpenAuto"
        = "## 更新内容\n\n" ++ String.join (groups.map (fun g =>
            "### " ++ (ChineseWeekday g.1).getD "" ++ " (" ++ fmtInt g.1.Month ++ "."
              ++ fmtInt g.1.Day ++ ")\n\n"
              ++ String.join (g.2.map (bulletText [] "HITSZ-OpenAuto"))))) ∧
    BuildMarkdown twoDayTestCommits [] "HITSZ-OpenAuto"
      = "## 更新内容\n\n### 周五 (2.13)\n\n- 用户A 在 [MATH1002](https://github.com/HITSZ-OpenAuto/MATH1002) 中提交了信息：周四的更新\n\n### 周四 (2.12)\n\n- 用户B 在 [CS1001](https://github.com/HITSZ-OpenAuto/CS1001) 中提交了信息：周三的更新\n\n" :=
  ⟨by decide, by decide,
    (buildMarkdown_day_headings twoDayTestCommits [] "HITSZ-OpenAuto" 0 (by decide)
      (by decide)).elim (fun groups h => ⟨groups, h.2.2.2.2.2.2.trans (by decide), h.1⟩),
    by decide⟩

/-- C12: for an entry `e` of the list, the text `BuildMarkdown` returns contains the
bullet of `e`, which is `"- "`, the author name, `" 在 ["`, the title, the link with
the raw repository identifier, the first line of the message and two newlines; the
title is the map entry of the repository when there is one and it is not empty, and
the repository identifier otherwise. The text returned is the concatenation of the
texts of the writes, of which the bullet of `e` is one. -/
theorem bullet_text (commits : List CommitEntry) (repoTitles : StringMap) (orgName : String)
    (e : CommitEntry) (he : e ∈ commits) :
    ∃ title first before after : String,
      title = (match repoTitles.lookup e.RepoName with
        | some t => if t = "" then e.RepoName else t
        | none => e.RepoName) ∧
      (Split e.Message '\n').head? = some first ∧
      (∀ c ∈ first.data, c ≠ '\n') ∧
      (e.Message = first ∨ ∃ rest : String, e.Message = first ++ "\n" ++ rest) ∧
      BuildMarkdown commits repoTitles orgName
        = before ++ ("- " ++ e.AuthorName ++ " 在 [" ++ title ++ "](https://github.com/"
            ++ orgName ++ "/" ++ e.RepoName ++ ") 中提交了信息：" ++ first ++ "\n\n") ++ after ∧
      (∃ pre post : List Chunk, markdownChunks commits = pre ++ Chunk.bullet e :: post ∧
        before = String.join (pre.map (Chunk.text repoTitles orgName)) ∧
        after = String.join (post.map (Chunk.text repoTitles orgName))) := by
  obtain ⟨hmem, title, first, h1, h2, h3, h4, h5⟩ :=
    chunk_bullet_text commits repoTitles orgName e he
  obtain ⟨pre, post, hsplit⟩ := List.append_of_mem hmem
  refine ⟨title, first, String.join (pre.map (Chunk.text repoTitles orgName)),
    String.join (post.map (Chunk.text repoTitles orgName)), h1, h2, h3, h4, ?_,
    ⟨pre, post, hsplit, rfl, rfl⟩⟩
  unfold BuildMarkdown
  rw [hsplit, List.map_append, List.map_cons, join_append, join_cons, h5]
  simp only [String.append_assoc]

set_option maxRecDepth 100000 in
/-- Witness of C12: the oldest commit of the sorting test, and the single commit of
`TestBuildMarkdown` with and without a title for its repository. -/
theorem bullet_text_witness :
    (⟨"User A", "", DateUTC 2026 2 10 10 0 0 0, "Old commit", "repo1"⟩ : CommitEntry)
      ∈ sortingTestCommits ∧
    (∃ before after : String, BuildMarkdown sortingTestCommits [] "test-org"
      = before ++ ("- " ++ "User A" ++ " 在 [" ++ "repo1" ++ "](https://github.com/"
          ++ "test-org" ++ "/" ++ "repo1" ++ ") 中提交了信息：" ++ "Old commit" ++ "\n\n")
        ++ after) ∧
    BuildMarkdown [⟨"张三", "zhangsan", DateUTC 2026 2 13 10 30 0 0, "更新实验报告\n细节",
        "MATH1002"⟩] [("MATH1002", "高等数学A（下）")] "HITSZ-OpenAuto"
      = "## 更新内容\n\n### 周五 (2.13)\n\n- 张三 在 [高等数学A（下）](https://github.com/HITSZ-OpenAuto/MATH1002) 中提交了信息：更新实验报告\n\n" ∧
    BuildMarkdown [⟨"测试用户", "testuser", DateUTC 2026 2 13 10 0 0 0, "测试提交",
        "UNKNOWN_REPO"⟩] [("MATH1002", "高等数学A（下）")] "HITSZ-OpenAuto"
      = "## 更新内容\n\n### 周五 (2.13)\n\n- 测试用户 在 [UNKNOWN_REPO](https://github.com/HITSZ-OpenAuto/UNKNOWN_REPO) 中提交了信息：测试提交\n\n" :=
  ⟨by decide,
    (bullet_text sortingTestCommits [] "test-org"
      ⟨"User A", "", DateUTC 2026 2 10 10 0 0 0, "Old commit", "repo1"⟩ (by decide)).elim
      (fun title h => h.elim (fun first h => h.elim (fun before h => h.elim (fun after h =>
        ⟨before, after, by
          obtain ⟨h1, h2, _, _, h5, _⟩ := h
          have e1 : title = "repo1" := h1
          have e0 : (Split "Old commit" '\n').head? = some "Old commit" := by decide
          have e2 : first = "Old commit" := (Option.some.inj (e0.symm.trans h2)).symm
          subst e1
          subst e2
          exact h5⟩)))),
    by decide, by decide⟩

end Hoa
